import Mathlib

/-!
# E20 cache simulator (`simcache.cpp`): a shallow embedding and its properties

The definitions below follow `src/simcache.cpp` function by function.

Conventions of the embedding:

* `uint16_t` and `unsigned` values are natural numbers; every place where the
  source wraps (`% REG_SIZE`, `% MEM_SIZE`, the conversion of an `int` to
  `uint16_t`, 32-bit `unsigned` arithmetic, the conversion of a negative `int`
  to `size_t`) is written out with an explicit modulus.
* The `int` fields of a cache block (`tag`, `lastUsed`, `data`) and the
  `lruCounter` are integers.  The counter grows by one per access; the overflow
  of `++lruCounter` on a 32-bit `int` (undefined behaviour once the counter is
  2147483647) is not modelled, so the model agrees with the source while the
  counter stays below that value.  Every statement whose truth depends on the
  value of the counter or of a recency carries that bound as a hypothesis.
* The source indexes `rows[index][i]` without a bounds check.  The model agrees
  with it on well-formed caches (`Cache.WF`: at least one row, `numRows` rows of
  `associativity` slots each, positive `blocksize`), where every index is in
  bounds; outside them the source's behaviour is undefined and the model's value
  (a default block, an ignored assignment) means nothing.
* The geometry of a cache is given by natural numbers; the source computes
  `size / (associativity * blocksize)` on `int`, which is the same value when
  `associativity * blocksize` is positive and, like `size`, at most 2147483647.
* `regs` and `memory` are total maps from indices to values; the source's arrays
  are only indexed with `x & 7` and `x % MEM_SIZE`.
* `print_log_entry` appends a `LogEntry` to the machine's `log`.
* `exit(1)` in `execute_instruction` is the result `none`.
-/

namespace E20

/-! ## Constants -/

def NUM_REGS : Nat := 8
def MEM_SIZE : Nat := 2 ^ 13
def REG_SIZE : Nat := 2 ^ 16

/-! ## Log entries (`print_log_entry`) -/

/-- The `cache_name` argument of `print_log_entry`: "L1" or "L2". -/
inductive CacheName where
  | L1
  | L2
deriving DecidableEq

/-- The `status` argument of `print_log_entry`: "SW", "HIT" or "MISS". -/
inductive Status where
  | SW
  | HIT
  | MISS
deriving DecidableEq

/-- One line printed by `print_log_entry`. -/
structure LogEntry where
  cache_name : CacheName
  status : Status
  pc : Nat
  addr : Nat
  row : Nat
deriving DecidableEq

/-! ## Cache -/

/-- Class `CacheBlock`. -/
structure CacheBlock where
  tag : Int
  valid : Bool
  lastUsed : Int
  data : Int
deriving DecidableEq

/-- The default constructor `CacheBlock() : tag(-1), valid(false), lastUsed(0), data(0)`. -/
instance : Inhabited CacheBlock := ⟨⟨-1, false, 0, 0⟩⟩

/-- Class `Cache`. -/
structure Cache where
  size : Nat
  associativity : Nat
  blocksize : Nat
  numRows : Nat
  rows : List (List CacheBlock)
  lruCounter : Int
deriving DecidableEq

/-- The constructor `Cache(size, associativity, blocksize)`:
`numRows = size / (associativity * blocksize)`, `rows.resize(numRows)` and every
row resized to `associativity` default blocks.  The source computes the product
and the quotient on `int`: this definition is that computation when
`associativity * blocksize` is positive and, like `size`, at most 2147483647.
(The source traps on a zero product and wraps a larger one; the value here, 0 for
a zero product, is then not the source's.) -/
def Cache.new (size associativity blocksize : Nat) : Cache :=
  { size := size
    associativity := associativity
    blocksize := blocksize
    numRows := size / (associativity * blocksize)
    rows := List.replicate (size / (associativity * blocksize))
              (List.replicate associativity default)
    lruCounter := 0 }

def Cache.getNumRows (c : Cache) : Nat := c.numRows

/-- The block `rows[rowIndex][i]`, for `rowIndex` and `i` in bounds (out of bounds
the source's access is undefined; the default block here is then meaningless). -/
def Cache.block (c : Cache) (rowIndex i : Nat) : CacheBlock :=
  (c.rows.getD rowIndex []).getD i default

/-- The assignment `rows[rowIndex][i] = b`, for `rowIndex` and `i` in bounds (out
of bounds the source's write is undefined; here it changes nothing). -/
def Cache.setBlock (c : Cache) (rowIndex i : Nat) (b : CacheBlock) : Cache :=
  { c with rows := c.rows.set rowIndex ((c.rows.getD rowIndex []).set i b) }

/-- The loop of `findLRUBlockIndex`: `n` iterations remain, `i` is the loop
variable, `lruIndex` and `minUsed` are the running minimum. -/
def Cache.findLRULoop (c : Cache) (rowIndex : Nat) : Nat → Nat → Nat → Int → Nat
  | 0, _, lruIndex, _ => lruIndex
  | n + 1, i, lruIndex, minUsed =>
    if (c.block rowIndex i).lastUsed < minUsed then
      Cache.findLRULoop c rowIndex n (i + 1) i (c.block rowIndex i).lastUsed
    else
      Cache.findLRULoop c rowIndex n (i + 1) lruIndex minUsed

/-- `Cache::findLRUBlockIndex`: `for (i = 1; i < associativity; ++i)` starting
from `lruIndex = 0`, `minUsed = rows[rowIndex][0].lastUsed`. -/
def Cache.findLRUBlockIndex (c : Cache) (rowIndex : Nat) : Nat :=
  c.findLRULoop rowIndex (c.associativity - 1) 1 0 (c.block rowIndex 0).lastUsed

/-- The search loop of `accessCache`: the first `i` (among the `n` indices from
`i` on) with `rows[index][i].valid && rows[index][i].tag == tag`. -/
def Cache.searchLoop (c : Cache) (index : Nat) (tag : Int) : Nat → Nat → Option Nat
  | 0, _ => none
  | n + 1, i =>
    if (c.block index i).valid && (c.block index i).tag == tag then some i
    else Cache.searchLoop c index tag n (i + 1)

/-- Halving loop behind `log2`: `fuel` bounds the number of halvings. -/
def log2Loop : Nat → Nat → Nat
  | 0, _ => 0
  | fuel + 1, n => if 2 ≤ n then log2Loop fuel (n / 2) + 1 else 0

/-- The expression `(int) log2(n)` for an `int` `n ≥ 1`: the base-2 logarithm
rounded down (equal to `Nat.log2 n`, see `log2_eq`).  For `n = 0` the source
converts minus infinity to `int`, which is undefined; the value here is 0. -/
def log2 (n : Nat) : Nat := log2Loop n n

/-- `offsetBits = log2(blocksize)` truncated to `int`. -/
def Cache.offsetBits (c : Cache) : Nat := log2 c.blocksize

/-- `indexBits = log2(numRows)` truncated to `int`. -/
def Cache.indexBits (c : Cache) : Nat := log2 c.numRows

/-- `index = (address >> offsetBits) & ((1 << indexBits) - 1)`. -/
def Cache.index (c : Cache) (address : Nat) : Nat :=
  (address >>> c.offsetBits) &&& ((1 <<< c.indexBits) - 1)

/-- `tag = address >> (offsetBits + indexBits)`. -/
def Cache.tag (c : Cache) (address : Nat) : Int :=
  ((address >>> (c.offsetBits + c.indexBits) : Nat) : Int)

/-- What `accessCache` hands back: the pair `{hit, index}`, the reference
parameter `data` after the call, and the cache after the call. -/
structure AccessResult where
  hit : Bool
  index : Nat
  data : Int
  cache : Cache
deriving DecidableEq

/-- `Cache::accessCache(address, data, isWrite)`, on a well-formed cache whose
`lruCounter` is below 2147483647 (`++lruCounter` is then the exact increment). -/
def Cache.accessCache (c : Cache) (address : Nat) (data : Int) (isWrite : Bool) :
    AccessResult :=
  let index := c.index address
  let tag := c.tag address
  match c.searchLoop index tag c.associativity 0 with
  | some i =>
    let b := c.block index i
    let b1 : CacheBlock := if isWrite then { b with data := data } else b
    let data1 : Int := if isWrite then data else b.data
    let c1 := c.setBlock index i { b1 with lastUsed := c.lruCounter + 1 }
    { hit := true, index := index, data := data1,
      cache := { c1 with lruCounter := c.lruCounter + 1 } }
  | none =>
    let lruIndex := c.findLRUBlockIndex index
    let b := c.block index lruIndex
    let b1 : CacheBlock := { b with valid := true, tag := tag, lastUsed := c.lruCounter + 1 }
    let b2 : CacheBlock := if isWrite then { b1 with data := data } else b1
    let data1 : Int := if isWrite then data else -1
    let c1 := c.setBlock index lruIndex b2
    { hit := false, index := index, data := data1,
      cache := { c1 with lruCounter := c.lruCounter + 1 } }

/-- `Cache::writeThrough(address, data, rowIndex)`: the cache after the call and
the value left in `rowIndex`. -/
def Cache.writeThrough (c : Cache) (address : Nat) (data : Int) : Cache × Nat :=
  let result := c.accessCache address data true
  (result.cache, result.index)

/-! ## Machine state -/

/-- Everything `execute_instruction` reads and writes: `pc`, `regs`, `memory`,
`running`, the two caches (`L2CachePtr` is `none` for `nullptr`) and the lines
printed so far. -/
structure Machine where
  pc : Nat
  regs : Nat → Nat
  memory : Nat → Nat
  running : Bool
  L1Cache : Cache
  L2CachePtr : Option Cache
  log : List LogEntry

/-- The array assignment `a[i] = v`. -/
def assign (a : Nat → Nat) (i v : Nat) : Nat → Nat :=
  fun j => if j = i then v else a j

/-- Conversion of an `int` to `uint16_t`. -/
def toU16 (x : Int) : Nat := (x % 65536).toNat

/-- Conversion of an `int` to `size_t` (64 bits). -/
def toSizeT (x : Int) : Nat := (x % 2 ^ 64).toNat

/-- Conversion of an `int` to `unsigned` (32 bits). -/
def toUnsigned (x : Int) : Nat := (x % 2 ^ 32).toNat

/-- `sign_extend_7bit(imm)`. -/
def sign_extend_7bit (imm : Nat) : Int :=
  if imm >>> 6 ≠ 0 then -64 + ((imm &&& 0b111111 : Nat) : Int) else (imm : Int)

/-! ## Instructions -/

/-- `add`: `regs[regDst] = (regs[regSrcA] + regs[regSrcB]) % REG_SIZE` unless `regDst == 0`. -/
def add (regDst regSrcA regSrcB : Nat) (regs : Nat → Nat) : Nat → Nat :=
  if regDst ≠ 0 then assign regs regDst ((regs regSrcA + regs regSrcB) % REG_SIZE) else regs

/-- `sub`: the `int` difference is converted to `size_t` before `% REG_SIZE`. -/
def sub (regDst regSrcA regSrcB : Nat) (regs : Nat → Nat) : Nat → Nat :=
  if regDst ≠ 0 then
    assign regs regDst (toSizeT ((regs regSrcA : Int) - (regs regSrcB : Int)) % REG_SIZE)
  else regs

/-- `or_instr`. -/
def or_instr (regDst regSrcA regSrcB : Nat) (regs : Nat → Nat) : Nat → Nat :=
  if regDst ≠ 0 then assign regs regDst (regs regSrcA ||| regs regSrcB) else regs

/-- `and_instr`. -/
def and_instr (regDst regSrcA regSrcB : Nat) (regs : Nat → Nat) : Nat → Nat :=
  if regDst ≠ 0 then assign regs regDst (regs regSrcA &&& regs regSrcB) else regs

/-- `slt`. -/
def slt (regDst regSrcA regSrcB : Nat) (regs : Nat → Nat) : Nat → Nat :=
  if regDst ≠ 0 then assign regs regDst (if regs regSrcA < regs regSrcB then 1 else 0) else regs

/-- `jr`: the new `pc`. -/
def jr (reg : Nat) (regs : Nat → Nat) : Nat := regs reg % MEM_SIZE

/-- `slti`. -/
def slti (regDst regSrc imm : Nat) (regs : Nat → Nat) : Nat → Nat :=
  if regDst ≠ 0 then
    assign regs regDst (if (regs regSrc : Int) < sign_extend_7bit imm then 1 else 0)
  else regs

/-- The local `effectiveAddress = (regs[regAddr] + imm) % MEM_SIZE` of `lw` and `sw`. -/
def effectiveAddress (regs : Nat → Nat) (regAddr imm : Nat) : Nat :=
  (regs regAddr + imm) % MEM_SIZE

/-- `lw`. -/
def lw (regDst regAddr imm : Nat) (m : Machine) : Machine :=
  let effectiveAddress := effectiveAddress m.regs regAddr imm
  let result := m.L1Cache.accessCache effectiveAddress 0 false
  if result.hit then
    { m with
      regs := assign m.regs regDst (toU16 result.data)
      L1Cache := result.cache
      log := m.log ++ [⟨.L1, .HIT, m.pc, effectiveAddress, result.index⟩] }
  else
    match m.L2CachePtr with
    | some l2 =>
      let L2Result := l2.accessCache effectiveAddress result.data false
      if L2Result.hit then
        let regs1 := assign m.regs regDst (toU16 L2Result.data)
        let w1 := result.cache.writeThrough effectiveAddress (regs1 regDst)
        { m with
          regs := regs1
          L1Cache := w1.1
          L2CachePtr := some L2Result.cache
          log := m.log ++ [⟨.L2, .HIT, m.pc, effectiveAddress, L2Result.index⟩,
                           ⟨.L1, .MISS, m.pc, effectiveAddress, w1.2⟩] }
      else
        let regs1 := assign m.regs regDst (m.memory effectiveAddress)
        let w2 := L2Result.cache.writeThrough effectiveAddress (regs1 regDst)
        let w1 := result.cache.writeThrough effectiveAddress (regs1 regDst)
        { m with
          regs := regs1
          L1Cache := w1.1
          L2CachePtr := some w2.1
          log := m.log ++ [⟨.L2, .MISS, m.pc, effectiveAddress, L2Result.index⟩,
                           ⟨.L2, .SW, m.pc, effectiveAddress, w2.2⟩,
                           ⟨.L1, .MISS, m.pc, effectiveAddress, w1.2⟩] }
    | none =>
      let regs1 := assign m.regs regDst (m.memory effectiveAddress)
      let w1 := result.cache.writeThrough effectiveAddress (regs1 regDst)
      { m with
        regs := regs1
        L1Cache := w1.1
        log := m.log ++ [⟨.L1, .MISS, m.pc, effectiveAddress, w1.2⟩] }

/-- `sw`. -/
def sw (regSrc regAddr imm : Nat) (m : Machine) : Machine :=
  let effectiveAddress := effectiveAddress m.regs regAddr imm
  let memory1 := assign m.memory effectiveAddress (m.regs regSrc)
  let w1 := m.L1Cache.writeThrough effectiveAddress (m.regs regSrc)
  let log1 := m.log ++ [⟨.L1, .SW, m.pc, effectiveAddress, w1.2⟩]
  match m.L2CachePtr with
  | some l2 =>
    let w2 := l2.writeThrough effectiveAddress (m.regs regSrc)
    { m with
      memory := memory1
      L1Cache := w1.1
      L2CachePtr := some w2.1
      log := log1 ++ [⟨.L2, .SW, m.pc, effectiveAddress, w2.2⟩] }
  | none =>
    { m with memory := memory1, L1Cache := w1.1, log := log1 }

/-- `jeq`: the new `pc`; `pc + imm + 1` is 32-bit `unsigned` arithmetic. -/
def jeq (regA regB imm : Nat) (pc : Nat) (regs : Nat → Nat) : Nat :=
  if regs regA = regs regB then
    toUnsigned ((pc : Int) + sign_extend_7bit imm + 1) % MEM_SIZE
  else
    toUnsigned ((pc : Int) + 1) % MEM_SIZE

/-- `addi`: the `int` sum is converted to `size_t` before `% REG_SIZE`. -/
def addi (regDst regSrc imm : Nat) (regs : Nat → Nat) : Nat → Nat :=
  if regDst ≠ 0 then
    assign regs regDst (toSizeT ((regs regSrc : Int) + sign_extend_7bit imm) % REG_SIZE)
  else regs

/-- `j`: the new `pc`. -/
def j (imm : Nat) : Nat := imm % MEM_SIZE

/-- `jal`: the new registers and the new `pc`. -/
def jal (pc : Nat) (regs : Nat → Nat) (imm : Nat) : (Nat → Nat) × Nat :=
  (assign regs 7 (toUnsigned ((pc : Int) + 1) % MEM_SIZE), imm % MEM_SIZE)

/-- The statement `pc = (pc + 1) % MEM_SIZE`. -/
def nextPc (pc : Nat) : Nat := toUnsigned ((pc : Int) + 1) % MEM_SIZE

/-- `execute_instruction`; `none` is `exit(1)` on an unknown opcode. -/
def execute_instruction (instr : Nat) (m : Machine) : Option Machine :=
  let opcode := instr >>> 13
  if opcode = 0 then
    let regSrcA := (instr >>> 10) &&& 7
    let regSrcB := (instr >>> 7) &&& 7
    let regDst := (instr >>> 4) &&& 7
    let choice := instr &&& 0b1111
    if choice = 0 then
      some { m with regs := add regDst regSrcA regSrcB m.regs, pc := nextPc m.pc }
    else if choice = 1 then
      some { m with regs := sub regDst regSrcA regSrcB m.regs, pc := nextPc m.pc }
    else if choice = 2 then
      some { m with regs := or_instr regDst regSrcA regSrcB m.regs, pc := nextPc m.pc }
    else if choice = 3 then
      some { m with regs := and_instr regDst regSrcA regSrcB m.regs, pc := nextPc m.pc }
    else if choice = 4 then
      some { m with regs := slt regDst regSrcA regSrcB m.regs, pc := nextPc m.pc }
    else if choice = 8 then
      some { m with pc := jr regSrcA m.regs }
    else some m
  else if opcode = 1 then
    let regSrc := (instr >>> 10) &&& 7
    let regDst := (instr >>> 7) &&& 7
    let imm := instr &&& 0b1111111
    some { m with regs := addi regDst regSrc imm m.regs, pc := nextPc m.pc }
  else if opcode = 2 then
    let imm := instr &&& 0x1FFF
    if imm = m.pc then some { m with running := false }
    else some { m with pc := j imm }
  else if opcode = 3 then
    let imm := instr &&& 0x1FFF
    let r := jal m.pc m.regs imm
    some { m with regs := r.1, pc := r.2 }
  else if opcode = 4 then
    let regAddr := (instr >>> 10) &&& 7
    let regDst := (instr >>> 7) &&& 7
    let imm := instr &&& 0b1111111
    let m1 := lw regDst regAddr imm m
    some { m1 with pc := nextPc m1.pc }
  else if opcode = 5 then
    let regAddr := (instr >>> 10) &&& 7
    let regSrc := (instr >>> 7) &&& 7
    let imm := instr &&& 0b1111111
    let m1 := sw regSrc regAddr imm m
    some { m1 with pc := nextPc m1.pc }
  else if opcode = 6 then
    let regA := (instr >>> 10) &&& 7
    let regB := (instr >>> 7) &&& 7
    let imm := instr &&& 0b1111111
    some { m with pc := jeq regA regB imm m.pc m.regs }
  else if opcode = 7 then
    let regSrc := (instr >>> 10) &&& 7
    let regDst := (instr >>> 7) &&& 7
    let imm := instr &&& 0b1111111
    some { m with regs := slti regDst regSrc imm m.regs, pc := nextPc m.pc }
  else none

/-- The cache set-up in `main`: `parts` is the list of numbers of the `--cache`
argument (`[]` when the argument is absent), for an argument made of
non-negative numbers that `stoi` parses (a negative or unparsable number, and
what the constructor does with it, is not represented).  Without the argument the
global `L1Cache(1, 1, 1)` stays in place and `L2CachePtr` is `nullptr`; three
numbers configure L1; six configure L1 and L2; any other count is "Invalid cache
config" (`none`). -/
def setupCaches (parts : List Nat) : Option (Cache × Option Cache) :=
  match parts with
  | [] => some (Cache.new 1 1 1, none)
  | [L1size, L1assoc, L1blocksize] => some (Cache.new L1size L1assoc L1blocksize, none)
  | [L1size, L1assoc, L1blocksize, L2size, L2assoc, L2blocksize] =>
    some (Cache.new L1size L1assoc L1blocksize, some (Cache.new L2size L2assoc L2blocksize))
  | _ => none

/-! ## Predicates used in the statements -/

/-- Well-formed cache: what the constructor establishes for a valid geometry and
every access keeps. -/
structure Cache.WF (c : Cache) : Prop where
  assoc_pos : 0 < c.associativity
  rows_pos : 0 < c.numRows
  block_pos : 0 < c.blocksize
  rows_len : c.rows.length = c.numRows
  row_len : ∀ r, r < c.numRows → (c.rows.getD r []).length = c.associativity

/-- Slot `k` of row `index` is valid and holds `tag`: the test of the search loop. -/
def Cache.holds (c : Cache) (index : Nat) (tag : Int) (k : Nat) : Prop :=
  (c.block index k).valid = true ∧ (c.block index k).tag = tag

/-- The block written by the hit path of `accessCache`. -/
def Cache.hitBlock (c : Cache) (index i : Nat) (data : Int) (isWrite : Bool) : CacheBlock :=
  { (if isWrite then { c.block index i with data := data } else c.block index i) with
    lastUsed := c.lruCounter + 1 }

/-- The block written by the miss path of `accessCache`. -/
def Cache.missBlock (c : Cache) (index i : Nat) (tag data : Int) (isWrite : Bool) :
    CacheBlock :=
  if isWrite then
    { c.block index i with valid := true, tag := tag, lastUsed := c.lruCounter + 1, data := data }
  else
    { c.block index i with valid := true, tag := tag, lastUsed := c.lruCounter + 1 }

/-- The slot touched by an access: the slot found by the search, or the victim. -/
def Cache.slotOf (c : Cache) (a : Nat) : Nat :=
  match c.searchLoop (c.index a) (c.tag a) c.associativity 0 with
  | some i => i
  | none => c.findLRUBlockIndex (c.index a)

/-! ## Example machines -/

/-- A machine at `pc = 0` with all registers 0, the single-cell default cache
`L1Cache(1, 1, 1)`, no L2, and `lw $0, 0($0)` (the word 32768) at address 0. -/
def machineLwZero : Machine :=
  { pc := 0, regs := fun _ => 0, memory := fun a => if a = 0 then 32768 else 0,
    running := true, L1Cache := Cache.new 1 1 1, L2CachePtr := none, log := [] }

/-- A machine at `pc = 0` with all registers 0, the default cache and no L2,
holding `lw $1, 127($0)` (the word 33023) at address 0, the value 7 at address 127
and the value 9 at address 8191. -/
def machineLwNeg : Machine :=
  { pc := 0, regs := fun _ => 0,
    memory := fun a => if a = 0 then 33023 else if a = 127 then 7 else if a = 8191 then 9 else 0,
    running := true, L1Cache := Cache.new 1 1 1, L2CachePtr := none, log := [] }

/-- A machine with empty two-level caches (L1 size 2, L2 size 4, both
direct-mapped with blocksize 1), all registers 0 and memory word 5 everywhere. -/
def machineTwoLevel : Machine :=
  { pc := 0, regs := fun _ => 0, memory := fun _ => 5,
    running := true, L1Cache := Cache.new 2 1 1, L2CachePtr := some (Cache.new 4 1 1), log := [] }

/-- Cache states reachable from a freshly constructed cache of valid geometry
(positive associativity and blocksize, at least one row) by `accessCache` calls
(`writeThrough` is `accessCache` with `isWrite = true`). -/
inductive Cache.Reachable : Cache → Prop where
  | new (size associativity blocksize : Nat) (ha : 0 < associativity) (hb : 0 < blocksize)
      (hs : associativity * blocksize ≤ size) :
      Cache.Reachable (Cache.new size associativity blocksize)
  | access (c : Cache) (address : Nat) (data : Int) (isWrite : Bool) :
      Cache.Reachable c → Cache.Reachable (c.accessCache address data isWrite).cache

/-- A machine with empty two-level caches (L1 size 2, L2 size 4, both
direct-mapped with blocksize 1), register 1 holding 42, every other register 0,
and memory word 5 everywhere. -/
def machineStore : Machine :=
  { pc := 0, regs := fun r => if r = 1 then 42 else 0, memory := fun _ => 5,
    running := true, L1Cache := Cache.new 2 1 1, L2CachePtr := some (Cache.new 4 1 1), log := [] }

/-- A machine at `pc = 8191` with all registers 0, the default cache and no L2. -/
def machineLastPc : Machine :=
  { pc := 8191, regs := fun _ => 0, memory := fun _ => 0,
    running := true, L1Cache := Cache.new 1 1 1, L2CachePtr := none, log := [] }

/-- One call of `accessCache`: its three arguments. -/
structure Access where
  address : Nat
  data : Int
  isWrite : Bool

/-- The cache after a sequence of `accessCache` calls, in order. -/
def Cache.run (c : Cache) : List Access → Cache
  | [] => c
  | x :: xs => Cache.run (c.accessCache x.address x.data x.isWrite).cache xs

/-- Invariant of reachable cache states: well-formed, no recency above the
counter, and no two slots of a row valid with the same tag. -/
structure Cache.Inv (c : Cache) : Prop where
  wf : c.WF
  used_le : ∀ r k, (c.block r k).lastUsed ≤ c.lruCounter
  tag_unique : ∀ r t k1 k2, k1 < c.associativity → k2 < c.associativity →
    c.holds r t k1 → c.holds r t k2 → k1 = k2

instance Cache.decidableHolds (c : Cache) (index : Nat) (tag : Int) (k : Nat) :
    Decidable (c.holds index tag k) := by
  unfold Cache.holds
  exact inferInstance

/-- The `while (running)` loop of `main`, for at most `fuel` iterations:
`instr = memory[pc % MEM_SIZE]`, then `execute_instruction`.  The result is
`none` on `exit(1)`; a result that is still `running` means the fuel ran out. -/
def mainLoop : Nat → Machine → Option Machine
  | 0, m => some m
  | fuel + 1, m =>
    if m.running then
      (execute_instruction (m.memory (m.pc % MEM_SIZE)) m).bind (mainLoop fuel)
    else some m

/-- Recency invariant of reachable cache states, on top of `Cache.Inv`: an invalid
slot has recency 0, a valid slot has recency at least 1, and no two valid slots
of the cache have the same recency. -/
structure Cache.RecencyInv (c : Cache) : Prop where
  inv : c.Inv
  counter_nonneg : 0 ≤ c.lruCounter
  invalid_zero : ∀ r k, (c.block r k).valid = false → (c.block r k).lastUsed = 0
  valid_pos : ∀ r k, (c.block r k).valid = true → 1 ≤ (c.block r k).lastUsed
  used_distinct : ∀ r1 k1 r2 k2, (c.block r1 k1).valid = true → (c.block r2 k2).valid = true →
    (c.block r1 k1).lastUsed = (c.block r2 k2).lastUsed → r1 = r2 ∧ k1 = k2

/-- Geometry and bookkeeping of a cache level with blocksize 1 and a power-of-two
number of rows: the reachable-state invariant, and every valid slot stands for a
memory address (`index` gives its row, `tag` its tag). -/
structure Cache.Geo (c : Cache) : Prop where
  inv : c.Inv
  bs : c.blocksize = 1
  rows : ∃ q, c.numRows = 2 ^ q
  stands : ∀ r k, (c.block r k).valid = true →
    ∃ a, a < MEM_SIZE ∧ c.index a = r ∧ c.tag a = (c.block r k).tag

/-- Every slot that is valid with the tag of an address, in the row of that
address, stores the memory word of that address. -/
def Cache.Mirrors (c : Cache) (mem : Nat → Nat) : Prop :=
  ∀ a k, c.holds (c.index a) (c.tag a) k → (c.block (c.index a) k).data = (mem a : Int)

/-- The same as `Cache.Mirrors` for every address other than `A`. -/
def Cache.MirrorsExcept (c : Cache) (mem : Nat → Nat) (A : Nat) : Prop :=
  ∀ a k, a ≠ A → c.holds (c.index a) (c.tag a) k → (c.block (c.index a) k).data = (mem a : Int)

/-- The part of the machine state that a cache-less machine has: `pc`, `regs`,
`memory` and `running`. -/
structure Core where
  pc : Nat
  regs : Nat → Nat
  memory : Nat → Nat
  running : Bool

/-- The cache-less part of a machine state. -/
def Machine.core (m : Machine) : Core :=
  { pc := m.pc, regs := m.regs, memory := m.memory, running := m.running }

/-- Reference machine of claim C20 ("a machine that reads memory directly"):
`lw` puts `memory[effectiveAddress]` in the destination register. -/
def lwDirect (regDst regAddr imm : Nat) (s : Core) : Core :=
  { s with regs := assign s.regs regDst (s.memory (effectiveAddress s.regs regAddr imm)) }

/-- Reference machine of claim C20: `sw` puts the source register in
`memory[effectiveAddress]`. -/
def swDirect (regSrc regAddr imm : Nat) (s : Core) : Core :=
  { s with memory := assign s.memory (effectiveAddress s.regs regAddr imm) (s.regs regSrc) }

/-- Reference machine of claim C20: `execute_instruction` with `lw` and `sw`
replaced by `lwDirect` and `swDirect`, every other instruction as in the source. -/
def executeDirect (instr : Nat) (s : Core) : Option Core :=
  let opcode := instr >>> 13
  if opcode = 0 then
    let regSrcA := (instr >>> 10) &&& 7
    let regSrcB := (instr >>> 7) &&& 7
    let regDst := (instr >>> 4) &&& 7
    let choice := instr &&& 0b1111
    if choice = 0 then
      some { s with regs := add regDst regSrcA regSrcB s.regs, pc := nextPc s.pc }
    else if choice = 1 then
      some { s with regs := sub regDst regSrcA regSrcB s.regs, pc := nextPc s.pc }
    else if choice = 2 then
      some { s with regs := or_instr regDst regSrcA regSrcB s.regs, pc := nextPc s.pc }
    else if choice = 3 then
      some { s with regs := and_instr regDst regSrcA regSrcB s.regs, pc := nextPc s.pc }
    else if choice = 4 then
      some { s with regs := slt regDst regSrcA regSrcB s.regs, pc := nextPc s.pc }
    else if choice = 8 then
      some { s with pc := jr regSrcA s.regs }
    else some s
  else if opcode = 1 then
    some { s with regs := addi ((instr >>> 7) &&& 7) ((instr >>> 10) &&& 7)
                     (instr &&& 0b1111111) s.regs, pc := nextPc s.pc }
  else if opcode = 2 then
    if instr &&& 0x1FFF = s.pc then some { s with running := false }
    else some { s with pc := j (instr &&& 0x1FFF) }
  else if opcode = 3 then
    some { s with regs := (jal s.pc s.regs (instr &&& 0x1FFF)).1,
                  pc := (jal s.pc s.regs (instr &&& 0x1FFF)).2 }
  else if opcode = 4 then
    some { lwDirect ((instr >>> 7) &&& 7) ((instr >>> 10) &&& 7) (instr &&& 0b1111111) s with
           pc := nextPc s.pc }
  else if opcode = 5 then
    some { swDirect ((instr >>> 7) &&& 7) ((instr >>> 10) &&& 7) (instr &&& 0b1111111) s with
           pc := nextPc s.pc }
  else if opcode = 6 then
    some { s with pc := jeq ((instr >>> 10) &&& 7) ((instr >>> 7) &&& 7)
                     (instr &&& 0b1111111) s.pc s.regs }
  else if opcode = 7 then
    some { s with regs := slti ((instr >>> 7) &&& 7) ((instr >>> 10) &&& 7)
                     (instr &&& 0b1111111) s.regs, pc := nextPc s.pc }
  else none

/-- `execute_instruction` applied to a sequence of instruction words, in order. -/
def executeAll : List Nat → Machine → Option Machine
  | [], m => some m
  | instr :: rest, m => (execute_instruction instr m).bind (executeAll rest)

/-- The reference machine applied to a sequence of instruction words, in order. -/
def executeAllDirect : List Nat → Core → Option Core
  | [], s => some s
  | instr :: rest, s => (executeDirect instr s).bind (executeAllDirect rest)

/-- Machine states in which both cache levels have blocksize 1 and a power-of-two
number of rows and mirror memory, and registers and memory hold 16-bit words. -/
structure Machine.Coherent (m : Machine) : Prop where
  l1_geo : m.L1Cache.Geo
  l1_mirrors : m.L1Cache.Mirrors m.memory
  l2 : ∀ l2, m.L2CachePtr = some l2 → l2.Geo ∧ l2.Mirrors m.memory
  mem_lt : ∀ a, m.memory a < 65536
  regs_lt : ∀ r, m.regs r < 65536

/-- The state in which `main` enters its loop: `pc = 0`, registers 0, the loaded
memory image, and the caches set up from the `--cache` argument (`none` when the
set-up reports "Invalid cache config"). -/
def mainInit (memory : Nat → Nat) (parts : List Nat) : Option Machine :=
  (setupCaches parts).map fun cs =>
    { pc := 0, regs := fun _ => 0, memory := memory, running := true,
      L1Cache := cs.1, L2CachePtr := cs.2, log := [] }

/-- The memory image of the program `addi $1,$0,42; sw $1,0($0); lw $1,0($0); j 3`
(the words 8362, 41088, 32896, 16387 at addresses 0 to 3, zero elsewhere). -/
def programStoreLoad : Nat → Nat :=
  fun a => if a = 0 then 8362 else if a = 1 then 41088 else if a = 2 then 32896
    else if a = 3 then 16387 else 0

/-- A machine with the L1 cache of size 2, associativity 1, blocksize 2 (one row,
one slot, two words per block) and no L2, register 1 holding 42, every other
register 0, memory word 9 at address 1 and 0 elsewhere. -/
def machineBlockTwo : Machine :=
  { pc := 0, regs := fun r => if r = 1 then 42 else 0, memory := fun a => if a = 1 then 9 else 0,
    running := true, L1Cache := Cache.new 2 1 2, L2CachePtr := none, log := [] }

/-! ## Lemmas about the cache -/

theorem log2Loop_eq (fuel n : Nat) (h : n ≤ fuel) : log2Loop fuel n = Nat.log2 n := by
  induction fuel generalizing n with
  | zero =>
    have : n = 0 := by omega
    subst this
    simp [log2Loop, Nat.log2]
  | succ f ih =>
    rw [log2Loop, Nat.log2]
    by_cases h2 : 2 ≤ n
    · have : n / 2 ≤ f := by omega
      simp [h2, ih _ this]
    · simp [h2]

theorem log2_eq (n : Nat) : log2 n = Nat.log2 n := log2Loop_eq n n (le_refl n)

theorem two_pow_log2_le (n : Nat) (h : 0 < n) : 2 ^ log2 n ≤ n := by
  rw [log2_eq]; exact Nat.log2_self_le (by omega)

theorem Cache.index_lt (c : Cache) (h : 0 < c.numRows) (a : Nat) : c.index a < c.numRows := by
  unfold Cache.index Cache.indexBits
  rw [Nat.one_shiftLeft, Nat.and_pow_two_sub_one_eq_mod]
  have h1 := two_pow_log2_le c.numRows h
  have h2 : a >>> c.offsetBits % 2 ^ log2 c.numRows < 2 ^ log2 c.numRows :=
    Nat.mod_lt _ (by positivity)
  omega

theorem getD_set_eq {α : Type} (l : List α) (i j : Nat) (x d : α) :
    (l.set i x).getD j d = if j = i ∧ i < l.length then x else l.getD j d := by
  simp only [List.getD_eq_getElem?_getD, List.getElem?_set]
  by_cases hij : i = j
  · subst hij
    by_cases hl : i < l.length
    · simp [hl]
    · have : l.length ≤ i := by omega
      simp [hl, List.getElem?_eq_none this]
  · have : ¬ j = i := fun h => hij h.symm
    simp [hij, this]

theorem Cache.block_setBlock (c : Cache) (r i r' i' : Nat) (b : CacheBlock) :
    (c.setBlock r i b).block r' i' =
      if r' = r ∧ i' = i ∧ r < c.rows.length ∧ i < (c.rows.getD r []).length then b
      else c.block r' i' := by
  unfold Cache.block Cache.setBlock
  show ((c.rows.set r ((c.rows.getD r []).set i b)).getD r' []).getD i' default = _
  rw [getD_set_eq]
  by_cases h1 : r' = r ∧ r < c.rows.length
  · rw [if_pos h1, getD_set_eq]
    obtain ⟨h1a, h1b⟩ := h1
    subst h1a
    by_cases h2 : i' = i ∧ i < (c.rows.getD r' []).length
    · rw [if_pos h2, if_pos ⟨rfl, h2.1, h1b, h2.2⟩]
    · rw [if_neg h2, if_neg (fun h => h2 ⟨h.2.1, h.2.2.2⟩)]
  · rw [if_neg h1, if_neg (fun h => h1 ⟨h.1, h.2.2.1⟩)]


theorem Cache.setBlock_WF (c : Cache) (h : c.WF) (r i : Nat) (b : CacheBlock) :
    (c.setBlock r i b).WF := by
  refine ⟨h.assoc_pos, h.rows_pos, h.block_pos, ?_, ?_⟩
  · show (c.rows.set r _).length = c.numRows
    rw [List.length_set]; exact h.rows_len
  · intro r' hr'
    show ((c.rows.set r ((c.rows.getD r []).set i b)).getD r' []).length = c.associativity
    rw [getD_set_eq]
    by_cases h1 : r' = r ∧ r < c.rows.length
    · rw [if_pos h1, List.length_set]
      exact h.row_len r (h.rows_len ▸ h1.2)
    · rw [if_neg h1]; exact h.row_len r' hr'

theorem Cache.searchLoop_eq_some (c : Cache) (index : Nat) (tag : Int) (n i k : Nat) :
    c.searchLoop index tag n i = some k ↔
      i ≤ k ∧ k < i + n ∧ c.holds index tag k ∧ ∀ k', i ≤ k' → k' < k → ¬ c.holds index tag k' := by
  induction n generalizing i with
  | zero =>
    simp only [Cache.searchLoop]
    constructor
    · intro h; cases h
    · intro h; omega
  | succ n ih =>
    rw [Cache.searchLoop]
    by_cases hm : c.holds index tag i
    · have hc : ((c.block index i).valid && (c.block index i).tag == tag) = true := by
        simp [hm.1, hm.2]
      rw [if_pos hc]
      constructor
      · intro h
        cases h
        exact ⟨le_refl _, by omega, hm, fun k' h1 h2 => by omega⟩
      · rintro ⟨h1, _, _, h4⟩
        by_cases hik : i = k
        · rw [hik]
        · exact absurd hm (h4 i (le_refl _) (by omega))
    · have hc : ¬ ((c.block index i).valid && (c.block index i).tag == tag) = true := by
        intro h
        simp only [Bool.and_eq_true, beq_iff_eq] at h
        exact hm h
      rw [if_neg hc, ih]
      constructor
      · rintro ⟨h1, h2, h3, h4⟩
        refine ⟨by omega, by omega, h3, fun k' h5 h6 => ?_⟩
        by_cases hik : k' = i
        · rw [hik]; exact hm
        · exact h4 k' (by omega) h6
      · rintro ⟨h1, h2, h3, h4⟩
        have hik : i ≠ k := fun h => hm (h ▸ h3)
        exact ⟨by omega, by omega, h3, fun k' h5 h6 => h4 k' (by omega) h6⟩

theorem Cache.searchLoop_eq_none (c : Cache) (index : Nat) (tag : Int) (n i : Nat) :
    c.searchLoop index tag n i = none ↔ ∀ k, i ≤ k → k < i + n → ¬ c.holds index tag k := by
  induction n generalizing i with
  | zero =>
    simp only [Cache.searchLoop, true_iff]
    intro k h1 h2; omega
  | succ n ih =>
    rw [Cache.searchLoop]
    by_cases hm : c.holds index tag i
    · have hc : ((c.block index i).valid && (c.block index i).tag == tag) = true := by
        simp [hm.1, hm.2]
      rw [if_pos hc]
      constructor
      · intro h; cases h
      · intro h; exact absurd hm (h i (le_refl _) (by omega))
    · have hc : ¬ ((c.block index i).valid && (c.block index i).tag == tag) = true := by
        intro h
        simp only [Bool.and_eq_true, beq_iff_eq] at h
        exact hm h
      rw [if_neg hc, ih]
      constructor
      · intro h k h1 h2
        by_cases hik : k = i
        · rw [hik]; exact hm
        · exact h k (by omega) (by omega)
      · intro h k h1 h2
        exact h k (by omega) (by omega)

theorem Cache.findLRULoop_spec (c : Cache) (index : Nat) (n : Nat) :
    ∀ (i lruIndex : Nat) (minUsed : Int), lruIndex < i →
      minUsed = (c.block index lruIndex).lastUsed →
      (∀ k, k < i → minUsed ≤ (c.block index k).lastUsed) →
      (∀ k, k < lruIndex → minUsed < (c.block index k).lastUsed) →
      c.findLRULoop index n i lruIndex minUsed < i + n ∧
      (∀ k, k < i + n →
        (c.block index (c.findLRULoop index n i lruIndex minUsed)).lastUsed
          ≤ (c.block index k).lastUsed) ∧
      (∀ k, k < c.findLRULoop index n i lruIndex minUsed →
        (c.block index (c.findLRULoop index n i lruIndex minUsed)).lastUsed
          < (c.block index k).lastUsed) := by
  induction n with
  | zero =>
    intro i lruIndex minUsed h1 h2 h3 h4
    simp only [Cache.findLRULoop, Nat.add_zero]
    subst h2
    exact ⟨h1, h3, h4⟩
  | succ n ih =>
    intro i lruIndex minUsed h1 h2 h3 h4
    rw [Cache.findLRULoop]
    have e : i + (n + 1) = (i + 1) + n := by omega
    rw [e]
    by_cases hlt : (c.block index i).lastUsed < minUsed
    · rw [if_pos hlt]
      apply ih (i + 1) i _ (by omega) rfl
      · intro k hk
        by_cases hki : k = i
        · rw [hki]
        · have := h3 k (by omega); omega
      · intro k hk
        have := h3 k hk; omega
    · rw [if_neg hlt]
      apply ih (i + 1) lruIndex minUsed (by omega) h2
      · intro k hk
        by_cases hki : k = i
        · rw [hki]; omega
        · exact h3 k (by omega)
      · exact h4

theorem Cache.findLRUBlockIndex_spec (c : Cache) (index : Nat) (h : 0 < c.associativity) :
    c.findLRUBlockIndex index < c.associativity ∧
    (∀ k, k < c.associativity →
      (c.block index (c.findLRUBlockIndex index)).lastUsed ≤ (c.block index k).lastUsed) ∧
    (∀ k, k < c.findLRUBlockIndex index →
      (c.block index (c.findLRUBlockIndex index)).lastUsed < (c.block index k).lastUsed) := by
  have e : c.associativity = 1 + (c.associativity - 1) := by omega
  have key := c.findLRULoop_spec index (c.associativity - 1) 1 0
    (c.block index 0).lastUsed (by omega) rfl
    (fun k hk => by have : k = 0 := by omega
                    rw [this])
    (fun k hk => by omega)
  unfold Cache.findLRUBlockIndex
  rw [← e] at key
  exact key


theorem Cache.accessCache_of_some (c : Cache) (a : Nat) (d : Int) (w : Bool) (i : Nat)
    (h : c.searchLoop (c.index a) (c.tag a) c.associativity 0 = some i) :
    c.accessCache a d w =
      { hit := true, index := c.index a,
        data := if w then d else (c.block (c.index a) i).data,
        cache := { c.setBlock (c.index a) i (c.hitBlock (c.index a) i d w) with
                   lruCounter := c.lruCounter + 1 } } := by
  simp only [Cache.accessCache, h, Cache.hitBlock]

theorem Cache.accessCache_of_none (c : Cache) (a : Nat) (d : Int) (w : Bool)
    (h : c.searchLoop (c.index a) (c.tag a) c.associativity 0 = none) :
    c.accessCache a d w =
      { hit := false, index := c.index a,
        data := if w then d else -1,
        cache := { c.setBlock (c.index a) (c.findLRUBlockIndex (c.index a))
                     (c.missBlock (c.index a) (c.findLRUBlockIndex (c.index a)) (c.tag a) d w) with
                   lruCounter := c.lruCounter + 1 } } := by
  simp only [Cache.accessCache, h, Cache.missBlock]

theorem Cache.accessCache_index (c : Cache) (a : Nat) (d : Int) (w : Bool) :
    (c.accessCache a d w).index = c.index a := by
  cases h : c.searchLoop (c.index a) (c.tag a) c.associativity 0 with
  | some i => rw [c.accessCache_of_some a d w i h]
  | none => rw [c.accessCache_of_none a d w h]

theorem Cache.accessCache_geometry (c : Cache) (a : Nat) (d : Int) (w : Bool) :
    (c.accessCache a d w).cache.numRows = c.numRows ∧
    (c.accessCache a d w).cache.blocksize = c.blocksize ∧
    (c.accessCache a d w).cache.associativity = c.associativity ∧
    (c.accessCache a d w).cache.size = c.size := by
  cases h : c.searchLoop (c.index a) (c.tag a) c.associativity 0 with
  | some i => rw [c.accessCache_of_some a d w i h]; exact ⟨rfl, rfl, rfl, rfl⟩
  | none => rw [c.accessCache_of_none a d w h]; exact ⟨rfl, rfl, rfl, rfl⟩

theorem Cache.index_congr (c c' : Cache) (h1 : c'.numRows = c.numRows)
    (h2 : c'.blocksize = c.blocksize) (a : Nat) : c'.index a = c.index a := by
  simp only [Cache.index, Cache.offsetBits, Cache.indexBits, h1, h2]

theorem Cache.tag_congr (c c' : Cache) (h1 : c'.numRows = c.numRows)
    (h2 : c'.blocksize = c.blocksize) (a : Nat) : c'.tag a = c.tag a := by
  simp only [Cache.tag, Cache.offsetBits, Cache.indexBits, h1, h2]

theorem Cache.accessCache_WF (c : Cache) (h : c.WF) (a : Nat) (d : Int) (w : Bool) :
    (c.accessCache a d w).cache.WF := by
  cases hs : c.searchLoop (c.index a) (c.tag a) c.associativity 0 with
  | some i =>
    rw [c.accessCache_of_some a d w i hs]
    have := c.setBlock_WF h (c.index a) i (c.hitBlock (c.index a) i d w)
    exact ⟨this.1, this.2, this.3, this.4, this.5⟩
  | none =>
    rw [c.accessCache_of_none a d w hs]
    have := c.setBlock_WF h (c.index a) (c.findLRUBlockIndex (c.index a))
      (c.missBlock (c.index a) (c.findLRUBlockIndex (c.index a)) (c.tag a) d w)
    exact ⟨this.1, this.2, this.3, this.4, this.5⟩

theorem Cache.slotOf_lt (c : Cache) (h : c.WF) (a : Nat) : c.slotOf a < c.associativity := by
  unfold Cache.slotOf
  cases hs : c.searchLoop (c.index a) (c.tag a) c.associativity 0 with
  | some i =>
    have := (c.searchLoop_eq_some _ _ _ _ _).1 hs
    simp only; omega
  | none => exact (c.findLRUBlockIndex_spec _ h.assoc_pos).1

/-- The blocks of the cache after an access: the touched slot holds the block
written by the hit or the miss path, every other slot is as before. -/
theorem Cache.accessCache_block (c : Cache) (h : c.WF) (a : Nat) (d : Int) (w : Bool)
    (r k : Nat) :
    (c.accessCache a d w).cache.block r k =
      if r = c.index a ∧ k = c.slotOf a then
        (match c.searchLoop (c.index a) (c.tag a) c.associativity 0 with
         | some i => c.hitBlock (c.index a) i d w
         | none => c.missBlock (c.index a) (c.findLRUBlockIndex (c.index a)) (c.tag a) d w)
      else c.block r k := by
  have hlt := c.slotOf_lt h a
  have hidx := c.index_lt h.rows_pos a
  have hrow := h.row_len _ hidx
  have hrl := h.rows_len
  unfold Cache.slotOf at *
  cases hs : c.searchLoop (c.index a) (c.tag a) c.associativity 0 with
  | some i =>
    rw [hs] at hlt
    rw [c.accessCache_of_some a d w i hs]
    show (c.setBlock (c.index a) i _).block r k = _
    rw [Cache.block_setBlock]
    by_cases hc : r = c.index a ∧ k = i
    · rw [if_pos hc, if_pos ⟨hc.1, hc.2, by omega, by simp only at hlt; omega⟩]
    · rw [if_neg hc, if_neg (fun hh => hc ⟨hh.1, hh.2.1⟩)]
  | none =>
    rw [hs] at hlt
    rw [c.accessCache_of_none a d w hs]
    show (c.setBlock (c.index a) _ _).block r k = _
    rw [Cache.block_setBlock]
    by_cases hc : r = c.index a ∧ k = c.findLRUBlockIndex (c.index a)
    · rw [if_pos hc, if_pos ⟨hc.1, hc.2, by omega, by simp only at hlt; omega⟩]
    · rw [if_neg hc, if_neg (fun hh => hc ⟨hh.1, hh.2.1⟩)]

/-! ## Claims -/

/-- C1 (violated by `lw`): executing `lw $0, 0($0)` (word 32768) in a state where
register 0 holds 0 and memory word 0 holds 32768 leaves 32768 in register 0:
`lw` assigns `regs[regDst]` without the `regDst != 0` test of the other
instructions. -/
theorem C1_lw_overwrites_register_zero :
    machineLwZero.regs 0 = 0 ∧
    (execute_instruction 32768 machineLwZero).map (fun m => m.regs 0) = some 32768 := by
  decide

/-- C2 (violated by `lw` and `sw`): the immediate is added without sign
extension.  For `lw $1, 127($0)` with base register value 0 the address read,
passed to the cache and logged is 127, while `(0 + sign_extend_7bit 127) mod 8192`
is 8191; register 1 receives memory word 127 (7), not memory word 8191 (9).  The
same happens for `sw $1, 127($0)`. -/
theorem C2_lw_sw_address_not_sign_extended :
    effectiveAddress machineLwNeg.regs 0 127 = 127 ∧
    toU16 (((machineLwNeg.regs 0 : Int) + sign_extend_7bit 127) % 8192) = 8191 ∧
    (execute_instruction 33023 machineLwNeg).map (fun m => m.regs 1) = some 7 ∧
    (execute_instruction 33023 machineLwNeg).map (fun m => m.log)
      = some [⟨.L1, .MISS, 0, 127, 0⟩] ∧
    (execute_instruction 41215 machineLwNeg).map (fun m => m.log)
      = some [⟨.L1, .SW, 0, 127, 0⟩] ∧
    (execute_instruction 41215 machineLwNeg).map (fun m => (m.memory 127, m.memory 8191))
      = some (0, 9) := by
  decide

theorem Cache.accessCache_hit_eq (c : Cache) (a : Nat) (d : Int) (w : Bool) :
    (c.accessCache a d w).hit = (c.searchLoop (c.index a) (c.tag a) c.associativity 0).isSome := by
  cases h : c.searchLoop (c.index a) (c.tag a) c.associativity 0 with
  | some i => rw [c.accessCache_of_some a d w i h]; rfl
  | none => rw [c.accessCache_of_none a d w h]; rfl

theorem Cache.accessCache_index_eq (c : Cache) (a a' : Nat) (d : Int) (w : Bool) :
    (c.accessCache a d w).cache.index a' = c.index a' :=
  Cache.index_congr c _ (c.accessCache_geometry a d w).1 (c.accessCache_geometry a d w).2.1 a'

theorem Cache.accessCache_tag_eq (c : Cache) (a a' : Nat) (d : Int) (w : Bool) :
    (c.accessCache a d w).cache.tag a' = c.tag a' :=
  Cache.tag_congr c _ (c.accessCache_geometry a d w).1 (c.accessCache_geometry a d w).2.1 a'

theorem Cache.writeThrough_row (c : Cache) (a : Nat) (d : Int) :
    (c.writeThrough a d).2 = c.index a := c.accessCache_index a d true

/-- C3 (counterexample): with empty two-level caches a load of address 0 misses
L1 and L2 and logs `[L2 MISS, L2 SW, L1 MISS]`; the sequence
`[L1 MISS, L2 MISS, L2 SW, L1 SW]` of the claim is not what is logged. -/
theorem C3_double_miss_order_counterexample :
    (machineTwoLevel.L1Cache.accessCache 0 0 false).hit = false ∧
    ((Cache.new 4 1 1).accessCache 0 0 false).hit = false ∧
    (lw 1 0 0 machineTwoLevel).log
      = [⟨.L2, .MISS, 0, 0, 0⟩, ⟨.L2, .SW, 0, 0, 0⟩, ⟨.L1, .MISS, 0, 0, 0⟩] ∧
    (lw 1 0 0 machineTwoLevel).log
      ≠ [⟨.L1, .MISS, 0, 0, 0⟩, ⟨.L2, .MISS, 0, 0, 0⟩, ⟨.L2, .SW, 0, 0, 0⟩,
         ⟨.L1, .SW, 0, 0, 0⟩] := by
  decide

/-- C3 (amended): the lines logged by `lw` at effective address `A`, in a machine
whose caches are well-formed (at least one row, every row of `associativity`
slots, so that the source's `rows[index][i]` stays in bounds).  On an L1 hit:
`[L1 HIT]`.  On an L1 miss: first the L2 lines when L2 is present (`[L2 HIT]`, or
`[L2 MISS, L2 SW]`), then a single `L1 MISS` line as the last line; a load logs
no `L1 SW` line.  Every line carries the `pc`, `A` and the row of `A` in the
level it names, a row that exists in that level. -/
theorem C3_lw_log (regDst regAddr imm : Nat) (m : Machine) (h1 : m.L1Cache.WF)
    (h2 : ∀ l2, m.L2CachePtr = some l2 → l2.WF) :
    ((lw regDst regAddr imm m).log = m.log ++
      (if (m.L1Cache.accessCache (effectiveAddress m.regs regAddr imm) 0 false).hit then
        [⟨.L1, .HIT, m.pc, effectiveAddress m.regs regAddr imm,
          m.L1Cache.index (effectiveAddress m.regs regAddr imm)⟩]
      else
        (match m.L2CachePtr with
          | none => []
          | some l2 =>
            if (l2.accessCache (effectiveAddress m.regs regAddr imm) 0 false).hit then
              [⟨.L2, .HIT, m.pc, effectiveAddress m.regs regAddr imm,
                l2.index (effectiveAddress m.regs regAddr imm)⟩]
            else
              [⟨.L2, .MISS, m.pc, effectiveAddress m.regs regAddr imm,
                l2.index (effectiveAddress m.regs regAddr imm)⟩,
               ⟨.L2, .SW, m.pc, effectiveAddress m.regs regAddr imm,
                l2.index (effectiveAddress m.regs regAddr imm)⟩])
        ++ [⟨.L1, .MISS, m.pc, effectiveAddress m.regs regAddr imm,
              m.L1Cache.index (effectiveAddress m.regs regAddr imm)⟩])) ∧
    m.L1Cache.index (effectiveAddress m.regs regAddr imm) < m.L1Cache.numRows ∧
    (∀ l2, m.L2CachePtr = some l2 →
      l2.index (effectiveAddress m.regs regAddr imm) < l2.numRows) := by
  refine ⟨?_, m.L1Cache.index_lt h1.rows_pos _,
    fun l2 hl2 => l2.index_lt (h2 l2 hl2).rows_pos _⟩
  unfold lw
  simp only []
  by_cases hh : (m.L1Cache.accessCache (effectiveAddress m.regs regAddr imm) 0 false).hit = true
  · simp only [hh, if_true, Cache.accessCache_index]
  · simp only [hh, Bool.false_eq_true, if_false]
    cases hl2 : m.L2CachePtr with
    | none =>
      simp only [Cache.writeThrough_row, Cache.accessCache_index_eq, List.nil_append]
    | some l2 =>
      simp only []
      have e : ∀ d, (l2.accessCache (effectiveAddress m.regs regAddr imm) d false).hit
          = (l2.accessCache (effectiveAddress m.regs regAddr imm) 0 false).hit := by
        intro d; rw [Cache.accessCache_hit_eq, Cache.accessCache_hit_eq]
      rw [e]
      by_cases h2 : (l2.accessCache (effectiveAddress m.regs regAddr imm) 0 false).hit = true
      · simp only [h2, if_true, Cache.writeThrough_row, Cache.accessCache_index_eq,
          Cache.accessCache_index, List.singleton_append]
      · simp only [h2, Bool.false_eq_true, if_false, Cache.writeThrough_row,
          Cache.accessCache_index_eq, Cache.accessCache_index, List.cons_append,
          List.nil_append]

/-- C4: in a machine whose caches are well-formed (at least one row, every row
of `associativity` slots), `sw` with source register `regSrc` at effective
address `A` leaves `regs[regSrc]` in `memory[A]`, keeps every other memory word
and every register, and logs exactly `L1 SW` at `A`'s L1 row, followed by `L2 SW`
at `A`'s L2 row when L2 is present, whatever the caches held before; both rows
exist in their level. -/
theorem C4_sw_effect (regSrc regAddr imm : Nat) (m : Machine) (h1 : m.L1Cache.WF)
    (h2 : ∀ l2, m.L2CachePtr = some l2 → l2.WF) :
    m.L1Cache.index (effectiveAddress m.regs regAddr imm) < m.L1Cache.numRows ∧
    (∀ l2, m.L2CachePtr = some l2 →
      l2.index (effectiveAddress m.regs regAddr imm) < l2.numRows) ∧
    (∀ a, (sw regSrc regAddr imm m).memory a =
      if a = effectiveAddress m.regs regAddr imm then m.regs regSrc else m.memory a) ∧
    (sw regSrc regAddr imm m).regs = m.regs ∧
    (sw regSrc regAddr imm m).log = m.log ++
      (⟨.L1, .SW, m.pc, effectiveAddress m.regs regAddr imm,
          m.L1Cache.index (effectiveAddress m.regs regAddr imm)⟩ ::
        (match m.L2CachePtr with
          | none => []
          | some l2 => [⟨.L2, .SW, m.pc, effectiveAddress m.regs regAddr imm,
                          l2.index (effectiveAddress m.regs regAddr imm)⟩])) := by
  refine ⟨m.L1Cache.index_lt h1.rows_pos _,
    fun l2 hl2 => l2.index_lt (h2 l2 hl2).rows_pos _, ?_⟩
  unfold sw
  cases hl2 : m.L2CachePtr with
  | none =>
    simp only [Cache.writeThrough_row]
    exact ⟨fun a => rfl, trivial, trivial⟩
  | some l2 =>
    simp only [Cache.writeThrough_row, List.append_assoc, List.singleton_append]
    exact ⟨fun a => rfl, trivial, trivial⟩

theorem Cache.hitBlock_valid (c : Cache) (index i : Nat) (d : Int) (w : Bool) :
    (c.hitBlock index i d w).valid = (c.block index i).valid ∧
    (c.hitBlock index i d w).tag = (c.block index i).tag ∧
    (c.hitBlock index i d w).lastUsed = c.lruCounter + 1 ∧
    (c.hitBlock index i d w).data = if w then d else (c.block index i).data := by
  cases w <;> exact ⟨rfl, rfl, rfl, rfl⟩

theorem Cache.missBlock_valid (c : Cache) (index i : Nat) (t d : Int) (w : Bool) :
    (c.missBlock index i t d w).valid = true ∧
    (c.missBlock index i t d w).tag = t ∧
    (c.missBlock index i t d w).lastUsed = c.lruCounter + 1 ∧
    (c.missBlock index i t d w).data = if w then d else (c.block index i).data := by
  cases w <;> exact ⟨rfl, rfl, rfl, rfl⟩

/-- After an access to `a` the touched slot is valid, holds `a`'s tag, and no
earlier slot of the row holds that tag. -/
theorem Cache.accessCache_search_after (c : Cache) (h : c.WF) (a : Nat) (d : Int) (w : Bool) :
    (c.accessCache a d w).cache.searchLoop (c.index a) (c.tag a) c.associativity 0
      = some (c.slotOf a) ∧
    ((c.accessCache a d w).cache.block (c.index a) (c.slotOf a)).data
      = (if w then d else (c.block (c.index a) (c.slotOf a)).data) := by
  have hb := c.accessCache_block h a d w (c.index a)
  have hlt := c.slotOf_lt h a
  have hslot : (c.accessCache a d w).cache.block (c.index a) (c.slotOf a) =
      (match c.searchLoop (c.index a) (c.tag a) c.associativity 0 with
         | some i => c.hitBlock (c.index a) i d w
         | none => c.missBlock (c.index a) (c.findLRUBlockIndex (c.index a)) (c.tag a) d w) := by
    rw [hb, if_pos ⟨rfl, rfl⟩]
  have hother : ∀ k, k ≠ c.slotOf a →
      (c.accessCache a d w).cache.block (c.index a) k = c.block (c.index a) k := by
    intro k hk
    rw [hb, if_neg (fun hh => hk hh.2)]
  rw [Cache.searchLoop_eq_some]
  cases hs : c.searchLoop (c.index a) (c.tag a) c.associativity 0 with
  | some i =>
    have hsl : c.slotOf a = i := by unfold Cache.slotOf; rw [hs]
    rw [hs] at hslot
    simp only at hslot
    obtain ⟨_, _, hh, hmin⟩ := (c.searchLoop_eq_some _ _ _ _ _).1 hs
    have hv := c.hitBlock_valid (c.index a) i d w
    rw [hsl] at hslot hother hlt ⊢
    refine ⟨⟨Nat.zero_le _, by omega, ?_, ?_⟩, ?_⟩
    · unfold Cache.holds
      rw [hslot, hv.1, hv.2.1]
      exact hh
    · intro k' _ hk' hholds
      unfold Cache.holds at hholds
      rw [hother k' (by omega)] at hholds
      exact hmin k' (Nat.zero_le _) hk' hholds
    · rw [hslot, hv.2.2.2]
  | none =>
    have hsl : c.slotOf a = c.findLRUBlockIndex (c.index a) := by
      unfold Cache.slotOf; rw [hs]
    rw [hs] at hslot
    simp only at hslot
    have hnone := (c.searchLoop_eq_none _ _ _ _).1 hs
    have hv := c.missBlock_valid (c.index a) (c.findLRUBlockIndex (c.index a)) (c.tag a) d w
    rw [hsl] at hslot hother hlt ⊢
    refine ⟨⟨Nat.zero_le _, by omega, ?_, ?_⟩, ?_⟩
    · unfold Cache.holds
      rw [hslot]
      exact ⟨hv.1, hv.2.1⟩
    · intro k' _ hk' hholds
      unfold Cache.holds at hholds
      rw [hother k' (by omega)] at hholds
      exact hnone k' (Nat.zero_le _) (by omega) hholds
    · rw [hslot, hv.2.2.2]

/-- A read of `a` right after any access to `a` hits and returns the data of the
touched slot. -/
theorem Cache.accessCache_read_after (c : Cache) (h : c.WF) (a : Nat) (d d' : Int) (w : Bool) :
    ((c.accessCache a d w).cache.accessCache a d' false).hit = true ∧
    ((c.accessCache a d w).cache.accessCache a d' false).index = c.index a ∧
    ((c.accessCache a d w).cache.accessCache a d' false).data
      = (if w then d else (c.block (c.index a) (c.slotOf a)).data) := by
  have hs := c.accessCache_search_after h a d w
  have hg := c.accessCache_geometry a d w
  have key : (c.accessCache a d w).cache.searchLoop ((c.accessCache a d w).cache.index a)
      ((c.accessCache a d w).cache.tag a) (c.accessCache a d w).cache.associativity 0
      = some (c.slotOf a) := by
    rw [Cache.accessCache_index_eq, Cache.accessCache_tag_eq, hg.2.2.1]; exact hs.1
  rw [Cache.accessCache_of_some _ a d' false _ key]
  refine ⟨rfl, Cache.accessCache_index_eq _ _ _ _ _, ?_⟩
  show (if false = true then d' else _) = _
  rw [if_neg (by decide), Cache.accessCache_index_eq]
  exact hs.2

theorem toU16_natCast (n : Nat) (h : n < 65536) : toU16 (n : Int) = n := by
  unfold toU16
  omega

theorem toU16_lt (x : Int) : toU16 x < 65536 := by
  unfold toU16
  omega

theorem toU16_idem (x : Int) : toU16 ((toU16 x : Nat) : Int) = toU16 x :=
  toU16_natCast _ (toU16_lt x)

theorem sw_regs (regSrc regAddr imm : Nat) (m : Machine) :
    (sw regSrc regAddr imm m).regs = m.regs := by
  unfold sw; cases m.L2CachePtr <;> rfl

theorem sw_pc (regSrc regAddr imm : Nat) (m : Machine) :
    (sw regSrc regAddr imm m).pc = m.pc := by
  unfold sw; cases m.L2CachePtr <;> rfl

theorem sw_memory (regSrc regAddr imm : Nat) (m : Machine) :
    (sw regSrc regAddr imm m).memory =
      assign m.memory (effectiveAddress m.regs regAddr imm) (m.regs regSrc) := by
  unfold sw; cases m.L2CachePtr <;> rfl

theorem sw_L1Cache (regSrc regAddr imm : Nat) (m : Machine) :
    (sw regSrc regAddr imm m).L1Cache =
      (m.L1Cache.accessCache (effectiveAddress m.regs regAddr imm) (m.regs regSrc) true).cache := by
  unfold sw; cases m.L2CachePtr <;> rfl

theorem sw_L2CachePtr (regSrc regAddr imm : Nat) (m : Machine) :
    (sw regSrc regAddr imm m).L2CachePtr =
      m.L2CachePtr.map (fun l2 =>
        (l2.accessCache (effectiveAddress m.regs regAddr imm) (m.regs regSrc) true).cache) := by
  unfold sw; cases m.L2CachePtr <;> rfl

/-- The L1-hit path of `lw`. -/
theorem lw_of_hit (regDst regAddr imm : Nat) (m : Machine)
    (h : (m.L1Cache.accessCache (effectiveAddress m.regs regAddr imm) 0 false).hit = true) :
    lw regDst regAddr imm m =
      { m with
        regs := assign m.regs regDst
          (toU16 (m.L1Cache.accessCache (effectiveAddress m.regs regAddr imm) 0 false).data)
        L1Cache := (m.L1Cache.accessCache (effectiveAddress m.regs regAddr imm) 0 false).cache
        log := m.log ++ [⟨.L1, .HIT, m.pc, effectiveAddress m.regs regAddr imm,
          (m.L1Cache.accessCache (effectiveAddress m.regs regAddr imm) 0 false).index⟩] } := by
  unfold lw
  simp only [h, if_true]

theorem assign_same (a : Nat → Nat) (i v : Nat) : assign a i v i = v := by
  unfold assign; simp

/-- After a write of `d` to `a` some slot of `a`'s row is valid, holds `a`'s tag
and the data `d`. -/
theorem Cache.write_installs (c : Cache) (h : c.WF) (a : Nat) (d : Int) :
    ∃ k, k < (c.accessCache a d true).cache.associativity ∧
      (c.accessCache a d true).cache.holds ((c.accessCache a d true).cache.index a)
        ((c.accessCache a d true).cache.tag a) k ∧
      ((c.accessCache a d true).cache.block ((c.accessCache a d true).cache.index a) k).data = d := by
  have hs := c.accessCache_search_after h a d true
  obtain ⟨_, h2, h3, _⟩ := (Cache.searchLoop_eq_some _ _ _ _ _ _).1 hs.1
  rw [Cache.accessCache_index_eq, Cache.accessCache_tag_eq, (c.accessCache_geometry a d true).2.2.1]
  exact ⟨c.slotOf a, by omega, h3, by rw [hs.2]; rfl⟩

/-- C5: write-through propagation in a two-level hierarchy.  After `sw` of
`v = regs[regSrc]` to effective address `A`, `memory[A]` is `v`, L1 and L2 each
have a valid slot in `A`'s row with `A`'s tag and data `v`, and an immediately
following `lw` of the same address puts `v` in its destination register and logs
exactly one line, `L1 HIT` at `A`'s row. -/
theorem C5_write_through (m : Machine) (l2 : Cache) (regSrc regAddr imm regDst : Nat)
    (h1 : m.L1Cache.WF) (hl2 : m.L2CachePtr = some l2) (h2 : l2.WF)
    (hv : m.regs regSrc < 65536) :
    (sw regSrc regAddr imm m).memory (effectiveAddress m.regs regAddr imm) = m.regs regSrc ∧
    (∃ k, k < (sw regSrc regAddr imm m).L1Cache.associativity ∧
      (sw regSrc regAddr imm m).L1Cache.holds
        ((sw regSrc regAddr imm m).L1Cache.index (effectiveAddress m.regs regAddr imm))
        ((sw regSrc regAddr imm m).L1Cache.tag (effectiveAddress m.regs regAddr imm)) k ∧
      ((sw regSrc regAddr imm m).L1Cache.block
        ((sw regSrc regAddr imm m).L1Cache.index (effectiveAddress m.regs regAddr imm)) k).data
        = m.regs regSrc) ∧
    (∃ l2', (sw regSrc regAddr imm m).L2CachePtr = some l2' ∧
      ∃ k, k < l2'.associativity ∧
        l2'.holds (l2'.index (effectiveAddress m.regs regAddr imm))
          (l2'.tag (effectiveAddress m.regs regAddr imm)) k ∧
        (l2'.block (l2'.index (effectiveAddress m.regs regAddr imm)) k).data = m.regs regSrc) ∧
    (lw regDst regAddr imm (sw regSrc regAddr imm m)).regs regDst = m.regs regSrc ∧
    (lw regDst regAddr imm (sw regSrc regAddr imm m)).log =
      (sw regSrc regAddr imm m).log ++
        [⟨.L1, .HIT, m.pc, effectiveAddress m.regs regAddr imm,
          m.L1Cache.index (effectiveAddress m.regs regAddr imm)⟩] := by
  have hra := m.L1Cache.accessCache_read_after h1 (effectiveAddress m.regs regAddr imm)
    (m.regs regSrc) 0 true
  have hhit : ((sw regSrc regAddr imm m).L1Cache.accessCache
      (effectiveAddress (sw regSrc regAddr imm m).regs regAddr imm) 0 false).hit = true := by
    rw [sw_regs, sw_L1Cache]; exact hra.1
  refine ⟨?_, ?_, ?_, ?_, ?_⟩
  · rw [sw_memory, assign_same]
  · rw [sw_L1Cache]
    exact m.L1Cache.write_installs h1 _ _
  · rw [sw_L2CachePtr, hl2]
    exact ⟨_, rfl, l2.write_installs h2 _ _⟩
  · rw [lw_of_hit _ _ _ _ hhit]
    show assign _ regDst _ regDst = _
    rw [assign_same, sw_regs, sw_L1Cache, hra.2.2, if_pos rfl]
    exact toU16_natCast _ hv
  · rw [lw_of_hit _ _ _ _ hhit]
    show (sw regSrc regAddr imm m).log ++ _ = _
    rw [sw_regs, sw_L1Cache, hra.2.1, sw_pc]

theorem Cache.new_WF (size associativity blocksize : Nat) (ha : 0 < associativity)
    (hb : 0 < blocksize) (hs : associativity * blocksize ≤ size) :
    (Cache.new size associativity blocksize).WF := by
  refine ⟨ha, Nat.div_pos hs (Nat.mul_pos ha hb), hb, ?_, ?_⟩
  · show (List.replicate _ _).length = _
    rw [List.length_replicate]; rfl
  · intro r hr
    show ((List.replicate (size / (associativity * blocksize))
      (List.replicate associativity (default : CacheBlock))).getD r []).length = associativity
    have hr' : r < size / (associativity * blocksize) := hr
    rw [List.getD_eq_getElem?_getD, List.getElem?_replicate, if_pos hr']
    simp

theorem Cache.Reachable.WF {c : Cache} (h : c.Reachable) : c.WF := by
  induction h with
  | new size associativity blocksize ha hb hs => exact Cache.new_WF _ _ _ ha hb hs
  | access c address data isWrite _ ih => exact c.accessCache_WF ih address data isWrite

/-- Witness for C3: with empty two-level caches (L1 of 2 rows, L2 of 4 rows) a
load of address 1 misses both levels and logs `[L2 MISS, L2 SW, L1 MISS]`, all at
row 1. -/
theorem C3_lw_log_witness :
    machineTwoLevel.L1Cache.WF ∧ (∀ l2, machineTwoLevel.L2CachePtr = some l2 → l2.WF) ∧
    (lw 2 0 1 machineTwoLevel).log
      = [⟨.L2, .MISS, 0, 1, 1⟩, ⟨.L2, .SW, 0, 1, 1⟩, ⟨.L1, .MISS, 0, 1, 1⟩] :=
  have hw1 : machineTwoLevel.L1Cache.WF :=
    Cache.new_WF 2 1 1 (by decide) (by decide) (by decide)
  have hw2 : ∀ l2, machineTwoLevel.L2CachePtr = some l2 → l2.WF := fun _ hl2 =>
    Option.some.inj hl2 ▸ Cache.new_WF 4 1 1 (by decide) (by decide) (by decide)
  ⟨hw1, hw2, (C3_lw_log 2 0 1 machineTwoLevel hw1 hw2).1.trans (by decide)⟩

/-- Witness for C4: with empty two-level caches (L1 of 2 rows, L2 of 4 rows) and
register 1 holding 42, `sw $1, 3($0)` puts 42 in `memory[3]` and logs `L1 SW` at
row 1 and `L2 SW` at row 3. -/
theorem C4_sw_effect_witness :
    machineStore.L1Cache.WF ∧ (∀ l2, machineStore.L2CachePtr = some l2 → l2.WF) ∧
    (sw 1 0 3 machineStore).memory 3 = 42 ∧
    (sw 1 0 3 machineStore).log = [⟨.L1, .SW, 0, 3, 1⟩, ⟨.L2, .SW, 0, 3, 3⟩] :=
  have hw1 : machineStore.L1Cache.WF :=
    Cache.new_WF 2 1 1 (by decide) (by decide) (by decide)
  have hw2 : ∀ l2, machineStore.L2CachePtr = some l2 → l2.WF := fun _ hl2 =>
    Option.some.inj hl2 ▸ Cache.new_WF 4 1 1 (by decide) (by decide) (by decide)
  have key := C4_sw_effect 1 0 3 machineStore hw1 hw2
  ⟨hw1, hw2, (key.2.2.1 3).trans (by decide), key.2.2.2.2.trans (by decide)⟩

/-- Witness for C5: store register 1 (42) to address 3, then load address 3 into
register 2, with empty two-level caches. -/
theorem C5_write_through_witness :
    machineStore.L1Cache.WF ∧ (Cache.new 4 1 1).WF ∧ machineStore.regs 1 < 65536 ∧
    (sw 1 0 3 machineStore).memory 3 = 42 ∧
    (lw 2 0 3 (sw 1 0 3 machineStore)).regs 2 = 42 ∧
    (lw 2 0 3 (sw 1 0 3 machineStore)).log =
      (sw 1 0 3 machineStore).log ++ [⟨.L1, .HIT, 0, 3, 1⟩] :=
  have hw1 : machineStore.L1Cache.WF :=
    Cache.new_WF 2 1 1 (by decide) (by decide) (by decide)
  have hw2 : (Cache.new 4 1 1).WF := Cache.new_WF 4 1 1 (by decide) (by decide) (by decide)
  have key := C5_write_through machineStore (Cache.new 4 1 1) 1 0 3 2 hw1 rfl hw2 (by decide)
  ⟨hw1, hw2, by decide, key.1, key.2.2.2.1, key.2.2.2.2⟩

/-- The data returned by a read is the data of the slot found by the search,
when there is one. -/
theorem Cache.accessCache_read_data (c : Cache) (a : Nat) (d : Int)
    (h : (c.accessCache a d false).hit = true) :
    (c.accessCache a d false).data = (c.block (c.index a) (c.slotOf a)).data := by
  cases hs : c.searchLoop (c.index a) (c.tag a) c.associativity 0 with
  | some i =>
    have hsl : c.slotOf a = i := by unfold Cache.slotOf; rw [hs]
    rw [c.accessCache_of_some a d false i hs, hsl]
    rfl
  | none =>
    rw [c.accessCache_of_none a d false hs] at h
    cases h

/-- After `lw` at effective address `A`, a read of `A` in L1 hits, in `A`'s row,
and its data (as a 16-bit word) is the value `lw` left in its destination
register. -/
theorem lw_then_read (m : Machine) (regDst regAddr imm : Nat) (h1 : m.L1Cache.WF)
    (hmem : ∀ x, m.memory x < 65536) :
    ((lw regDst regAddr imm m).L1Cache.accessCache
        (effectiveAddress m.regs regAddr imm) 0 false).hit = true ∧
    ((lw regDst regAddr imm m).L1Cache.accessCache
        (effectiveAddress m.regs regAddr imm) 0 false).index
      = m.L1Cache.index (effectiveAddress m.regs regAddr imm) ∧
    toU16 ((lw regDst regAddr imm m).L1Cache.accessCache
        (effectiveAddress m.regs regAddr imm) 0 false).data
      = (lw regDst regAddr imm m).regs regDst := by
  have hwf1 := m.L1Cache.accessCache_WF h1 (effectiveAddress m.regs regAddr imm) 0 false
  have hidx := m.L1Cache.accessCache_index_eq (effectiveAddress m.regs regAddr imm)
    (effectiveAddress m.regs regAddr imm) 0 false
  by_cases hh : (m.L1Cache.accessCache (effectiveAddress m.regs regAddr imm) 0 false).hit = true
  · rw [lw_of_hit _ _ _ _ hh]
    have hra := m.L1Cache.accessCache_read_after h1 (effectiveAddress m.regs regAddr imm)
      0 0 false
    refine ⟨hra.1, hra.2.1, ?_⟩
    show _ = assign _ regDst _ regDst
    rw [assign_same, hra.2.2, if_neg (by decide), Cache.accessCache_read_data _ _ _ hh]
  · -- L1 miss: the slot is filled by `writeThrough` with the destination register
    have fill : ∀ v : Nat, v < 65536 →
        (((m.L1Cache.accessCache (effectiveAddress m.regs regAddr imm) 0 false).cache.accessCache
            (effectiveAddress m.regs regAddr imm) (v : Int) true).cache.accessCache
              (effectiveAddress m.regs regAddr imm) 0 false).hit = true ∧
        (((m.L1Cache.accessCache (effectiveAddress m.regs regAddr imm) 0 false).cache.accessCache
            (effectiveAddress m.regs regAddr imm) (v : Int) true).cache.accessCache
              (effectiveAddress m.regs regAddr imm) 0 false).index
          = m.L1Cache.index (effectiveAddress m.regs regAddr imm) ∧
        toU16 (((m.L1Cache.accessCache (effectiveAddress m.regs regAddr imm) 0 false).cache.accessCache
            (effectiveAddress m.regs regAddr imm) (v : Int) true).cache.accessCache
              (effectiveAddress m.regs regAddr imm) 0 false).data = v := by
      intro v hv
      have hra := Cache.accessCache_read_after _ hwf1 (effectiveAddress m.regs regAddr imm)
        (v : Int) 0 true
      refine ⟨hra.1, by rw [hra.2.1, hidx], ?_⟩
      rw [hra.2.2, if_pos rfl]
      exact toU16_natCast v hv
    unfold lw
    simp only [hh, Bool.false_eq_true, if_false]
    cases hl2 : m.L2CachePtr with
    | none =>
      simp only [Cache.writeThrough, assign_same]
      exact fill _ (hmem _)
    | some l2 =>
      simp only []
      by_cases h2 : (l2.accessCache (effectiveAddress m.regs regAddr imm)
          (m.L1Cache.accessCache (effectiveAddress m.regs regAddr imm) 0 false).data false).hit = true
      · simp only [h2, if_true, Cache.writeThrough, assign_same]
        exact fill _ (toU16_lt _)
      · simp only [h2, Bool.false_eq_true, if_false, Cache.writeThrough, assign_same]
        exact fill _ (hmem _)

/-- C6: a load of address `A` immediately followed by a second load of `A`.  The
second load logs exactly one line, `L1 HIT` at `A`'s L1 row, leaves L2 and memory
as they were, and writes into its destination register the value the first load
wrote into its destination register. -/
theorem C6_repeat_load (m : Machine) (regDst1 regAddr1 imm1 regDst2 regAddr2 imm2 : Nat)
    (h1 : m.L1Cache.WF) (hmem : ∀ x, m.memory x < 65536)
    (hA : effectiveAddress (lw regDst1 regAddr1 imm1 m).regs regAddr2 imm2
      = effectiveAddress m.regs regAddr1 imm1) :
    (lw regDst2 regAddr2 imm2 (lw regDst1 regAddr1 imm1 m)).log =
      (lw regDst1 regAddr1 imm1 m).log ++
        [⟨.L1, .HIT, (lw regDst1 regAddr1 imm1 m).pc, effectiveAddress m.regs regAddr1 imm1,
          m.L1Cache.index (effectiveAddress m.regs regAddr1 imm1)⟩] ∧
    (lw regDst2 regAddr2 imm2 (lw regDst1 regAddr1 imm1 m)).L2CachePtr
      = (lw regDst1 regAddr1 imm1 m).L2CachePtr ∧
    (lw regDst2 regAddr2 imm2 (lw regDst1 regAddr1 imm1 m)).memory
      = (lw regDst1 regAddr1 imm1 m).memory ∧
    (lw regDst2 regAddr2 imm2 (lw regDst1 regAddr1 imm1 m)).regs regDst2
      = (lw regDst1 regAddr1 imm1 m).regs regDst1 := by
  have key := lw_then_read m regDst1 regAddr1 imm1 h1 hmem
  rw [← hA] at key
  rw [lw_of_hit _ _ _ _ key.1]
  refine ⟨?_, rfl, rfl, ?_⟩
  · show (lw regDst1 regAddr1 imm1 m).log ++ _ = _
    rw [key.2.1, hA]
  · show assign _ regDst2 _ regDst2 = _
    rw [assign_same, key.2.2]

/-- Witness for C6: two loads of address 0 with empty two-level caches and memory
word 5 everywhere. -/
theorem C6_repeat_load_witness :
    machineTwoLevel.L1Cache.WF ∧ (∀ x, machineTwoLevel.memory x < 65536) ∧
    (lw 2 0 0 (lw 1 0 0 machineTwoLevel)).log =
      (lw 1 0 0 machineTwoLevel).log ++ [⟨.L1, .HIT, 0, 0, 0⟩] ∧
    (lw 2 0 0 (lw 1 0 0 machineTwoLevel)).regs 2 = (lw 1 0 0 machineTwoLevel).regs 1 :=
  have hw1 : machineTwoLevel.L1Cache.WF :=
    Cache.new_WF 2 1 1 (by decide) (by decide) (by decide)
  have hm : ∀ x, machineTwoLevel.memory x < 65536 := fun _ => (by decide : (5 : Nat) < 65536)
  have key := C6_repeat_load machineTwoLevel 1 0 0 2 0 0 hw1 hm (by decide)
  ⟨hw1, hm, key.1, key.2.2.2⟩

/-- C8: for positive `size`, `associativity`, `blocksize` with
`associativity * blocksize` dividing `size`, the constructed cache satisfies
`associativity * blocksize * numRows = size`, has at least one row, has exactly
`numRows` rows of exactly `associativity` slots each, and every slot is invalid. -/
theorem C8_geometry (size associativity blocksize : Nat) (hs : 0 < size)
    (ha : 0 < associativity) (hb : 0 < blocksize) (hdiv : associativity * blocksize ∣ size) :
    (Cache.new size associativity blocksize).associativity
        * (Cache.new size associativity blocksize).blocksize
        * (Cache.new size associativity blocksize).getNumRows = size ∧
    (Cache.new size associativity blocksize).size = size ∧
    (Cache.new size associativity blocksize).associativity = associativity ∧
    (Cache.new size associativity blocksize).blocksize = blocksize ∧
    0 < (Cache.new size associativity blocksize).getNumRows ∧
    (Cache.new size associativity blocksize).rows.length
      = (Cache.new size associativity blocksize).getNumRows ∧
    ∀ row ∈ (Cache.new size associativity blocksize).rows,
      row.length = associativity ∧ ∀ b ∈ row, b.valid = false := by
  have hle : associativity * blocksize ≤ size := Nat.le_of_dvd hs hdiv
  refine ⟨?_, rfl, rfl, rfl, ?_, ?_, ?_⟩
  · show associativity * blocksize * (size / (associativity * blocksize)) = size
    exact Nat.mul_div_cancel' hdiv
  · exact Nat.div_pos hle (Nat.mul_pos ha hb)
  · show (List.replicate _ _).length = _
    rw [List.length_replicate]; rfl
  · intro row hrow
    have hrow' : row ∈ List.replicate (size / (associativity * blocksize))
        (List.replicate associativity (default : CacheBlock)) := hrow
    rw [List.mem_replicate] at hrow'
    rw [hrow'.2]
    refine ⟨List.length_replicate _ _, fun b hb' => ?_⟩
    rw [List.mem_replicate] at hb'
    rw [hb'.2]
    rfl

/-- Witness for C8: size 16, associativity 2, blocksize 4 gives 2 rows. -/
theorem C8_geometry_witness :
    2 * 4 ∣ 16 ∧
    (Cache.new 16 2 4).associativity * (Cache.new 16 2 4).blocksize
      * (Cache.new 16 2 4).getNumRows = 16 ∧
    (Cache.new 16 2 4).rows.length = (Cache.new 16 2 4).getNumRows :=
  have key := C8_geometry 16 2 4 (by decide) (by decide) (by decide) (by decide)
  ⟨by decide, key.1, key.2.2.2.2.2.1⟩

theorem nextPc_lt (pc : Nat) : nextPc pc < 8192 := by
  unfold nextPc MEM_SIZE; omega

theorem jeq_lt (regA regB imm pc : Nat) (regs : Nat → Nat) :
    jeq regA regB imm pc regs < 8192 := by
  unfold jeq MEM_SIZE; split <;> omega

theorem lw_pc (regDst regAddr imm : Nat) (m : Machine) :
    (lw regDst regAddr imm m).pc = m.pc := by
  unfold lw
  simp only []
  split
  · rfl
  · split
    · split <;> rfl
    · rfl

/-- `lw` keeps both caches well-formed. -/
theorem lw_WF (regDst regAddr imm : Nat) (m : Machine) (h1 : m.L1Cache.WF)
    (h2 : ∀ l2, m.L2CachePtr = some l2 → l2.WF) :
    (lw regDst regAddr imm m).L1Cache.WF ∧
    ∀ l2, (lw regDst regAddr imm m).L2CachePtr = some l2 → l2.WF := by
  have w1 := Cache.accessCache_WF _ h1 (effectiveAddress m.regs regAddr imm) 0 false
  unfold lw
  simp only []
  cases hl2 : m.L2CachePtr with
  | none =>
    simp only []
    split
    · exact ⟨w1, fun l2 h => by cases h⟩
    · exact ⟨Cache.accessCache_WF _ w1 _ _ true, fun l2 h => by cases h⟩
  | some c2 =>
    have w2 := h2 c2 hl2
    simp only []
    split
    · exact ⟨w1, fun l2 h => by cases h; exact w2⟩
    · split
      · refine ⟨Cache.accessCache_WF _ w1 _ _ true, fun l2 h => ?_⟩
        cases h
        exact Cache.accessCache_WF _ w2 _ _ false
      · refine ⟨Cache.accessCache_WF _ w1 _ _ true, fun l2 h => ?_⟩
        cases h
        exact Cache.accessCache_WF _ (Cache.accessCache_WF _ w2 _ _ false) _ _ true

/-- `sw` keeps both caches well-formed. -/
theorem sw_WF (regSrc regAddr imm : Nat) (m : Machine) (h1 : m.L1Cache.WF)
    (h2 : ∀ l2, m.L2CachePtr = some l2 → l2.WF) :
    (sw regSrc regAddr imm m).L1Cache.WF ∧
    ∀ l2, (sw regSrc regAddr imm m).L2CachePtr = some l2 → l2.WF := by
  rw [sw_L1Cache, sw_L2CachePtr]
  refine ⟨Cache.accessCache_WF _ h1 _ _ true, fun l2 h => ?_⟩
  cases hl2 : m.L2CachePtr with
  | none => rw [hl2] at h; cases h
  | some c2 =>
    rw [hl2] at h
    cases h
    exact Cache.accessCache_WF _ (h2 c2 hl2) _ _ true

/-- `execute_instruction` keeps both caches well-formed. -/
theorem execute_instruction_keeps_WF (instr : Nat) (m m' : Machine) (h1 : m.L1Cache.WF)
    (h2 : ∀ l2, m.L2CachePtr = some l2 → l2.WF)
    (hex : execute_instruction instr m = some m') :
    m'.L1Cache.WF ∧ ∀ l2, m'.L2CachePtr = some l2 → l2.WF := by
  unfold execute_instruction at hex
  simp only [] at hex
  split at hex
  · split at hex
    · cases hex; exact ⟨h1, h2⟩
    · split at hex
      · cases hex; exact ⟨h1, h2⟩
      · split at hex
        · cases hex; exact ⟨h1, h2⟩
        · split at hex
          · cases hex; exact ⟨h1, h2⟩
          · split at hex
            · cases hex; exact ⟨h1, h2⟩
            · split at hex
              · cases hex; exact ⟨h1, h2⟩
              · cases hex; exact ⟨h1, h2⟩
  · split at hex
    · cases hex; exact ⟨h1, h2⟩
    · split at hex
      · split at hex
        · cases hex; exact ⟨h1, h2⟩
        · cases hex; exact ⟨h1, h2⟩
      · split at hex
        · cases hex; exact ⟨h1, h2⟩
        · split at hex
          · cases hex; exact lw_WF _ _ _ m h1 h2
          · split at hex
            · cases hex; exact sw_WF _ _ _ m h1 h2
            · split at hex
              · cases hex; exact ⟨h1, h2⟩
              · split at hex
                · cases hex; exact ⟨h1, h2⟩
                · cases hex

/-- C10: for every 16-bit instruction word and every state with `pc < 8192` whose
caches are well-formed (at least one row, every row of `associativity` slots, so
that `lw` and `sw` index `rows` in bounds), `execute_instruction` returns a
state, its `pc` is below 8192, and its caches are well-formed again, so the
statement applies to every state of a run. -/
theorem C10_pc_in_range (instr : Nat) (m : Machine) (hi : instr < 65536)
    (hpc : m.pc < 8192) (h1 : m.L1Cache.WF) (h2 : ∀ l2, m.L2CachePtr = some l2 → l2.WF) :
    ∃ m', execute_instruction instr m = some m' ∧ m'.pc < 8192 ∧
      m'.L1Cache.WF ∧ ∀ l2, m'.L2CachePtr = some l2 → l2.WF := by
  have hop : instr >>> 13 < 8 := by
    rw [Nat.shiftRight_eq_div_pow]; omega
  suffices hpcs : ∃ m', execute_instruction instr m = some m' ∧ m'.pc < 8192 by
    obtain ⟨m', hex, hp⟩ := hpcs
    exact ⟨m', hex, hp, execute_instruction_keeps_WF instr m m' h1 h2 hex⟩
  unfold execute_instruction
  simp only []
  split
  · split
    · exact ⟨_, rfl, nextPc_lt _⟩
    · split
      · exact ⟨_, rfl, nextPc_lt _⟩
      · split
        · exact ⟨_, rfl, nextPc_lt _⟩
        · split
          · exact ⟨_, rfl, nextPc_lt _⟩
          · split
            · exact ⟨_, rfl, nextPc_lt _⟩
            · split
              · exact ⟨_, rfl, Nat.mod_lt _ (by decide)⟩
              · exact ⟨_, rfl, hpc⟩
  · split
    · exact ⟨_, rfl, nextPc_lt _⟩
    · split
      · split
        · exact ⟨_, rfl, hpc⟩
        · exact ⟨_, rfl, Nat.mod_lt _ (by decide)⟩
      · split
        · exact ⟨_, rfl, Nat.mod_lt _ (by decide)⟩
        · split
          · exact ⟨_, rfl, nextPc_lt _⟩
          · split
            · exact ⟨_, rfl, nextPc_lt _⟩
            · split
              · exact ⟨_, rfl, jeq_lt _ _ _ _ _⟩
              · split
                · exact ⟨_, rfl, nextPc_lt _⟩
                · omega

/-- Witness for C10: `jeq $0, $0, -2` (word 49278) at `pc = 0`, `add` (word 0)
at `pc = 8191` and `lw $1, 0($0)` (word 32896) at `pc = 8191`, each with the
well-formed cache of one row and no L2; the new `pc` is 8191, 0 and 0. -/
theorem C10_pc_in_range_witness :
    machineLwZero.L1Cache.WF ∧ machineLastPc.L1Cache.WF ∧
    (∃ m', execute_instruction 49278 machineLwZero = some m' ∧ m'.pc < 8192 ∧
      m'.L1Cache.WF ∧ ∀ l2, m'.L2CachePtr = some l2 → l2.WF) ∧
    (∃ m', execute_instruction 0 machineLastPc = some m' ∧ m'.pc < 8192 ∧
      m'.L1Cache.WF ∧ ∀ l2, m'.L2CachePtr = some l2 → l2.WF) ∧
    (∃ m', execute_instruction 32896 machineLastPc = some m' ∧ m'.pc < 8192 ∧
      m'.L1Cache.WF ∧ ∀ l2, m'.L2CachePtr = some l2 → l2.WF) ∧
    (execute_instruction 49278 machineLwZero).map (fun m => m.pc) = some 8191 ∧
    (execute_instruction 0 machineLastPc).map (fun m => m.pc) = some 0 ∧
    (execute_instruction 32896 machineLastPc).map (fun m => m.pc) = some 0 :=
  have hw : (Cache.new 1 1 1).WF := Cache.new_WF 1 1 1 (by decide) (by decide) (by decide)
  have hn1 : ∀ l2, machineLwZero.L2CachePtr = some l2 → l2.WF := fun _ h => nomatch h
  have hn2 : ∀ l2, machineLastPc.L2CachePtr = some l2 → l2.WF := fun _ h => nomatch h
  ⟨hw, hw, C10_pc_in_range 49278 machineLwZero (by decide) (by decide) hw hn1,
   C10_pc_in_range 0 machineLastPc (by decide) (by decide) hw hn2,
   C10_pc_in_range 32896 machineLastPc (by decide) (by decide) hw hn2,
   by decide, by decide, by decide⟩

theorem getD_replicate_eq {α : Type} (n i : Nat) (x d : α) :
    (List.replicate n x).getD i d = if i < n then x else d := by
  rw [List.getD_eq_getElem?_getD, List.getElem?_replicate]
  by_cases h : i < n
  · rw [if_pos h, if_pos h]; rfl
  · rw [if_neg h, if_neg h]; rfl

theorem Cache.new_block (size associativity blocksize r k : Nat) :
    (Cache.new size associativity blocksize).block r k = default := by
  show ((List.replicate (size / (associativity * blocksize))
      (List.replicate associativity (default : CacheBlock))).getD r []).getD k default = default
  rw [getD_replicate_eq]
  by_cases hr : r < size / (associativity * blocksize)
  · rw [if_pos hr, getD_replicate_eq]
    by_cases hk : k < associativity
    · rw [if_pos hk]
    · rw [if_neg hk]
  · rw [if_neg hr]; rfl

theorem Cache.accessCache_lruCounter (c : Cache) (a : Nat) (d : Int) (w : Bool) :
    (c.accessCache a d w).cache.lruCounter = c.lruCounter + 1 := by
  cases h : c.searchLoop (c.index a) (c.tag a) c.associativity 0 with
  | some i => rw [c.accessCache_of_some a d w i h]
  | none => rw [c.accessCache_of_none a d w h]

/-- The block in the touched slot after an access: valid, with the tag of the
address and the new counter value as recency. -/
theorem Cache.accessCache_touched (c : Cache) (h : c.WF) (a : Nat) (d : Int) (w : Bool) :
    ((c.accessCache a d w).cache.block (c.index a) (c.slotOf a)).valid = true ∧
    ((c.accessCache a d w).cache.block (c.index a) (c.slotOf a)).tag = c.tag a ∧
    ((c.accessCache a d w).cache.block (c.index a) (c.slotOf a)).lastUsed = c.lruCounter + 1 := by
  rw [c.accessCache_block h a d w, if_pos ⟨rfl, rfl⟩]
  cases hs : c.searchLoop (c.index a) (c.tag a) c.associativity 0 with
  | some i =>
    obtain ⟨_, _, hh, _⟩ := (c.searchLoop_eq_some _ _ _ _ _).1 hs
    have hv := c.hitBlock_valid (c.index a) i d w
    simp only
    exact ⟨hv.1.trans hh.1, hv.2.1.trans hh.2, hv.2.2.1⟩
  | none =>
    have hv := c.missBlock_valid (c.index a) (c.findLRUBlockIndex (c.index a)) (c.tag a) d w
    simp only
    exact ⟨hv.1, hv.2.1, hv.2.2.1⟩

/-- Every slot other than the touched one is unchanged by an access. -/
theorem Cache.accessCache_untouched (c : Cache) (h : c.WF) (a : Nat) (d : Int) (w : Bool)
    (r k : Nat) (hne : ¬ (r = c.index a ∧ k = c.slotOf a)) :
    (c.accessCache a d w).cache.block r k = c.block r k := by
  rw [c.accessCache_block h a d w, if_neg hne]

/-- Before the access, no slot of the row other than the touched one holds the
tag of the address. -/
theorem Cache.not_holds_other (c : Cache) (h : c.Inv) (a k : Nat)
    (hk : k < c.associativity) (hne : k ≠ c.slotOf a) :
    ¬ c.holds (c.index a) (c.tag a) k := by
  intro hh
  cases hs : c.searchLoop (c.index a) (c.tag a) c.associativity 0 with
  | some i =>
    have hsl : c.slotOf a = i := by unfold Cache.slotOf; rw [hs]
    obtain ⟨_, h2, h3, _⟩ := (c.searchLoop_eq_some _ _ _ _ _).1 hs
    exact hne (hsl ▸ h.tag_unique _ _ k i hk (by omega) hh h3)
  | none =>
    exact (c.searchLoop_eq_none _ _ _ _).1 hs k (Nat.zero_le _) (by omega) hh

theorem Cache.accessCache_Inv (c : Cache) (h : c.Inv) (a : Nat) (d : Int) (w : Bool) :
    (c.accessCache a d w).cache.Inv := by
  have ht := c.accessCache_touched h.wf a d w
  have hg := c.accessCache_geometry a d w
  refine ⟨c.accessCache_WF h.wf a d w, ?_, ?_⟩
  · intro r k
    rw [Cache.accessCache_lruCounter]
    by_cases hc : r = c.index a ∧ k = c.slotOf a
    · rw [hc.1, hc.2, ht.2.2]
    · rw [c.accessCache_untouched h.wf a d w r k hc]
      have := h.used_le r k
      omega
  · intro r t k1 k2 hk1 hk2 h1 h2
    rw [hg.2.2.1] at hk1 hk2
    unfold Cache.holds at h1 h2
    by_cases hc1 : r = c.index a ∧ k1 = c.slotOf a
    · by_cases hc2 : r = c.index a ∧ k2 = c.slotOf a
      · rw [hc1.2, hc2.2]
      · rw [c.accessCache_untouched h.wf a d w r k2 hc2] at h2
        rw [hc1.1, hc1.2, ht.2.1] at h1
        rw [hc1.1, ← h1.2] at h2
        exact absurd h2 (c.not_holds_other h a k2 hk2 (fun e => hc2 ⟨hc1.1, e⟩))
    · rw [c.accessCache_untouched h.wf a d w r k1 hc1] at h1
      by_cases hc2 : r = c.index a ∧ k2 = c.slotOf a
      · rw [hc2.1, hc2.2, ht.2.1] at h2
        rw [hc2.1, ← h2.2] at h1
        exact absurd h1 (c.not_holds_other h a k1 hk1 (fun e => hc1 ⟨hc2.1, e⟩))
      · rw [c.accessCache_untouched h.wf a d w r k2 hc2] at h2
        exact h.tag_unique r t k1 k2 hk1 hk2 h1 h2

theorem Cache.new_Inv (size associativity blocksize : Nat) (ha : 0 < associativity)
    (hb : 0 < blocksize) (hs : associativity * blocksize ≤ size) :
    (Cache.new size associativity blocksize).Inv := by
  refine ⟨Cache.new_WF _ _ _ ha hb hs, ?_, ?_⟩
  · intro r k
    rw [Cache.new_block]
    exact le_refl _
  · intro r t k1 k2 _ _ h1 _
    unfold Cache.holds at h1
    rw [Cache.new_block] at h1
    exact absurd h1.1 (by decide)

theorem Cache.run_append (c : Cache) (xs ys : List Access) :
    c.run (xs ++ ys) = (c.run xs).run ys := by
  induction xs generalizing c with
  | nil => rfl
  | cons x xs ih => exact ih _

theorem Cache.run_Inv (c : Cache) (h : c.Inv) (xs : List Access) : (c.run xs).Inv := by
  induction xs generalizing c with
  | nil => exact h
  | cons x xs ih => exact ih _ (c.accessCache_Inv h _ _ _)

theorem Cache.run_geometry (c : Cache) (xs : List Access) :
    (c.run xs).numRows = c.numRows ∧ (c.run xs).blocksize = c.blocksize ∧
    (c.run xs).associativity = c.associativity := by
  induction xs generalizing c with
  | nil => exact ⟨rfl, rfl, rfl⟩
  | cons x xs ih =>
    have h1 := ih (c.accessCache x.address x.data x.isWrite).cache
    have h2 := c.accessCache_geometry x.address x.data x.isWrite
    exact ⟨h1.1.trans h2.1, h1.2.1.trans h2.2.1, h1.2.2.trans h2.2.2.1⟩

theorem Cache.run_index_eq (c : Cache) (xs : List Access) (a : Nat) :
    (c.run xs).index a = c.index a :=
  Cache.index_congr c _ (c.run_geometry xs).1 (c.run_geometry xs).2.1 a

theorem Cache.run_tag_eq (c : Cache) (xs : List Access) (a : Nat) :
    (c.run xs).tag a = c.tag a :=
  Cache.tag_congr c _ (c.run_geometry xs).1 (c.run_geometry xs).2.1 a

/-- Recency bookkeeping for two tags `t0`, `t1` of row `r` relative to a counter
value `n1`: every slot holding `t0` was last used before `n1`, every slot holding
`t1` at `n1` or later. -/
theorem Cache.recency_split_step (c : Cache) (h : c.Inv) (r : Nat) (t0 t1 : Int) (n1 : Int)
    (a : Nat) (d : Int) (w : Bool) (hrow : c.index a = r) (hty : c.tag a ≠ t0)
    (hJ0 : ∀ k, c.holds r t0 k → (c.block r k).lastUsed < n1)
    (hJ1 : ∀ k, c.holds r t1 k → n1 ≤ (c.block r k).lastUsed)
    (hn : n1 ≤ c.lruCounter) :
    (∀ k, (c.accessCache a d w).cache.holds r t0 k →
      ((c.accessCache a d w).cache.block r k).lastUsed < n1) ∧
    (∀ k, (c.accessCache a d w).cache.holds r t1 k →
      n1 ≤ ((c.accessCache a d w).cache.block r k).lastUsed) ∧
    n1 ≤ (c.accessCache a d w).cache.lruCounter := by
  have ht := c.accessCache_touched h.wf a d w
  rw [hrow] at ht
  refine ⟨?_, ?_, ?_⟩
  · intro k hk
    unfold Cache.holds at hk
    by_cases hc : r = c.index a ∧ k = c.slotOf a
    · rw [hc.2, ht.2.1] at hk
      exact absurd hk.2 hty
    · rw [c.accessCache_untouched h.wf a d w r k hc] at hk ⊢
      exact hJ0 k hk
  · intro k hk
    unfold Cache.holds at hk
    by_cases hc : r = c.index a ∧ k = c.slotOf a
    · rw [hc.2, ht.2.2]; omega
    · rw [c.accessCache_untouched h.wf a d w r k hc] at hk ⊢
      exact hJ1 k hk
  · rw [Cache.accessCache_lruCounter]; omega

theorem Cache.recency_split_run (r : Nat) (t0 t1 : Int) (n1 : Int) (post : List Access) :
    ∀ c : Cache, c.Inv →
      (∀ y ∈ post, c.index y.address = r ∧ c.tag y.address ≠ t0) →
      (∀ k, c.holds r t0 k → (c.block r k).lastUsed < n1) →
      (∀ k, c.holds r t1 k → n1 ≤ (c.block r k).lastUsed) →
      n1 ≤ c.lruCounter →
      (∀ k, (c.run post).holds r t0 k → ((c.run post).block r k).lastUsed < n1) ∧
      (∀ k, (c.run post).holds r t1 k → n1 ≤ ((c.run post).block r k).lastUsed) := by
  induction post with
  | nil => intro c _ _ h0 h1 _; exact ⟨h0, h1⟩
  | cons y ys ih =>
    intro c hInv hys h0 h1 hn
    have hy := hys y (List.mem_cons_self _ _)
    have step := c.recency_split_step hInv r t0 t1 n1 y.address y.data y.isWrite
      hy.1 hy.2 h0 h1 hn
    apply ih _ (c.accessCache_Inv hInv _ _ _) _ step.1 step.2.1 step.2.2
    intro z hz
    have := hys z (List.mem_cons_of_mem _ hz)
    rw [Cache.accessCache_index_eq, Cache.accessCache_tag_eq]
    exact this

/-- Right after an access with tag `t1` in row `r`, the recency bookkeeping holds
with `n1` the new counter value. -/
theorem Cache.recency_split_base (c : Cache) (h : c.Inv) (r : Nat) (t0 t1 : Int)
    (a : Nat) (d : Int) (w : Bool) (hrow : c.index a = r) (ht1 : c.tag a = t1)
    (hne : t0 ≠ t1) :
    (∀ k, k < c.associativity → (c.accessCache a d w).cache.holds r t0 k →
      ((c.accessCache a d w).cache.block r k).lastUsed < c.lruCounter + 1) ∧
    (∀ k, k < c.associativity → (c.accessCache a d w).cache.holds r t1 k →
      c.lruCounter + 1 ≤ ((c.accessCache a d w).cache.block r k).lastUsed) := by
  have ht := c.accessCache_touched h.wf a d w
  rw [hrow, ht1] at ht
  refine ⟨?_, ?_⟩
  · intro k _ hk
    unfold Cache.holds at hk
    by_cases hc : r = c.index a ∧ k = c.slotOf a
    · rw [hc.2, ht.2.1] at hk
      exact absurd hk.2.symm hne
    · rw [c.accessCache_untouched h.wf a d w r k hc]
      have := h.used_le r k
      omega
  · intro k hklt hk
    by_cases hc : r = c.index a ∧ k = c.slotOf a
    · rw [hc.2, ht.2.2]
    · unfold Cache.holds at hk
      rw [c.accessCache_untouched h.wf a d w r k hc] at hk
      rw [← hrow, ← ht1] at hk
      exact absurd hk (c.not_holds_other h a k hklt (fun e => hc ⟨hrow.symm, e⟩))

theorem Cache.block_of_ge (c : Cache) (h : c.WF) (r k : Nat) (hk : c.associativity ≤ k) :
    c.block r k = default := by
  unfold Cache.block
  apply List.getD_eq_default
  by_cases hr : r < c.numRows
  · rw [h.row_len r hr]; exact hk
  · rw [List.getD_eq_default _ _ (by rw [h.rows_len]; omega)]
    exact Nat.zero_le _

theorem Cache.holds_lt (c : Cache) (h : c.WF) (r : Nat) (t : Int) (k : Nat)
    (hh : c.holds r t k) : k < c.associativity := by
  by_contra hk
  unfold Cache.holds at hh
  rw [c.block_of_ge h r k (by omega)] at hh
  exact absurd hh.1 (by decide)

/-- Eviction with associativity 2: if the two slots of row `r` hold `t0` and `t1`,
`t0` last used before `n1` and `t1` at `n1` or later, then an access in row `r`
with a third tag replaces `t0` and keeps `t1`. -/
theorem Cache.evict_two_way (c : Cache) (h : c.Inv) (hassoc : c.associativity = 2)
    (r : Nat) (t0 t1 : Int) (n1 : Int) (a : Nat) (d : Int) (w : Bool) (k0 k1 : Nat)
    (hrow : c.index a = r) (hne : t0 ≠ t1) (ha0 : c.tag a ≠ t0) (ha1 : c.tag a ≠ t1)
    (hk0 : c.holds r t0 k0) (hk1 : c.holds r t1 k1)
    (hJ0 : ∀ k, c.holds r t0 k → (c.block r k).lastUsed < n1)
    (hJ1 : ∀ k, c.holds r t1 k → n1 ≤ (c.block r k).lastUsed) :
    (c.accessCache a d w).hit = false ∧
    (c.accessCache a d w).cache.holds r (c.tag a) k0 ∧
    (c.accessCache a d w).cache.holds r t1 k1 ∧
    ∀ k, ¬ (c.accessCache a d w).cache.holds r t0 k := by
  have hlt0 := c.holds_lt h.wf r t0 k0 hk0
  have hlt1 := c.holds_lt h.wf r t1 k1 hk1
  have hk01 : k0 ≠ k1 := by
    intro e
    rw [e] at hk0
    exact hne (hk0.2.symm.trans hk1.2)
  -- no slot holds the tag of `a`
  have hnone : c.searchLoop (c.index a) (c.tag a) c.associativity 0 = none := by
    rw [Cache.searchLoop_eq_none]
    intro k _ hk hh
    rw [hrow] at hh
    have : k = k0 ∨ k = k1 := by omega
    rcases this with e | e
    · rw [e] at hh; exact ha0 (hh.2.symm.trans hk0.2)
    · rw [e] at hh; exact ha1 (hh.2.symm.trans hk1.2)
  have hspec := c.findLRUBlockIndex_spec (c.index a) h.wf.assoc_pos
  rw [hrow] at hspec
  have hslot : c.slotOf a = k0 := by
    have e : c.slotOf a = c.findLRUBlockIndex r := by
      unfold Cache.slotOf; rw [hnone, hrow]
    rw [e]
    have hle := hspec.2.1 k0 hlt0
    have h0 := hJ0 k0 hk0
    have h1 := hJ1 k1 hk1
    have hnot1 : c.findLRUBlockIndex r ≠ k1 := by
      intro e1
      rw [e1] at hle
      omega
    have := hspec.1
    omega
  have ht := c.accessCache_touched h.wf a d w
  rw [hrow, hslot] at ht
  have hun : ∀ k, k ≠ k0 → (c.accessCache a d w).cache.block r k = c.block r k := by
    intro k hk
    exact c.accessCache_untouched h.wf a d w r k (fun hc => hk (hc.2.trans hslot))
  refine ⟨?_, ⟨ht.1, ht.2.1⟩, ?_, ?_⟩
  · rw [Cache.accessCache_hit_eq, hnone]; rfl
  · unfold Cache.holds
    rw [hun k1 (fun e => hk01 e.symm)]
    exact hk1
  · intro k hh
    have hklt : k < 2 := by
      have := Cache.holds_lt _ (c.accessCache_WF h.wf a d w) r t0 k hh
      rw [(c.accessCache_geometry a d w).2.2.1] at this
      omega
    unfold Cache.holds at hh
    have : k = k0 ∨ k = k1 := by omega
    rcases this with e | e
    · rw [e, ht.2.1] at hh
      exact ha0 hh.2
    · rw [e, hun k1 (fun e => hk01 e.symm)] at hh
      exact hne (hh.2.symm.trans hk1.2)

/-- The first access to an empty two-way row `r` fills slot 0 and leaves slot 1
as constructed. -/
theorem Cache.first_fill (size blocksize : Nat) (hb : 0 < blocksize)
    (hs : 2 * blocksize ≤ size) (a : Nat) (d : Int) (w : Bool) :
    ((Cache.new size 2 blocksize).accessCache a d w).cache.holds
      ((Cache.new size 2 blocksize).index a) ((Cache.new size 2 blocksize).tag a) 0 ∧
    ((Cache.new size 2 blocksize).accessCache a d w).cache.block
      ((Cache.new size 2 blocksize).index a) 1 = default ∧
    1 ≤ (((Cache.new size 2 blocksize).accessCache a d w).cache.block
      ((Cache.new size 2 blocksize).index a) 0).lastUsed := by
  have hInv := Cache.new_Inv size 2 blocksize (by decide) hb hs
  have hnone : (Cache.new size 2 blocksize).searchLoop ((Cache.new size 2 blocksize).index a)
      ((Cache.new size 2 blocksize).tag a) (Cache.new size 2 blocksize).associativity 0 = none := by
    rw [Cache.searchLoop_eq_none]
    intro k _ _ hh
    unfold Cache.holds at hh
    rw [Cache.new_block] at hh
    exact absurd hh.1 (by decide)
  have hspec := (Cache.new size 2 blocksize).findLRUBlockIndex_spec
    ((Cache.new size 2 blocksize).index a) hInv.wf.assoc_pos
  have hslot : (Cache.new size 2 blocksize).slotOf a = 0 := by
    have e : (Cache.new size 2 blocksize).slotOf a
        = (Cache.new size 2 blocksize).findLRUBlockIndex ((Cache.new size 2 blocksize).index a) := by
      unfold Cache.slotOf; rw [hnone]
    rw [e]
    by_contra hne
    have := hspec.2.2 0 (by omega)
    rw [Cache.new_block, Cache.new_block] at this
    exact absurd this (lt_irrefl _)
  have ht := (Cache.new size 2 blocksize).accessCache_touched hInv.wf a d w
  rw [hslot] at ht
  refine ⟨⟨ht.1, ht.2.1⟩, ?_, ?_⟩
  · rw [Cache.accessCache_untouched _ hInv.wf a d w _ 1 (fun hc => by
      have := hc.2.trans hslot
      omega)]
    exact Cache.new_block _ _ _ _ _
  · rw [ht.2.2]
    show (1 : Int) ≤ 0 + 1
    omega

/-- While slot 0 of row `r` holds `t` and slot 1 is still as constructed, an
access in row `r` with tag `t` keeps both. -/
theorem Cache.repeat_keeps (c : Cache) (h : c.Inv) (r : Nat) (t : Int) (a : Nat) (d : Int)
    (w : Bool) (hrow : c.index a = r) (htag : c.tag a = t) (h0 : c.holds r t 0)
    (h1 : c.block r 1 = default) (hu : 1 ≤ (c.block r 0).lastUsed) :
    (c.accessCache a d w).cache.holds r t 0 ∧
    (c.accessCache a d w).cache.block r 1 = default ∧
    1 ≤ ((c.accessCache a d w).cache.block r 0).lastUsed := by
  have hsome : c.searchLoop (c.index a) (c.tag a) c.associativity 0 = some 0 := by
    rw [Cache.searchLoop_eq_some, hrow, htag]
    exact ⟨le_refl _, by have := h.wf.assoc_pos; omega, h0, fun k' _ hk' => by omega⟩
  have hslot : c.slotOf a = 0 := by unfold Cache.slotOf; rw [hsome]
  have ht := c.accessCache_touched h.wf a d w
  rw [hslot, hrow, htag] at ht
  refine ⟨⟨ht.1, ht.2.1⟩, ?_, ?_⟩
  · rw [c.accessCache_untouched h.wf a d w r 1 (fun hc => by
      have := hc.2.trans hslot
      omega)]
    exact h1
  · rw [ht.2.2]
    have := h.used_le r 0
    omega

theorem Cache.repeat_run (r : Nat) (t : Int) (reps : List Access) :
    ∀ c : Cache, c.Inv →
      (∀ z ∈ reps, c.index z.address = r ∧ c.tag z.address = t) →
      c.holds r t 0 → c.block r 1 = default → 1 ≤ (c.block r 0).lastUsed →
      (c.run reps).holds r t 0 ∧ (c.run reps).block r 1 = default ∧
      1 ≤ ((c.run reps).block r 0).lastUsed := by
  induction reps with
  | nil => intro c _ _ h0 h1 hu; exact ⟨h0, h1, hu⟩
  | cons z zs ih =>
    intro c hInv hzs h0 h1 hu
    have hz := hzs z (List.mem_cons_self _ _)
    have step := c.repeat_keeps hInv r t z.address z.data z.isWrite hz.1 hz.2 h0 h1 hu
    apply ih _ (c.accessCache_Inv hInv _ _ _) _ step.1 step.2.1 step.2.2
    intro y hy
    rw [Cache.accessCache_index_eq, Cache.accessCache_tag_eq]
    exact hzs y (List.mem_cons_of_mem _ hy)

/-- With slot 0 of a two-way row holding `t` and slot 1 still as constructed, an
access in that row with another tag fills slot 1 and keeps slot 0. -/
theorem Cache.second_fill (c : Cache) (h : c.Inv) (hassoc : c.associativity = 2)
    (r : Nat) (t : Int) (a : Nat) (d : Int) (w : Bool) (hrow : c.index a = r)
    (htag : c.tag a ≠ t) (h0 : c.holds r t 0) (h1 : c.block r 1 = default)
    (hu : 1 ≤ (c.block r 0).lastUsed) :
    (c.accessCache a d w).cache.holds r t 0 ∧
    (c.accessCache a d w).cache.holds r (c.tag a) 1 := by
  have hnone : c.searchLoop (c.index a) (c.tag a) c.associativity 0 = none := by
    rw [Cache.searchLoop_eq_none, hrow]
    intro k _ hk hh
    have : k = 0 ∨ k = 1 := by omega
    rcases this with e | e
    · rw [e] at hh; exact htag (hh.2.symm.trans h0.2)
    · rw [e] at hh
      unfold Cache.holds at hh
      rw [h1] at hh
      exact absurd hh.1 (by decide)
  have hspec := c.findLRUBlockIndex_spec (c.index a) h.wf.assoc_pos
  rw [hrow] at hspec
  have hslot : c.slotOf a = 1 := by
    have e : c.slotOf a = c.findLRUBlockIndex r := by
      unfold Cache.slotOf; rw [hnone, hrow]
    rw [e]
    have hle := hspec.2.1 1 (by omega)
    rw [h1] at hle
    have hd : (default : CacheBlock).lastUsed = 0 := rfl
    rw [hd] at hle
    have hnot0 : c.findLRUBlockIndex r ≠ 0 := by
      intro e0
      rw [e0] at hle
      omega
    have := hspec.1
    omega
  have ht := c.accessCache_touched h.wf a d w
  rw [hrow, hslot] at ht
  refine ⟨?_, ⟨ht.1, ht.2.1⟩⟩
  unfold Cache.holds
  rw [c.accessCache_untouched h.wf a d w r 0 (fun hc => by
    have := hc.2.trans hslot
    omega)]
  exact h0

theorem Cache.run_lruCounter (c : Cache) (xs : List Access) :
    (c.run xs).lruCounter = c.lruCounter + (xs.length : Int) := by
  induction xs generalizing c with
  | nil => simp [Cache.run]
  | cons x xs ih =>
    show ((c.accessCache x.address x.data x.isWrite).cache.run xs).lruCounter = _
    rw [ih, Cache.accessCache_lruCounter, List.length_cons]
    push_cast
    ring

/-- C7: LRU determinism for a two-way cache, starting from the constructed
(empty) cache, for accesses that all map to one row `r`, at most 2147483647 of
them in all, so that the source's `int` counter `lruCounter`, which counts the
accesses, does not overflow.

Eviction: let the accesses so far be `pre ++ x1 :: post`, where `x1` has tag `t1`
and no access of `post` has tag `t0` (so the most recent access of `t0` is earlier
than the most recent access of `t1`), and let slots `k0`, `k1` of row `r` hold the
distinct tags `t0`, `t1`.  Then an access `a` with a third tag misses, replaces
`t0` in slot `k0` by its own tag, and `t1` stays in slot `k1`.

Fill order: after a first access `x` and any number of further accesses with the
same tag, slot 0 holds that tag and slot 1 is invalid; an access `y` with a second
tag then fills slot 1 and slot 0 keeps the first tag.

In both cases the counter after the last access is within the range of `int`. -/
theorem C7_lru_determinism (size blocksize : Nat) (hb : 0 < blocksize)
    (hs : 2 * blocksize ≤ size) :
    (∀ (r : Nat) (pre post : List Access) (x1 a : Access) (t0 t1 : Int) (k0 k1 : Nat),
      ((pre ++ x1 :: post) ++ [a]).length ≤ 2147483647 →
      (∀ y ∈ (pre ++ x1 :: post) ++ [a], (Cache.new size 2 blocksize).index y.address = r) →
      (Cache.new size 2 blocksize).tag x1.address = t1 →
      (∀ y ∈ post, (Cache.new size 2 blocksize).tag y.address ≠ t0) →
      t0 ≠ t1 →
      (Cache.new size 2 blocksize).tag a.address ≠ t0 →
      (Cache.new size 2 blocksize).tag a.address ≠ t1 →
      ((Cache.new size 2 blocksize).run (pre ++ x1 :: post)).holds r t0 k0 →
      ((Cache.new size 2 blocksize).run (pre ++ x1 :: post)).holds r t1 k1 →
      (((Cache.new size 2 blocksize).run (pre ++ x1 :: post)).accessCache
        a.address a.data a.isWrite).hit = false ∧
      ((Cache.new size 2 blocksize).run ((pre ++ x1 :: post) ++ [a])).holds r
        ((Cache.new size 2 blocksize).tag a.address) k0 ∧
      ((Cache.new size 2 blocksize).run ((pre ++ x1 :: post) ++ [a])).holds r t1 k1 ∧
      ((Cache.new size 2 blocksize).run ((pre ++ x1 :: post) ++ [a])).lruCounter
        ≤ 2147483647 ∧
      ∀ k, ¬ ((Cache.new size 2 blocksize).run ((pre ++ x1 :: post) ++ [a])).holds r t0 k) ∧
    (∀ (r : Nat) (x y : Access) (reps : List Access),
      ((x :: reps) ++ [y]).length ≤ 2147483647 →
      (∀ z ∈ (x :: reps) ++ [y], (Cache.new size 2 blocksize).index z.address = r) →
      (∀ z ∈ reps, (Cache.new size 2 blocksize).tag z.address
        = (Cache.new size 2 blocksize).tag x.address) →
      (Cache.new size 2 blocksize).tag y.address ≠ (Cache.new size 2 blocksize).tag x.address →
      ((Cache.new size 2 blocksize).run (x :: reps)).holds r
        ((Cache.new size 2 blocksize).tag x.address) 0 ∧
      (((Cache.new size 2 blocksize).run (x :: reps)).block r 1).valid = false ∧
      ((Cache.new size 2 blocksize).run ((x :: reps) ++ [y])).holds r
        ((Cache.new size 2 blocksize).tag x.address) 0 ∧
      ((Cache.new size 2 blocksize).run ((x :: reps) ++ [y])).holds r
        ((Cache.new size 2 blocksize).tag y.address) 1 ∧
      ((Cache.new size 2 blocksize).run ((x :: reps) ++ [y])).lruCounter ≤ 2147483647) := by
  have hInv0 := Cache.new_Inv size 2 blocksize (by decide) hb hs
  have hcount : ∀ xs : List Access, xs.length ≤ 2147483647 →
      ((Cache.new size 2 blocksize).run xs).lruCounter ≤ 2147483647 := by
    intro xs hlen
    rw [Cache.run_lruCounter]
    show (0 : Int) + (xs.length : Int) ≤ 2147483647
    omega
  constructor
  · intro r pre post x1 a t0 t1 k0 k1 hlen hrow ht1 hpost hne ha0 ha1 hk0 hk1
    have hcnt := hcount _ hlen
    -- the state before `x1`
    have hInvp := Cache.run_Inv _ hInv0 pre
    have hrowx1 : ((Cache.new size 2 blocksize).run pre).index x1.address = r := by
      rw [Cache.run_index_eq]
      exact hrow x1 (by simp)
    have htagx1 : ((Cache.new size 2 blocksize).run pre).tag x1.address = t1 := by
      rw [Cache.run_tag_eq]; exact ht1
    have base := Cache.recency_split_base _ hInvp r t0 t1 x1.address x1.data x1.isWrite
      hrowx1 htagx1 hne
    have hInv1 := Cache.accessCache_Inv _ hInvp x1.address x1.data x1.isWrite
    have hassoc1 := (Cache.accessCache_geometry ((Cache.new size 2 blocksize).run pre)
      x1.address x1.data x1.isWrite).2.2.1
    have split := Cache.recency_split_run r t0 t1
      (((Cache.new size 2 blocksize).run pre).lruCounter + 1) post _ hInv1
      (fun y hy => by
        rw [Cache.accessCache_index_eq, Cache.accessCache_tag_eq, Cache.run_index_eq,
          Cache.run_tag_eq]
        exact ⟨hrow y (by simp [hy]), hpost y hy⟩)
      (fun k hk => base.1 k (hassoc1 ▸ Cache.holds_lt _ hInv1.wf r t0 k hk) hk)
      (fun k hk => base.2 k (hassoc1 ▸ Cache.holds_lt _ hInv1.wf r t1 k hk) hk)
      (by rw [Cache.accessCache_lruCounter])
    have hrun : (Cache.new size 2 blocksize).run (pre ++ x1 :: post)
        = (((Cache.new size 2 blocksize).run pre).accessCache
            x1.address x1.data x1.isWrite).cache.run post := by
      rw [Cache.run_append]; rfl
    have hInvc := Cache.run_Inv _ hInv0 (pre ++ x1 :: post)
    rw [← hrun] at split
    have hfin : (Cache.new size 2 blocksize).run ((pre ++ x1 :: post) ++ [a])
        = (((Cache.new size 2 blocksize).run (pre ++ x1 :: post)).accessCache
            a.address a.data a.isWrite).cache := by
      rw [Cache.run_append]; rfl
    have ev := Cache.evict_two_way _ hInvc
      ((Cache.run_geometry _ _).2.2) r t0 t1 _ a.address a.data a.isWrite k0 k1
      (by rw [Cache.run_index_eq]; exact hrow a (by simp))
      hne (by rw [Cache.run_tag_eq]; exact ha0) (by rw [Cache.run_tag_eq]; exact ha1)
      hk0 hk1 split.1 split.2
    rw [Cache.run_tag_eq] at ev
    rw [hfin] at hcnt ⊢
    exact ⟨ev.1, ev.2.1, ev.2.2.1, hcnt, ev.2.2.2⟩
  · intro r x y reps hlen hrow hreps hy
    have hcnt := hcount _ hlen
    have hrx : (Cache.new size 2 blocksize).index x.address = r := hrow x (by simp)
    have first := Cache.first_fill size blocksize hb hs x.address x.data x.isWrite
    rw [hrx] at first
    have hInv1 := Cache.accessCache_Inv _ hInv0 x.address x.data x.isWrite
    have rep := Cache.repeat_run r ((Cache.new size 2 blocksize).tag x.address) reps _ hInv1
      (fun z hz => by
        rw [Cache.accessCache_index_eq, Cache.accessCache_tag_eq]
        exact ⟨hrow z (by simp [hz]), hreps z hz⟩)
      first.1 first.2.1 first.2.2
    have hrun : (Cache.new size 2 blocksize).run (x :: reps)
        = ((Cache.new size 2 blocksize).accessCache x.address x.data x.isWrite).cache.run reps :=
      rfl
    rw [← hrun] at rep
    have hInvc := Cache.run_Inv _ hInv0 (x :: reps)
    have hfin : (Cache.new size 2 blocksize).run ((x :: reps) ++ [y])
        = (((Cache.new size 2 blocksize).run (x :: reps)).accessCache
            y.address y.data y.isWrite).cache := by
      rw [Cache.run_append]; rfl
    have sec := Cache.second_fill _ hInvc ((Cache.run_geometry _ _).2.2) r
      ((Cache.new size 2 blocksize).tag x.address) y.address y.data y.isWrite
      (by rw [Cache.run_index_eq]; exact hrow y (by simp))
      (by rw [Cache.run_tag_eq]; exact hy) rep.1 rep.2.1 rep.2.2
    rw [Cache.run_tag_eq] at sec
    rw [hfin] at hcnt ⊢
    refine ⟨rep.1, ?_, sec.1, sec.2, hcnt⟩
    rw [rep.2.1]
    rfl

/-- Witness for C7: one row of two slots (size 2, blocksize 1).  After the
accesses 0, 1, 0 slot 0 holds tag 0 (most recently used) and slot 1 holds tag 1;
the access 2 then replaces tag 1 in slot 1 and tag 0 stays in slot 0. -/
theorem C7_lru_determinism_witness :
    ((([⟨0, 0, false⟩, ⟨1, 0, false⟩] : List Access) ++ (⟨0, 0, false⟩ : Access) :: []) ++
      [(⟨2, 0, false⟩ : Access)]).length ≤ 2147483647 ∧
    ((Cache.new 2 2 1).run [⟨0, 0, false⟩, ⟨1, 0, false⟩, ⟨0, 0, false⟩]).holds 0 1 1 ∧
    ((Cache.new 2 2 1).run [⟨0, 0, false⟩, ⟨1, 0, false⟩, ⟨0, 0, false⟩]).holds 0 0 0 ∧
    ((Cache.new 2 2 1).run
      (([⟨0, 0, false⟩, ⟨1, 0, false⟩] ++ (⟨0, 0, false⟩ : Access) :: []) ++ [⟨2, 0, false⟩])).holds
        0 ((Cache.new 2 2 1).tag 2) 1 ∧
    ((Cache.new 2 2 1).run
      (([⟨0, 0, false⟩, ⟨1, 0, false⟩] ++ (⟨0, 0, false⟩ : Access) :: []) ++ [⟨2, 0, false⟩])).holds
        0 0 0 :=
  have key := (C7_lru_determinism 2 1 (by decide) (by decide)).1 0
    [⟨0, 0, false⟩, ⟨1, 0, false⟩] [] ⟨0, 0, false⟩ ⟨2, 0, false⟩ 1 0 1 0
    (by decide) (by decide) (by decide) (by decide) (by decide) (by decide) (by decide)
    (by decide) (by decide)
  ⟨by decide, by decide, by decide, key.2.1, key.2.2.1⟩

/-! ## Supporting facts for C1 and C2 -/

theorem sign_extend_7bit_eq (imm : Nat) (h : imm < 128) :
    sign_extend_7bit imm = if imm < 64 then (imm : Int) else (imm : Int) - 128 := by
  unfold sign_extend_7bit
  have e1 : imm >>> 6 = imm / 64 := by rw [Nat.shiftRight_eq_div_pow]
  have e2 : imm &&& 0b111111 = imm % 64 := Nat.and_pow_two_sub_one_eq_mod imm 6
  rw [e1, e2]
  by_cases hlt : imm < 64
  · have : imm / 64 = 0 := by omega
    simp [this, hlt]
  · have : imm / 64 ≠ 0 := by omega
    simp only [this, ne_eq, not_false_eq_true, if_true, hlt, if_false]
    omega

/-- For an immediate below 64 the address used by `lw` and `sw` is the
sign-extended sum; for an immediate from 64 to 127 it is 128 above it (mod 8192). -/
theorem effectiveAddress_eq (regs : Nat → Nat) (regAddr imm : Nat) (h : imm < 128) :
    (effectiveAddress regs regAddr imm : Int) =
      if imm < 64 then ((regs regAddr : Int) + sign_extend_7bit imm) % 8192
      else ((regs regAddr : Int) + sign_extend_7bit imm + 128) % 8192 := by
  rw [sign_extend_7bit_eq imm h]
  unfold effectiveAddress MEM_SIZE
  by_cases hlt : imm < 64
  · simp only [hlt, if_true]; omega
  · simp only [hlt, if_false]; omega

theorem lw_regs_other (regDst regAddr imm : Nat) (m : Machine) (r : Nat) (h : r ≠ regDst) :
    (lw regDst regAddr imm m).regs r = m.regs r := by
  unfold lw
  simp only []
  split
  · show assign _ _ _ r = _
    unfold assign; rw [if_neg h]
  · split
    · split
      · show assign _ _ _ r = _
        unfold assign; rw [if_neg h]
      · show assign _ _ _ r = _
        unfold assign; rw [if_neg h]
    · show assign _ _ _ r = _
      unfold assign; rw [if_neg h]

theorem guarded_assign_zero (regs : Nat → Nat) (regDst v : Nat) :
    (if regDst ≠ 0 then assign regs regDst v else regs) 0 = regs 0 := by
  by_cases h : regDst = 0
  · simp [h]
  · simp only [ne_eq, h, not_false_eq_true, if_true]
    unfold assign
    rw [if_neg (fun e => h e.symm)]

/-- Every instruction other than an `lw` whose destination field is 0 keeps
register 0. -/
theorem reg_zero_kept_unless_lw (instr : Nat) (m m' : Machine)
    (hlw : ¬ (instr >>> 13 = 4 ∧ (instr >>> 7) &&& 7 = 0))
    (hex : execute_instruction instr m = some m') : m'.regs 0 = m.regs 0 := by
  unfold execute_instruction at hex
  simp only [] at hex
  split at hex
  · split at hex
    · cases hex; exact guarded_assign_zero _ _ _
    · split at hex
      · cases hex; exact guarded_assign_zero _ _ _
      · split at hex
        · cases hex; exact guarded_assign_zero _ _ _
        · split at hex
          · cases hex; exact guarded_assign_zero _ _ _
          · split at hex
            · cases hex; exact guarded_assign_zero _ _ _
            · split at hex
              · cases hex; rfl
              · cases hex; rfl
  · split at hex
    · cases hex; exact guarded_assign_zero _ _ _
    · split at hex
      · split at hex
        · cases hex; rfl
        · cases hex; rfl
      · split at hex
        · cases hex; rfl
        · split at hex
          · rename_i h4
            cases hex
            exact lw_regs_other _ _ _ _ 0 (fun e => hlw ⟨h4, e.symm⟩)
          · split at hex
            · cases hex
              show (sw _ _ _ m).regs 0 = _
              rw [sw_regs]
            · split at hex
              · cases hex; rfl
              · split at hex
                · cases hex; exact guarded_assign_zero _ _ _
                · cases hex

/-! ## Claims C11 to C20 -/

/-- C11: for every 7-bit immediate `imm` (0 to 127), `sign_extend_7bit imm` lies
in [-64, 63], is `imm` when `imm < 64` and `imm - 128` when `imm ≥ 64`, and its
non-negative remainder modulo 128 is `imm`. -/
theorem C11_sign_extend_round_trip (imm : Nat) (h : imm < 128) :
    -64 ≤ sign_extend_7bit imm ∧ sign_extend_7bit imm ≤ 63 ∧
    (imm < 64 → sign_extend_7bit imm = (imm : Int)) ∧
    (64 ≤ imm → sign_extend_7bit imm = (imm : Int) - 128) ∧
    sign_extend_7bit imm % 128 = (imm : Int) := by
  rw [sign_extend_7bit_eq imm h]
  by_cases hlt : imm < 64
  · rw [if_pos hlt]
    exact ⟨by omega, by omega, fun _ => rfl, fun h2 => by omega, by omega⟩
  · rw [if_neg hlt]
    exact ⟨by omega, by omega, fun h2 => absurd h2 hlt, fun _ => rfl, by omega⟩

/-- Witness for C11: the immediate 127 extends to -1 and the immediate 64 to -64. -/
theorem C11_sign_extend_round_trip_witness :
    sign_extend_7bit 127 = -1 ∧ sign_extend_7bit 64 = -64 ∧
    sign_extend_7bit 127 % 128 = 127 :=
  have k127 := C11_sign_extend_round_trip 127 (by decide)
  ⟨by decide, by decide, k127.2.2.2.2⟩

/-- C12: a `j` word (opcode 2) whose 13-bit immediate equals `pc` only sets
`running` to false: `pc`, registers, memory, both caches and the log stay as they
were, and the loop of `main` stops there.  A `j` word whose immediate differs from
`pc` only sets `pc` to the immediate and leaves `running` as it was. -/
theorem C12_halt (instr : Nat) (m : Machine) (hop : instr >>> 13 = 2) :
    (instr &&& 0x1FFF = m.pc →
      execute_instruction instr m = some { m with running := false } ∧
      (m.running = true → m.memory (m.pc % MEM_SIZE) = instr →
        ∀ fuel, mainLoop (fuel + 1) m = some { m with running := false })) ∧
    (instr &&& 0x1FFF ≠ m.pc →
      execute_instruction instr m = some { m with pc := instr &&& 0x1FFF }) := by
  have hex1 : instr &&& 0x1FFF = m.pc →
      execute_instruction instr m = some { m with running := false } := by
    intro himm
    unfold execute_instruction
    simp only [hop, himm]
    rfl
  refine ⟨fun himm => ⟨hex1 himm, ?_⟩, ?_⟩
  · intro hrun hfetch fuel
    rw [mainLoop, if_pos hrun, hfetch, hex1 himm]
    cases fuel <;> rfl
  · intro himm
    unfold execute_instruction
    have hle : instr &&& 0x1FFF ≤ 0x1FFF := Nat.and_le_right
    have hj : j (instr &&& 0x1FFF) = instr &&& 0x1FFF := by
      unfold j MEM_SIZE
      omega
    simp only [hop, himm, hj]
    rfl

/-- Witness for C12: the word 16384 (`j 0`) at `pc = 0` halts; the word 16389
(`j 5`) at `pc = 0` jumps to 5. -/
theorem C12_halt_witness :
    execute_instruction 16384 machineLwZero = some { machineLwZero with running := false } ∧
    execute_instruction 16389 machineLwZero = some { machineLwZero with pc := 16389 &&& 0x1FFF } ∧
    (16389 &&& 0x1FFF) = 5 :=
  ⟨((C12_halt 16384 machineLwZero (by decide)).1 (by decide)).1,
   (C12_halt 16389 machineLwZero (by decide)).2 (by decide), by decide⟩

/-- C13 (violated for opcode 0): the word 5 (opcode 0, function field 5) encodes
no instruction, yet `execute_instruction` returns normally and leaves the whole
state, the `pc` and `running` included, as it was: the `if` chain of opcode 0 has
no final `else`, so the "Unknown instruction" exit is not reached. -/
theorem C13_unknown_function_returns_normally :
    ∀ m : Machine, execute_instruction 5 m = some m := by
  intro m
  rfl

/-- C15: with destination `regDst ≠ 0`, `slti` writes 1 into `regs[regDst]` when
the register value (0 to 65535, as a signed 32-bit number) is below the
sign-extended immediate and 0 otherwise, and `slt` writes 1 when
`regs[regSrcA] < regs[regSrcB]` as unsigned numbers and 0 otherwise; both leave
every other register as it was. -/
theorem C15_slti_slt (regDst regSrc imm regSrcA regSrcB : Nat) (regs : Nat → Nat)
    (hd : regDst ≠ 0) (himm : imm < 128) :
    slti regDst regSrc imm regs regDst
      = (if (regs regSrc : Int) < sign_extend_7bit imm then 1 else 0) ∧
    (slti regDst regSrc imm regs regDst = 1 ↔ (imm < 64 ∧ regs regSrc < imm)) ∧
    (∀ r, r ≠ regDst → slti regDst regSrc imm regs r = regs r) ∧
    slt regDst regSrcA regSrcB regs regDst
      = (if regs regSrcA < regs regSrcB then 1 else 0) ∧
    (slt regDst regSrcA regSrcB regs regDst = 1 ↔ regs regSrcA < regs regSrcB) ∧
    (∀ r, r ≠ regDst → slt regDst regSrcA regSrcB regs r = regs r) := by
  have e1 : slti regDst regSrc imm regs regDst
      = (if (regs regSrc : Int) < sign_extend_7bit imm then 1 else 0) := by
    unfold slti
    rw [if_pos hd, assign_same]
  have e2 : slt regDst regSrcA regSrcB regs regDst
      = (if regs regSrcA < regs regSrcB then 1 else 0) := by
    unfold slt
    rw [if_pos hd, assign_same]
  refine ⟨e1, ?_, ?_, e2, ?_, ?_⟩
  · rw [e1, sign_extend_7bit_eq imm himm]
    by_cases hlt : imm < 64
    · simp only [hlt, if_true, true_and]
      by_cases hc : regs regSrc < imm
      · have : (regs regSrc : Int) < (imm : Int) := by omega
        simp [hc, this]
      · have : ¬ (regs regSrc : Int) < (imm : Int) := by omega
        simp [hc, this]
    · have : ¬ (regs regSrc : Int) < (imm : Int) - 128 := by omega
      simp [hlt, this]
  · intro r hr
    unfold slti
    rw [if_pos hd]
    unfold assign
    rw [if_neg hr]
  · rw [e2]
    by_cases hc : regs regSrcA < regs regSrcB
    · simp [hc]
    · simp [hc]
  · intro r hr
    unfold slt
    rw [if_pos hd]
    unfold assign
    rw [if_neg hr]

/-- Witness for C15: with register 2 holding 65535 and register 3 holding 3,
`slti $1, $2, -1` writes 0 (65535 is not below -1) and `slt $1, $3, $2` writes 1. -/
theorem C15_slti_slt_witness :
    slti 1 2 127 (fun r => if r = 2 then 65535 else 3) 1 = 0 ∧
    slt 1 3 2 (fun r => if r = 2 then 65535 else 3) 1 = 1 :=
  have key := C15_slti_slt 1 2 127 3 2 (fun r => if r = 2 then 65535 else 3)
    (by decide) (by decide)
  ⟨key.1, key.2.2.2.1⟩

theorem log2_two_pow (p : Nat) : log2 (2 ^ p) = p := by
  rw [log2_eq, Nat.log2_two_pow]

/-- With `blocksize = 2 ^ p` and `numRows = 2 ^ q` the index is
`(address / blocksize) % numRows` and the tag is `address / (blocksize * numRows)`. -/
theorem Cache.index_tag_arith (c : Cache) (p q : Nat) (hb : c.blocksize = 2 ^ p)
    (hn : c.numRows = 2 ^ q) (address : Nat) :
    c.index address = (address / c.blocksize) % c.numRows ∧
    c.tag address = ((address / (c.blocksize * c.numRows) : Nat) : Int) := by
  unfold Cache.index Cache.tag Cache.offsetBits Cache.indexBits
  rw [hb, hn, log2_two_pow, log2_two_pow, Nat.one_shiftLeft, Nat.and_pow_two_sub_one_eq_mod,
    Nat.shiftRight_eq_div_pow, Nat.shiftRight_eq_div_pow, pow_add]
  exact ⟨rfl, rfl⟩

/-- C18: address decomposition.  With `blocksize = 2 ^ p` and `numRows = 2 ^ q`,
the row index computed by `accessCache` is
`(address >> log2(blocksize)) & (numRows - 1)`, the tag is
`address >> (log2(blocksize) + log2(numRows))`, the row index is below `numRows`,
and `address = tag * blocksize * numRows + index * blocksize + address % blocksize`. -/
theorem C18_address_decomposition (c : Cache) (p q : Nat) (hb : c.blocksize = 2 ^ p)
    (hn : c.numRows = 2 ^ q) (address : Nat) (_ha : address < 8192) :
    log2 c.blocksize = p ∧ log2 c.numRows = q ∧
    c.index address = (address >>> log2 c.blocksize) &&& (c.numRows - 1) ∧
    c.tag address = ((address >>> (log2 c.blocksize + log2 c.numRows) : Nat) : Int) ∧
    c.index address < c.numRows ∧
    (address : Int) = c.tag address * c.blocksize * c.numRows
      + c.index address * c.blocksize + ((address % c.blocksize : Nat) : Int) := by
  have hpos : 0 < c.numRows := by rw [hn]; positivity
  have har := c.index_tag_arith p q hb hn address
  refine ⟨by rw [hb, log2_two_pow], by rw [hn, log2_two_pow], ?_, rfl,
    c.index_lt hpos address, ?_⟩
  · show (address >>> log2 c.blocksize) &&& ((1 <<< log2 c.numRows) - 1) = _
    rw [Nat.one_shiftLeft]
    conv => lhs; rw [hn, log2_two_pow]
    rw [hn]
  · rw [har.1, har.2]
    have h1 := Nat.div_add_mod address c.blocksize
    have h2 := Nat.div_add_mod (address / c.blocksize) c.numRows
    have h3 : address / c.blocksize / c.numRows = address / (c.blocksize * c.numRows) :=
      Nat.div_div_eq_div_mul _ _ _
    rw [h3] at h2
    have key : address = address / (c.blocksize * c.numRows) * c.blocksize * c.numRows
        + address / c.blocksize % c.numRows * c.blocksize + address % c.blocksize := by
      calc address = c.blocksize * (address / c.blocksize) + address % c.blocksize := h1.symm
        _ = c.blocksize * (c.numRows * (address / (c.blocksize * c.numRows))
              + address / c.blocksize % c.numRows) + address % c.blocksize := by rw [h2]
        _ = _ := by ring
    exact_mod_cast key

/-- Witness for C18: blocksize 4, 8 rows, address 1234 = 38 * 32 + 4 * 4 + 2. -/
theorem C18_address_decomposition_witness :
    (Cache.new 64 2 4).index 1234 = 4 ∧ (Cache.new 64 2 4).tag 1234 = 38 ∧
    (1234 : Int) = (Cache.new 64 2 4).tag 1234 * (Cache.new 64 2 4).blocksize
        * (Cache.new 64 2 4).numRows
      + (Cache.new 64 2 4).index 1234 * (Cache.new 64 2 4).blocksize
      + ((1234 % (Cache.new 64 2 4).blocksize : Nat) : Int) :=
  have key := C18_address_decomposition (Cache.new 64 2 4) 2 3 (by decide) (by decide) 1234
    (by decide)
  ⟨by decide, by decide, key.2.2.2.2.2⟩

/-- C16: the miss step of `accessCache`.  In a well-formed cache whose counter
is at least 0 and below 2147483647 (so that the source's `++lruCounter` on an
`int` does not overflow), when no slot of the address's row is valid with the address's tag, the
access reports a miss and the address's row; the victim `findLRUBlockIndex` is a
slot of the row with the smallest recency, the lowest such slot; afterwards the
victim is valid, holds the address's tag, has recency `lruCounter + 1`, a value
in the range of `int`, and, for a write, the proposed data (for a read its data
stays as it was); every other slot of every row is unchanged. -/
theorem C16_miss_step (c : Cache) (h : c.WF) (hc0 : 0 ≤ c.lruCounter)
    (hc : c.lruCounter < 2147483647) (a : Nat) (d : Int) (w : Bool)
    (hmiss : ∀ k, k < c.associativity → ¬ c.holds (c.index a) (c.tag a) k) :
    (c.accessCache a d w).hit = false ∧
    (c.accessCache a d w).index = c.index a ∧
    c.findLRUBlockIndex (c.index a) < c.associativity ∧
    (∀ k, k < c.associativity →
      (c.block (c.index a) (c.findLRUBlockIndex (c.index a))).lastUsed
        ≤ (c.block (c.index a) k).lastUsed) ∧
    (∀ k, k < c.findLRUBlockIndex (c.index a) →
      (c.block (c.index a) (c.findLRUBlockIndex (c.index a))).lastUsed
        < (c.block (c.index a) k).lastUsed) ∧
    ((c.accessCache a d w).cache.block (c.index a) (c.findLRUBlockIndex (c.index a))).valid
      = true ∧
    ((c.accessCache a d w).cache.block (c.index a) (c.findLRUBlockIndex (c.index a))).tag
      = c.tag a ∧
    ((c.accessCache a d w).cache.block (c.index a) (c.findLRUBlockIndex (c.index a))).lastUsed
      = c.lruCounter + 1 ∧
    ((c.accessCache a d w).cache.block (c.index a) (c.findLRUBlockIndex (c.index a))).data
      = (if w then d else (c.block (c.index a) (c.findLRUBlockIndex (c.index a))).data) ∧
    1 ≤ ((c.accessCache a d w).cache.block (c.index a)
      (c.findLRUBlockIndex (c.index a))).lastUsed ∧
    ((c.accessCache a d w).cache.block (c.index a) (c.findLRUBlockIndex (c.index a))).lastUsed
      ≤ 2147483647 ∧
    (∀ r k, ¬ (r = c.index a ∧ k = c.findLRUBlockIndex (c.index a)) →
      (c.accessCache a d w).cache.block r k = c.block r k) := by
  have hnone : c.searchLoop (c.index a) (c.tag a) c.associativity 0 = none := by
    rw [Cache.searchLoop_eq_none]
    intro k _ hk
    exact hmiss k (by omega)
  have hslot : c.slotOf a = c.findLRUBlockIndex (c.index a) := by
    unfold Cache.slotOf; rw [hnone]
  have hspec := c.findLRUBlockIndex_spec (c.index a) h.assoc_pos
  have ht := c.accessCache_touched h a d w
  have hs := c.accessCache_search_after h a d w
  rw [hslot] at ht hs
  refine ⟨?_, c.accessCache_index a d w, hspec.1, hspec.2.1, hspec.2.2, ht.1, ht.2.1,
    ht.2.2, hs.2, by rw [ht.2.2]; omega, by rw [ht.2.2]; omega, ?_⟩
  · rw [Cache.accessCache_hit_eq, hnone]; rfl
  · intro r k hne
    exact c.accessCache_untouched h a d w r k (by rw [hslot]; exact hne)

/-- Witness for C16: a read of address 5 in the empty cache of size 8,
associativity 2, blocksize 1 (4 rows) misses in row 1 and fills slot 0. -/
theorem C16_miss_step_witness :
    (Cache.new 8 2 1).WF ∧ 0 ≤ (Cache.new 8 2 1).lruCounter ∧
    (Cache.new 8 2 1).lruCounter < 2147483647 ∧
    ((Cache.new 8 2 1).accessCache 5 0 false).hit = false ∧
    ((Cache.new 8 2 1).accessCache 5 0 false).index = (Cache.new 8 2 1).index 5 ∧
    (Cache.new 8 2 1).index 5 = 1 ∧
    (Cache.new 8 2 1).findLRUBlockIndex ((Cache.new 8 2 1).index 5) = 0 ∧
    (((Cache.new 8 2 1).accessCache 5 0 false).cache.block ((Cache.new 8 2 1).index 5)
      ((Cache.new 8 2 1).findLRUBlockIndex ((Cache.new 8 2 1).index 5))).tag
      = (Cache.new 8 2 1).tag 5 :=
  have hw : (Cache.new 8 2 1).WF := Cache.new_WF 8 2 1 (by decide) (by decide) (by decide)
  have key := C16_miss_step (Cache.new 8 2 1) hw (by decide) (by decide) 5 0 false (by decide)
  ⟨hw, by decide, by decide, key.1, key.2.1, by decide, by decide, key.2.2.2.2.2.2.1⟩

/-- An access changes neither the valid bit nor the tag of any slot when it hits. -/
theorem Cache.accessCache_hit_keeps (c : Cache) (h : c.WF) (a : Nat) (d : Int) (w : Bool)
    (hhit : (c.accessCache a d w).hit = true) (r k : Nat) :
    ((c.accessCache a d w).cache.block r k).valid = (c.block r k).valid ∧
    ((c.accessCache a d w).cache.block r k).tag = (c.block r k).tag := by
  rw [c.accessCache_block h a d w]
  cases hs : c.searchLoop (c.index a) (c.tag a) c.associativity 0 with
  | some i =>
    have hsl : c.slotOf a = i := by unfold Cache.slotOf; rw [hs]
    by_cases hc : r = c.index a ∧ k = c.slotOf a
    · rw [if_pos hc, hc.1, hc.2, hsl]
      have hv := c.hitBlock_valid (c.index a) i d w
      exact ⟨hv.1, hv.2.1⟩
    · rw [if_neg hc]
      exact ⟨rfl, rfl⟩
  | none =>
    rw [Cache.accessCache_hit_eq, hs] at hhit
    cases hhit

/-- C17: the hit step of `accessCache` in a well-formed cache whose counter is
at least 0 and below 2147483647 (so that the source's `++lruCounter` on an `int` does not
overflow).  The access reports a hit exactly when some slot of the address's row
is valid with the address's tag.  On a hit, with `i` the first such slot: no
slot's valid bit or tag changes; a read returns the data stored in slot `i` and
leaves it, a write puts the proposed data there; slot `i` gets recency
`lruCounter + 1`; every other slot is unchanged.  Every such access, hit or miss,
read or write, increases `lruCounter` by exactly one, to a value in the range of
`int`. -/
theorem C17_hit_step (c : Cache) (h : c.WF) (hc0 : 0 ≤ c.lruCounter)
    (hc : c.lruCounter < 2147483647) (a : Nat) (d : Int) (w : Bool) :
    ((c.accessCache a d w).hit = true ↔
      ∃ k, k < c.associativity ∧ c.holds (c.index a) (c.tag a) k) ∧
    (c.accessCache a d w).cache.lruCounter = c.lruCounter + 1 ∧
    1 ≤ (c.accessCache a d w).cache.lruCounter ∧
    (c.accessCache a d w).cache.lruCounter ≤ 2147483647 ∧
    ((c.accessCache a d w).hit = true →
      ∃ i, i < c.associativity ∧ c.holds (c.index a) (c.tag a) i ∧
        (∀ k, k < i → ¬ c.holds (c.index a) (c.tag a) k) ∧
        (∀ r k, ((c.accessCache a d w).cache.block r k).valid = (c.block r k).valid ∧
          ((c.accessCache a d w).cache.block r k).tag = (c.block r k).tag) ∧
        (c.accessCache a d w).data = (if w then d else (c.block (c.index a) i).data) ∧
        ((c.accessCache a d w).cache.block (c.index a) i).data
          = (if w then d else (c.block (c.index a) i).data) ∧
        ((c.accessCache a d w).cache.block (c.index a) i).lastUsed = c.lruCounter + 1 ∧
        (∀ r k, ¬ (r = c.index a ∧ k = i) →
          (c.accessCache a d w).cache.block r k = c.block r k)) := by
  refine ⟨?_, c.accessCache_lruCounter a d w,
    by rw [c.accessCache_lruCounter a d w]; omega,
    by rw [c.accessCache_lruCounter a d w]; omega, ?_⟩
  · rw [Cache.accessCache_hit_eq]
    cases hs : c.searchLoop (c.index a) (c.tag a) c.associativity 0 with
    | some i =>
      obtain ⟨_, h2, h3, _⟩ := (c.searchLoop_eq_some _ _ _ _ _).1 hs
      simp only [Option.isSome_some, true_iff]
      exact ⟨i, by omega, h3⟩
    | none =>
      have hn := (c.searchLoop_eq_none _ _ _ _).1 hs
      simp only [Option.isSome_none, Bool.false_eq_true, false_iff, not_exists, not_and]
      intro k hk
      exact hn k (Nat.zero_le _) (by omega)
  · intro hhit
    cases hs : c.searchLoop (c.index a) (c.tag a) c.associativity 0 with
    | none =>
      rw [Cache.accessCache_hit_eq, hs] at hhit
      cases hhit
    | some i =>
      have hsl : c.slotOf a = i := by unfold Cache.slotOf; rw [hs]
      obtain ⟨_, h2, h3, h4⟩ := (c.searchLoop_eq_some _ _ _ _ _).1 hs
      have ht := c.accessCache_touched h a d w
      have hsa := c.accessCache_search_after h a d w
      rw [hsl] at ht hsa
      refine ⟨i, by omega, h3, fun k hk => h4 k (Nat.zero_le _) hk,
        c.accessCache_hit_keeps h a d w hhit, ?_, hsa.2, ht.2.2, ?_⟩
      · rw [c.accessCache_of_some a d w i hs]
      · intro r k hne
        exact c.accessCache_untouched h a d w r k (by rw [hsl]; exact hne)

/-- Witness for C17: in the cache of size 8, associativity 2, blocksize 1, after
a write of 77 to address 5 a read of address 5 hits and returns 77. -/
theorem C17_hit_step_witness :
    ((Cache.new 8 2 1).accessCache 5 77 true).cache.WF ∧
    0 ≤ ((Cache.new 8 2 1).accessCache 5 77 true).cache.lruCounter ∧
    ((Cache.new 8 2 1).accessCache 5 77 true).cache.lruCounter < 2147483647 ∧
    (((Cache.new 8 2 1).accessCache 5 77 true).cache.accessCache 5 0 false).hit = true ∧
    (((Cache.new 8 2 1).accessCache 5 77 true).cache.accessCache 5 0 false).data = 77 ∧
    (((Cache.new 8 2 1).accessCache 5 77 true).cache.accessCache 5 0 false).cache.lruCounter
      = ((Cache.new 8 2 1).accessCache 5 77 true).cache.lruCounter + 1 :=
  have hw : ((Cache.new 8 2 1).accessCache 5 77 true).cache.WF :=
    Cache.accessCache_WF _ (Cache.new_WF 8 2 1 (by decide) (by decide) (by decide)) 5 77 true
  have key := C17_hit_step ((Cache.new 8 2 1).accessCache 5 77 true).cache hw
    (by decide) (by decide) 5 0 false
  ⟨hw, by decide, by decide, by decide, by decide, key.2.1⟩

theorem Cache.new_RecencyInv (size associativity blocksize : Nat) (ha : 0 < associativity)
    (hb : 0 < blocksize) (hs : associativity * blocksize ≤ size) :
    (Cache.new size associativity blocksize).RecencyInv := by
  refine ⟨Cache.new_Inv _ _ _ ha hb hs, le_refl _, ?_, ?_, ?_⟩
  · intro r k _
    rw [Cache.new_block]; rfl
  · intro r k hv
    rw [Cache.new_block] at hv
    exact absurd hv (by decide)
  · intro r1 k1 r2 k2 hv
    rw [Cache.new_block] at hv
    exact absurd hv (by decide)

theorem Cache.accessCache_RecencyInv (c : Cache) (h : c.RecencyInv) (a : Nat) (d : Int)
    (w : Bool) : (c.accessCache a d w).cache.RecencyInv := by
  have ht := c.accessCache_touched h.inv.wf a d w
  have hun := c.accessCache_untouched h.inv.wf a d w
  have hcn := h.counter_nonneg
  refine ⟨c.accessCache_Inv h.inv a d w, ?_, ?_, ?_, ?_⟩
  · rw [Cache.accessCache_lruCounter]; omega
  · intro r k hv
    by_cases hc : r = c.index a ∧ k = c.slotOf a
    · rw [hc.1, hc.2, ht.1] at hv
      cases hv
    · rw [hun r k hc] at hv ⊢
      exact h.invalid_zero r k hv
  · intro r k hv
    by_cases hc : r = c.index a ∧ k = c.slotOf a
    · rw [hc.1, hc.2, ht.2.2]; omega
    · rw [hun r k hc] at hv ⊢
      exact h.valid_pos r k hv
  · intro r1 k1 r2 k2 hv1 hv2 he
    by_cases hc1 : r1 = c.index a ∧ k1 = c.slotOf a
    · by_cases hc2 : r2 = c.index a ∧ k2 = c.slotOf a
      · exact ⟨hc1.1.trans hc2.1.symm, hc1.2.trans hc2.2.symm⟩
      · rw [hc1.1, hc1.2, ht.2.2, hun r2 k2 hc2] at he
        have := h.inv.used_le r2 k2
        omega
    · by_cases hc2 : r2 = c.index a ∧ k2 = c.slotOf a
      · rw [hc2.1, hc2.2, ht.2.2, hun r1 k1 hc1] at he
        have := h.inv.used_le r1 k1
        omega
      · rw [hun r1 k1 hc1] at hv1 he
        rw [hun r2 k2 hc2] at hv2 he
        exact h.used_distinct r1 k1 r2 k2 hv1 hv2 he

theorem Cache.Reachable.recencyInv {c : Cache} (h : c.Reachable) : c.RecencyInv := by
  induction h with
  | new size associativity blocksize ha hb hs => exact Cache.new_RecencyInv _ _ _ ha hb hs
  | access c address data isWrite _ ih => exact c.accessCache_RecencyInv ih address data isWrite

/-- C19: in every cache state reachable from a constructed cache by
`accessCache` / `writeThrough` calls whose counter is at most 2147483647 (the
counter counts the calls, so the source's `int` counter has not overflowed on the
way): no row has two valid slots with the same tag; every invalid slot has
recency 0; every valid slot has recency between 1 and `lruCounter`, in the range
of `int`; no two valid slots of the cache have the same recency; and whenever the
row of an address has an invalid slot, the victim chosen by `findLRUBlockIndex`
for that row is an invalid slot, so a miss evicts no valid block. -/
theorem C19_reachable_invariant (c : Cache) (h : c.Reachable)
    (hc : c.lruCounter ≤ 2147483647) :
    (∀ r k1 k2, k1 < c.associativity → k2 < c.associativity →
      (c.block r k1).valid = true → (c.block r k2).valid = true →
      (c.block r k1).tag = (c.block r k2).tag → k1 = k2) ∧
    (∀ r k, (c.block r k).valid = false → (c.block r k).lastUsed = 0) ∧
    (∀ r k, (c.block r k).valid = true →
      1 ≤ (c.block r k).lastUsed ∧ (c.block r k).lastUsed ≤ c.lruCounter ∧
      (c.block r k).lastUsed ≤ 2147483647) ∧
    (∀ r1 k1 r2 k2, (c.block r1 k1).valid = true → (c.block r2 k2).valid = true →
      (c.block r1 k1).lastUsed = (c.block r2 k2).lastUsed → r1 = r2 ∧ k1 = k2) ∧
    (∀ a, (∃ k, k < c.associativity ∧ (c.block (c.index a) k).valid = false) →
      c.findLRUBlockIndex (c.index a) < c.associativity ∧
      (c.block (c.index a) (c.findLRUBlockIndex (c.index a))).valid = false) := by
  have hR := h.recencyInv
  refine ⟨?_, hR.invalid_zero,
    fun r k hv => ⟨hR.valid_pos r k hv, hR.inv.used_le r k,
      le_trans (hR.inv.used_le r k) hc⟩,
    hR.used_distinct, ?_⟩
  · intro r k1 k2 hk1 hk2 hv1 hv2 ht
    exact hR.inv.tag_unique r (c.block r k2).tag k1 k2 hk1 hk2 ⟨hv1, ht⟩ ⟨hv2, rfl⟩
  · rintro a ⟨k, hk, hv⟩
    have hspec := c.findLRUBlockIndex_spec (c.index a) hR.inv.wf.assoc_pos
    refine ⟨hspec.1, ?_⟩
    by_contra hne
    have hvalid : (c.block (c.index a) (c.findLRUBlockIndex (c.index a))).valid = true := by
      cases hb : (c.block (c.index a) (c.findLRUBlockIndex (c.index a))).valid with
      | true => rfl
      | false => exact absurd hb hne
    have h1 := hR.valid_pos _ _ hvalid
    have h2 := hspec.2.1 k hk
    rw [hR.invalid_zero _ _ hv] at h2
    omega

/-- Witness for C19: the cache of size 4, associativity 2, blocksize 1 after
accesses to the addresses 0 and 2 (both in row 0). -/
theorem C19_reachable_invariant_witness :
    (((Cache.new 4 2 1).accessCache 0 0 false).cache.accessCache 2 0 false).cache.Reachable ∧
    (((Cache.new 4 2 1).accessCache 0 0 false).cache.accessCache 2 0 false).cache.lruCounter
      ≤ 2147483647 ∧
    (∀ r k, ((((Cache.new 4 2 1).accessCache 0 0 false).cache.accessCache 2 0 false).cache.block
        r k).valid = false →
      ((((Cache.new 4 2 1).accessCache 0 0 false).cache.accessCache 2 0 false).cache.block
        r k).lastUsed = 0) ∧
    ((((Cache.new 4 2 1).accessCache 0 0 false).cache.accessCache 2 0 false).cache.block
      0 1).lastUsed = 2 :=
  have hr : (((Cache.new 4 2 1).accessCache 0 0 false).cache.accessCache 2 0 false).cache.Reachable :=
    Cache.Reachable.access _ 2 0 false
      (Cache.Reachable.access _ 0 0 false
        (Cache.Reachable.new 4 2 1 (by decide) (by decide) (by decide)))
  ⟨hr, by decide, (C19_reachable_invariant _ hr (by decide)).2.1, by decide⟩

/-! ## Cache transparency at blocksize 1 -/

/-- With blocksize 1 and a power-of-two number of rows, row and tag determine the
address. -/
theorem Cache.address_unique (c : Cache) (hb : c.blocksize = 1) (hr : ∃ q, c.numRows = 2 ^ q)
    (a a' : Nat) (hi : c.index a = c.index a') (ht : c.tag a = c.tag a') : a = a' := by
  obtain ⟨q, hq⟩ := hr
  have h1 := c.index_tag_arith 0 q (by rw [hb]; rfl) hq a
  have h2 := c.index_tag_arith 0 q (by rw [hb]; rfl) hq a'
  rw [h1.1, h2.1, hb, Nat.div_one, Nat.div_one] at hi
  rw [h1.2, h2.2, hb, Nat.one_mul] at ht
  have ht' : a / c.numRows = a' / c.numRows := by exact_mod_cast ht
  have e1 := Nat.div_add_mod a c.numRows
  have e2 := Nat.div_add_mod a' c.numRows
  rw [ht', hi] at e1
  omega

theorem Cache.accessCache_Geo (c : Cache) (h : c.Geo) (A : Nat) (hA : A < MEM_SIZE) (d : Int)
    (w : Bool) : (c.accessCache A d w).cache.Geo := by
  have hg := c.accessCache_geometry A d w
  have ht := c.accessCache_touched h.inv.wf A d w
  refine ⟨c.accessCache_Inv h.inv A d w, hg.2.1.trans h.bs, ?_, ?_⟩
  · obtain ⟨q, hq⟩ := h.rows
    exact ⟨q, hg.1.trans hq⟩
  · intro r k hv
    by_cases hc : r = c.index A ∧ k = c.slotOf A
    · refine ⟨A, hA, ?_, ?_⟩
      · rw [Cache.accessCache_index_eq, hc.1]
      · rw [Cache.accessCache_tag_eq, hc.1, hc.2, ht.2.1]
    · rw [c.accessCache_untouched h.inv.wf A d w r k hc] at hv ⊢
      obtain ⟨a, ha, h1, h2⟩ := h.stands r k hv
      exact ⟨a, ha, by rw [Cache.accessCache_index_eq]; exact h1,
        by rw [Cache.accessCache_tag_eq]; exact h2⟩

/-- Any access to `A` leaves the slots of every other address as they were. -/
theorem Cache.accessCache_MirrorsExcept (c : Cache) (h : c.Geo) (mem : Nat → Nat) (A : Nat)
    (hm : c.MirrorsExcept mem A) (d : Int) (w : Bool) :
    (c.accessCache A d w).cache.MirrorsExcept mem A := by
  have ht := c.accessCache_touched h.inv.wf A d w
  intro a k hne hh
  rw [Cache.accessCache_index_eq, Cache.accessCache_tag_eq] at hh
  rw [Cache.accessCache_index_eq]
  unfold Cache.holds at hh
  by_cases hc : c.index a = c.index A ∧ k = c.slotOf A
  · rw [hc.1, hc.2, ht.2.1] at hh
    exact absurd (c.address_unique h.bs h.rows a A hc.1 hh.2.symm) hne
  · rw [c.accessCache_untouched h.inv.wf A d w _ k hc] at hh ⊢
    exact hm a k hne hh

theorem Cache.Mirrors.except {c : Cache} {mem : Nat → Nat} (hm : c.Mirrors mem) (A : Nat) :
    c.MirrorsExcept mem A :=
  fun a k _ hh => hm a k hh

/-- A write of `v` to `A` makes the cache mirror any memory that holds `v` at `A`
and agrees with `mem` elsewhere. -/
theorem Cache.write_Mirrors (c : Cache) (h : c.Geo) (mem mem' : Nat → Nat) (A : Nat) (v : Int)
    (hm : c.MirrorsExcept mem A) (hA : (mem' A : Int) = v) (hother : ∀ a, a ≠ A → mem' a = mem a) :
    (c.accessCache A v true).cache.Mirrors mem' := by
  have hex := c.accessCache_MirrorsExcept h mem A hm v true
  have hsa := c.accessCache_search_after h.inv.wf A v true
  intro a k hh
  by_cases ha : a = A
  · rw [ha] at hh ⊢
    rw [Cache.accessCache_index_eq, Cache.accessCache_tag_eq] at hh
    rw [Cache.accessCache_index_eq]
    by_cases hk : k = c.slotOf A
    · rw [hk, hsa.2, if_pos rfl, hA]
    · unfold Cache.holds at hh
      rw [c.accessCache_untouched h.inv.wf A v true _ k (fun hc => hk hc.2)] at hh
      have hklt : k < c.associativity := c.holds_lt h.inv.wf _ _ k hh
      exact absurd hh (c.not_holds_other h.inv A k hklt hk)
  · rw [hother a ha]
    exact hex a k ha hh

/-- A read that hits returns the memory word and keeps the cache a mirror. -/
theorem Cache.read_hit_Mirrors (c : Cache) (h : c.Geo) (mem : Nat → Nat) (A : Nat)
    (hm : c.Mirrors mem) (d : Int) (hhit : (c.accessCache A d false).hit = true) :
    (c.accessCache A d false).data = (mem A : Int) ∧
    (c.accessCache A d false).cache.Mirrors mem := by
  have hsa := c.accessCache_search_after h.inv.wf A d false
  have hkeep := c.accessCache_hit_keeps h.inv.wf A d false hhit
  have hheld : c.holds (c.index A) (c.tag A) (c.slotOf A) := by
    cases hs : c.searchLoop (c.index A) (c.tag A) c.associativity 0 with
    | some i =>
      have hsl : c.slotOf A = i := by unfold Cache.slotOf; rw [hs]
      rw [hsl]
      exact ((c.searchLoop_eq_some _ _ _ _ _).1 hs).2.2.1
    | none =>
      rw [Cache.accessCache_hit_eq, hs] at hhit
      cases hhit
  constructor
  · rw [c.accessCache_read_data A d hhit]
    exact hm A _ hheld
  · intro a k hh
    rw [Cache.accessCache_index_eq, Cache.accessCache_tag_eq] at hh
    rw [Cache.accessCache_index_eq]
    unfold Cache.holds at hh
    rw [(hkeep _ k).1, (hkeep _ k).2] at hh
    by_cases hc : c.index a = c.index A ∧ k = c.slotOf A
    · rw [hc.1, hc.2, hsa.2, if_neg (by decide)]
      rw [hc.1, hc.2] at hh
      have := hm a (c.slotOf A)
      rw [hc.1] at this
      exact this hh
    · rw [c.accessCache_untouched h.inv.wf A d false _ k hc]
      exact hm a k hh

/-- A read of `A` followed by a write of the memory word of `A` (the fill done by
`lw` on a miss) keeps the cache a mirror. -/
theorem Cache.fill_Mirrors (c : Cache) (h : c.Geo) (mem : Nat → Nat) (A : Nat)
    (hA : A < MEM_SIZE) (hm : c.Mirrors mem) (d v : Int) (hv : (mem A : Int) = v) :
    ((c.accessCache A d false).cache.accessCache A v true).cache.Geo ∧
    ((c.accessCache A d false).cache.accessCache A v true).cache.Mirrors mem := by
  have hg1 := c.accessCache_Geo h A hA d false
  have hm1 := c.accessCache_MirrorsExcept h mem A (hm.except A) d false
  exact ⟨Cache.accessCache_Geo _ hg1 A hA v true,
    Cache.write_Mirrors _ hg1 mem mem A v hm1 hv (fun _ _ => rfl)⟩

theorem Cache.new_Geo (size associativity q : Nat) (ha : 0 < associativity)
    (hq : (Cache.new size associativity 1).numRows = 2 ^ q) :
    (Cache.new size associativity 1).Geo ∧ ∀ mem, (Cache.new size associativity 1).Mirrors mem := by
  have hpos : 0 < size / (associativity * 1) := by
    have : (Cache.new size associativity 1).numRows = size / (associativity * 1) := rfl
    rw [← this, hq]; positivity
  have hle : associativity * 1 ≤ size := by
    by_contra hlt
    have : size / (associativity * 1) = 0 := Nat.div_eq_of_lt (by omega)
    omega
  refine ⟨⟨Cache.new_Inv _ _ _ ha (by decide) hle, rfl, ⟨q, hq⟩, ?_⟩, ?_⟩
  · intro r k hv
    rw [Cache.new_block] at hv
    exact absurd hv (by decide)
  · intro mem a k hh
    unfold Cache.holds at hh
    rw [Cache.new_block] at hh
    exact absurd hh.1 (by decide)

theorem effectiveAddress_lt (regs : Nat → Nat) (regAddr imm : Nat) :
    effectiveAddress regs regAddr imm < MEM_SIZE :=
  Nat.mod_lt _ (by decide)

theorem assign_lt (regs : Nat → Nat) (i v : Nat) (h : ∀ r, regs r < 65536) (hv : v < 65536) :
    ∀ r, assign regs i v r < 65536 := by
  intro r
  unfold assign
  split
  · exact hv
  · exact h r

/-- The path of `lw` that misses L1 with no L2. -/
theorem lw_of_miss_none (regDst regAddr imm : Nat) (m : Machine)
    (h : (m.L1Cache.accessCache (effectiveAddress m.regs regAddr imm) 0 false).hit = false)
    (hl2 : m.L2CachePtr = none) :
    lw regDst regAddr imm m =
      { m with
        regs := assign m.regs regDst (m.memory (effectiveAddress m.regs regAddr imm))
        L1Cache := ((m.L1Cache.accessCache (effectiveAddress m.regs regAddr imm) 0 false).cache.accessCache
          (effectiveAddress m.regs regAddr imm)
          (m.memory (effectiveAddress m.regs regAddr imm) : Nat) true).cache
        log := m.log ++ [⟨.L1, .MISS, m.pc, effectiveAddress m.regs regAddr imm,
          m.L1Cache.index (effectiveAddress m.regs regAddr imm)⟩] } := by
  unfold lw
  simp only [h, hl2, Bool.false_eq_true, if_false, Cache.writeThrough, assign_same,
    Cache.accessCache_index, Cache.accessCache_index_eq]

/-- The path of `lw` that misses L1 and hits L2. -/
theorem lw_of_miss_l2hit (regDst regAddr imm : Nat) (m : Machine) (l2 : Cache)
    (h : (m.L1Cache.accessCache (effectiveAddress m.regs regAddr imm) 0 false).hit = false)
    (hl2 : m.L2CachePtr = some l2)
    (h2 : (l2.accessCache (effectiveAddress m.regs regAddr imm)
      (m.L1Cache.accessCache (effectiveAddress m.regs regAddr imm) 0 false).data false).hit = true) :
    lw regDst regAddr imm m =
      { m with
        regs := assign m.regs regDst (toU16 (l2.accessCache (effectiveAddress m.regs regAddr imm)
          (m.L1Cache.accessCache (effectiveAddress m.regs regAddr imm) 0 false).data false).data)
        L1Cache := ((m.L1Cache.accessCache (effectiveAddress m.regs regAddr imm) 0 false).cache.accessCache
          (effectiveAddress m.regs regAddr imm)
          (toU16 (l2.accessCache (effectiveAddress m.regs regAddr imm)
            (m.L1Cache.accessCache (effectiveAddress m.regs regAddr imm) 0 false).data false).data : Nat)
          true).cache
        L2CachePtr := some (l2.accessCache (effectiveAddress m.regs regAddr imm)
          (m.L1Cache.accessCache (effectiveAddress m.regs regAddr imm) 0 false).data false).cache
        log := m.log ++ [⟨.L2, .HIT, m.pc, effectiveAddress m.regs regAddr imm,
            l2.index (effectiveAddress m.regs regAddr imm)⟩,
          ⟨.L1, .MISS, m.pc, effectiveAddress m.regs regAddr imm,
            m.L1Cache.index (effectiveAddress m.regs regAddr imm)⟩] } := by
  unfold lw
  simp only [h, hl2, h2, Bool.false_eq_true, if_false, if_true, Cache.writeThrough,
    assign_same, Cache.accessCache_index, Cache.accessCache_index_eq]

/-- The path of `lw` that misses L1 and L2. -/
theorem lw_of_miss_l2miss (regDst regAddr imm : Nat) (m : Machine) (l2 : Cache)
    (h : (m.L1Cache.accessCache (effectiveAddress m.regs regAddr imm) 0 false).hit = false)
    (hl2 : m.L2CachePtr = some l2)
    (h2 : (l2.accessCache (effectiveAddress m.regs regAddr imm)
      (m.L1Cache.accessCache (effectiveAddress m.regs regAddr imm) 0 false).data false).hit = false) :
    lw regDst regAddr imm m =
      { m with
        regs := assign m.regs regDst (m.memory (effectiveAddress m.regs regAddr imm))
        L1Cache := ((m.L1Cache.accessCache (effectiveAddress m.regs regAddr imm) 0 false).cache.accessCache
          (effectiveAddress m.regs regAddr imm)
          (m.memory (effectiveAddress m.regs regAddr imm) : Nat) true).cache
        L2CachePtr := some ((l2.accessCache (effectiveAddress m.regs regAddr imm)
          (m.L1Cache.accessCache (effectiveAddress m.regs regAddr imm) 0 false).data false).cache.accessCache
          (effectiveAddress m.regs regAddr imm)
          (m.memory (effectiveAddress m.regs regAddr imm) : Nat) true).cache
        log := m.log ++ [⟨.L2, .MISS, m.pc, effectiveAddress m.regs regAddr imm,
            l2.index (effectiveAddress m.regs regAddr imm)⟩,
          ⟨.L2, .SW, m.pc, effectiveAddress m.regs regAddr imm,
            l2.index (effectiveAddress m.regs regAddr imm)⟩,
          ⟨.L1, .MISS, m.pc, effectiveAddress m.regs regAddr imm,
            m.L1Cache.index (effectiveAddress m.regs regAddr imm)⟩] } := by
  unfold lw
  simp only [h, hl2, h2, Bool.false_eq_true, if_false, Cache.writeThrough,
    assign_same, Cache.accessCache_index, Cache.accessCache_index_eq]

theorem bool_eq_false_of_not_true {b : Bool} (h : ¬ b = true) : b = false := by
  cases b
  · rfl
  · exact absurd rfl h

/-- `lw` keeps a coherent machine coherent and loads the memory word. -/
theorem lw_coherent (regDst regAddr imm : Nat) (m : Machine) (hC : m.Coherent) :
    (lw regDst regAddr imm m).Coherent ∧
    (lw regDst regAddr imm m).regs
      = assign m.regs regDst (m.memory (effectiveAddress m.regs regAddr imm)) ∧
    (lw regDst regAddr imm m).memory = m.memory ∧
    (lw regDst regAddr imm m).pc = m.pc ∧
    (lw regDst regAddr imm m).running = m.running := by
  have hA := effectiveAddress_lt m.regs regAddr imm
  have hmem := hC.mem_lt (effectiveAddress m.regs regAddr imm)
  have hregs := assign_lt m.regs regDst _ hC.regs_lt hmem
  have fill1 := Cache.fill_Mirrors _ hC.l1_geo m.memory _ hA hC.l1_mirrors 0
    (m.memory (effectiveAddress m.regs regAddr imm) : Nat) rfl
  by_cases h1 : (m.L1Cache.accessCache (effectiveAddress m.regs regAddr imm) 0 false).hit = true
  · rw [lw_of_hit _ _ _ _ h1]
    have rh := Cache.read_hit_Mirrors _ hC.l1_geo m.memory _ hC.l1_mirrors 0 h1
    have hval : toU16 (m.L1Cache.accessCache (effectiveAddress m.regs regAddr imm) 0 false).data
        = m.memory (effectiveAddress m.regs regAddr imm) := by
      rw [rh.1]; exact toU16_natCast _ hmem
    rw [hval]
    exact ⟨⟨Cache.accessCache_Geo _ hC.l1_geo _ hA 0 false, rh.2, hC.l2, hC.mem_lt, hregs⟩,
      rfl, rfl, rfl, rfl⟩
  · have h1f := bool_eq_false_of_not_true h1
    cases hl2 : m.L2CachePtr with
    | none =>
      rw [lw_of_miss_none _ _ _ _ h1f hl2]
      refine ⟨⟨fill1.1, fill1.2, ?_, hC.mem_lt, hregs⟩, rfl, rfl, rfl, rfl⟩
      intro l2 hl2'
      exact absurd (hl2.symm.trans hl2') (by simp)
    | some l2 =>
      have hl2C := hC.l2 l2 hl2
      by_cases h2 : (l2.accessCache (effectiveAddress m.regs regAddr imm)
          (m.L1Cache.accessCache (effectiveAddress m.regs regAddr imm) 0 false).data false).hit = true
      · rw [lw_of_miss_l2hit _ _ _ _ l2 h1f hl2 h2]
        have rh := Cache.read_hit_Mirrors _ hl2C.1 m.memory _ hl2C.2 _ h2
        have hval : toU16 (l2.accessCache (effectiveAddress m.regs regAddr imm)
            (m.L1Cache.accessCache (effectiveAddress m.regs regAddr imm) 0 false).data false).data
            = m.memory (effectiveAddress m.regs regAddr imm) := by
          rw [rh.1]; exact toU16_natCast _ hmem
        rw [hval]
        refine ⟨⟨fill1.1, fill1.2, ?_, hC.mem_lt, hregs⟩, rfl, rfl, rfl, rfl⟩
        intro l2' hl2'
        cases hl2'
        exact ⟨Cache.accessCache_Geo _ hl2C.1 _ hA _ false, rh.2⟩
      · have h2f := bool_eq_false_of_not_true h2
        rw [lw_of_miss_l2miss _ _ _ _ l2 h1f hl2 h2f]
        have fill2 := Cache.fill_Mirrors _ hl2C.1 m.memory _ hA hl2C.2
          (m.L1Cache.accessCache (effectiveAddress m.regs regAddr imm) 0 false).data
          (m.memory (effectiveAddress m.regs regAddr imm) : Nat) rfl
        refine ⟨⟨fill1.1, fill1.2, ?_, hC.mem_lt, hregs⟩, rfl, rfl, rfl, rfl⟩
        intro l2' hl2'
        cases hl2'
        exact fill2

/-- `sw` keeps a coherent machine coherent. -/
theorem sw_coherent (regSrc regAddr imm : Nat) (m : Machine) (hC : m.Coherent) :
    (sw regSrc regAddr imm m).Coherent := by
  have hA := effectiveAddress_lt m.regs regAddr imm
  have hmem' : ∀ a, assign m.memory (effectiveAddress m.regs regAddr imm) (m.regs regSrc) a
      < 65536 := assign_lt m.memory _ _ hC.mem_lt (hC.regs_lt regSrc)
  have wr : ∀ c : Cache, c.Geo → c.Mirrors m.memory →
      (c.accessCache (effectiveAddress m.regs regAddr imm) (m.regs regSrc : Nat) true).cache.Geo ∧
      (c.accessCache (effectiveAddress m.regs regAddr imm) (m.regs regSrc : Nat) true).cache.Mirrors
        (assign m.memory (effectiveAddress m.regs regAddr imm) (m.regs regSrc)) := by
    intro c hg hm
    refine ⟨Cache.accessCache_Geo _ hg _ hA _ true,
      Cache.write_Mirrors _ hg m.memory _ _ _ (hm.except _) ?_ ?_⟩
    · rw [assign_same]
    · intro a ha
      unfold assign
      rw [if_neg ha]
  have w1 := wr _ hC.l1_geo hC.l1_mirrors
  refine ⟨?_, ?_, ?_, ?_, ?_⟩
  · rw [sw_L1Cache]; exact w1.1
  · rw [sw_L1Cache, sw_memory]; exact w1.2
  · intro l2' hl2'
    rw [sw_L2CachePtr] at hl2'
    cases hl2 : m.L2CachePtr with
    | none => rw [hl2] at hl2'; cases hl2'
    | some l2 =>
      rw [hl2] at hl2'
      cases hl2'
      rw [sw_memory]
      exact wr _ (hC.l2 l2 hl2).1 (hC.l2 l2 hl2).2
  · rw [sw_memory]; exact hmem'
  · rw [sw_regs]; exact hC.regs_lt

theorem guarded_assign_lt (regs : Nat → Nat) (regDst v : Nat) (h : ∀ r, regs r < 65536)
    (hv : v < 65536) : ∀ r, (if regDst ≠ 0 then assign regs regDst v else regs) r < 65536 := by
  intro r
  split
  · exact assign_lt regs regDst v h hv r
  · exact h r

theorem add_lt (regDst regSrcA regSrcB : Nat) (regs : Nat → Nat) (h : ∀ r, regs r < 65536) :
    ∀ r, add regDst regSrcA regSrcB regs r < 65536 :=
  guarded_assign_lt regs regDst _ h (Nat.mod_lt _ (by decide))

theorem sub_lt (regDst regSrcA regSrcB : Nat) (regs : Nat → Nat) (h : ∀ r, regs r < 65536) :
    ∀ r, sub regDst regSrcA regSrcB regs r < 65536 :=
  guarded_assign_lt regs regDst _ h (Nat.mod_lt _ (by decide))

theorem or_instr_lt (regDst regSrcA regSrcB : Nat) (regs : Nat → Nat)
    (h : ∀ r, regs r < 65536) : ∀ r, or_instr regDst regSrcA regSrcB regs r < 65536 :=
  guarded_assign_lt regs regDst _ h
    (Nat.or_lt_two_pow (n := 16) (h regSrcA) (h regSrcB))

theorem and_instr_lt (regDst regSrcA regSrcB : Nat) (regs : Nat → Nat)
    (h : ∀ r, regs r < 65536) : ∀ r, and_instr regDst regSrcA regSrcB regs r < 65536 :=
  guarded_assign_lt regs regDst _ h
    (Nat.lt_of_le_of_lt Nat.and_le_left (h regSrcA))

theorem slt_lt (regDst regSrcA regSrcB : Nat) (regs : Nat → Nat) (h : ∀ r, regs r < 65536) :
    ∀ r, slt regDst regSrcA regSrcB regs r < 65536 :=
  guarded_assign_lt regs regDst _ h (by split <;> decide)

theorem slti_lt (regDst regSrc imm : Nat) (regs : Nat → Nat) (h : ∀ r, regs r < 65536) :
    ∀ r, slti regDst regSrc imm regs r < 65536 :=
  guarded_assign_lt regs regDst _ h (by split <;> decide)

theorem addi_lt (regDst regSrc imm : Nat) (regs : Nat → Nat) (h : ∀ r, regs r < 65536) :
    ∀ r, addi regDst regSrc imm regs r < 65536 :=
  guarded_assign_lt regs regDst _ h (Nat.mod_lt _ (by decide))

theorem jal_lt (pc imm : Nat) (regs : Nat → Nat) (h : ∀ r, regs r < 65536) :
    ∀ r, (jal pc regs imm).1 r < 65536 :=
  assign_lt regs 7 _ h (Nat.lt_of_lt_of_le (Nat.mod_lt _ (by decide)) (by decide))

/-- Changing `pc`, `regs` (to 16-bit values) and `running` keeps a machine
coherent. -/
theorem Machine.Coherent.update {m : Machine} (hC : m.Coherent) (pc : Nat) (regs : Nat → Nat)
    (running : Bool) (hregs : ∀ r, regs r < 65536) :
    Machine.Coherent
      { pc := pc, regs := regs, memory := m.memory, running := running,
        L1Cache := m.L1Cache, L2CachePtr := m.L2CachePtr, log := m.log } :=
  ⟨hC.l1_geo, hC.l1_mirrors, hC.l2, hC.mem_lt, hregs⟩

theorem sw_running (regSrc regAddr imm : Nat) (m : Machine) :
    (sw regSrc regAddr imm m).running = m.running := by
  unfold sw; cases m.L2CachePtr <;> rfl

theorem lw_step_core (regDst regAddr imm : Nat) (m : Machine) (hC : m.Coherent) :
    Machine.core { lw regDst regAddr imm m with pc := nextPc (lw regDst regAddr imm m).pc }
      = { lwDirect regDst regAddr imm m.core with pc := nextPc m.core.pc } := by
  have h := lw_coherent regDst regAddr imm m hC
  show Core.mk _ _ _ _ = Core.mk _ _ _ _
  rw [h.2.1, h.2.2.1, h.2.2.2.1, h.2.2.2.2]
  rfl

theorem sw_step_core (regSrc regAddr imm : Nat) (m : Machine) :
    Machine.core { sw regSrc regAddr imm m with pc := nextPc (sw regSrc regAddr imm m).pc }
      = { swDirect regSrc regAddr imm m.core with pc := nextPc m.core.pc } := by
  show Core.mk _ _ _ _ = Core.mk _ _ _ _
  rw [sw_regs, sw_memory, sw_pc, sw_running]
  rfl

/-- `lw` keeps the number of rows of L1 and the presence of L2. -/
theorem lw_shape (regDst regAddr imm : Nat) (m : Machine) :
    (lw regDst regAddr imm m).L1Cache.numRows = m.L1Cache.numRows ∧
    (lw regDst regAddr imm m).L2CachePtr.isSome = m.L2CachePtr.isSome := by
  have g1 := (m.L1Cache.accessCache (effectiveAddress m.regs regAddr imm) 0 false).cache.accessCache_geometry
  have g0 := m.L1Cache.accessCache_geometry (effectiveAddress m.regs regAddr imm) 0 false
  by_cases h1 : (m.L1Cache.accessCache (effectiveAddress m.regs regAddr imm) 0 false).hit = true
  · rw [lw_of_hit _ _ _ _ h1]
    exact ⟨g0.1, rfl⟩
  · have h1f := bool_eq_false_of_not_true h1
    cases hl2 : m.L2CachePtr with
    | none =>
      rw [lw_of_miss_none _ _ _ _ h1f hl2]
      exact ⟨((g1 _ _ _).1).trans g0.1, hl2 ▸ rfl⟩
    | some l2 =>
      by_cases h2 : (l2.accessCache (effectiveAddress m.regs regAddr imm)
          (m.L1Cache.accessCache (effectiveAddress m.regs regAddr imm) 0 false).data false).hit = true
      · rw [lw_of_miss_l2hit _ _ _ _ l2 h1f hl2 h2]
        exact ⟨((g1 _ _ _).1).trans g0.1, rfl⟩
      · have h2f := bool_eq_false_of_not_true h2
        rw [lw_of_miss_l2miss _ _ _ _ l2 h1f hl2 h2f]
        exact ⟨((g1 _ _ _).1).trans g0.1, rfl⟩

/-- `sw` keeps the number of rows of L1 and the presence of L2. -/
theorem sw_shape (regSrc regAddr imm : Nat) (m : Machine) :
    (sw regSrc regAddr imm m).L1Cache.numRows = m.L1Cache.numRows ∧
    (sw regSrc regAddr imm m).L2CachePtr.isSome = m.L2CachePtr.isSome := by
  rw [sw_L1Cache, sw_L2CachePtr]
  refine ⟨(m.L1Cache.accessCache_geometry _ _ _).1, ?_⟩
  cases m.L2CachePtr <;> rfl

/-- One instruction: from a coherent machine `execute_instruction` returns a
coherent machine whose cache-less part is what the reference machine computes. -/
theorem execute_instruction_coherent (instr : Nat) (m : Machine) (hC : m.Coherent)
    (hi : instr < 65536) :
    ∃ m', execute_instruction instr m = some m' ∧ m'.Coherent ∧
      executeDirect instr m.core = some m'.core ∧
      m'.L1Cache.numRows = m.L1Cache.numRows ∧
      m'.L2CachePtr.isSome = m.L2CachePtr.isSome := by
  have hop : instr >>> 13 < 8 := by
    rw [Nat.shiftRight_eq_div_pow]; omega
  unfold execute_instruction executeDirect
  simp only [Machine.core]
  by_cases h0 : instr >>> 13 = 0
  · simp only [h0, if_true]
    by_cases c0 : instr &&& 15 = 0
    · simp only [c0, if_true]
      exact ⟨_, rfl, hC.update _ _ _ (add_lt _ _ _ _ hC.regs_lt), rfl, rfl, rfl⟩
    · by_cases c1 : instr &&& 15 = 1
      · simp only [c1, if_true]
        exact ⟨_, rfl, hC.update _ _ _ (sub_lt _ _ _ _ hC.regs_lt), rfl, rfl, rfl⟩
      · by_cases c2 : instr &&& 15 = 2
        · simp only [c2, if_true]
          exact ⟨_, rfl, hC.update _ _ _ (or_instr_lt _ _ _ _ hC.regs_lt), rfl, rfl, rfl⟩
        · by_cases c3 : instr &&& 15 = 3
          · simp only [c3, if_true]
            exact ⟨_, rfl, hC.update _ _ _ (and_instr_lt _ _ _ _ hC.regs_lt), rfl, rfl, rfl⟩
          · by_cases c4 : instr &&& 15 = 4
            · simp only [c4, if_true]
              exact ⟨_, rfl, hC.update _ _ _ (slt_lt _ _ _ _ hC.regs_lt), rfl, rfl, rfl⟩
            · by_cases c8 : instr &&& 15 = 8
              · simp only [c8, if_true]
                exact ⟨_, rfl, hC.update _ _ _ hC.regs_lt, rfl, rfl, rfl⟩
              · simp only [c0, c1, c2, c3, c4, c8, if_false]
                exact ⟨_, rfl, hC, rfl, rfl, rfl⟩
  · by_cases h1 : instr >>> 13 = 1
    · simp only [h1, if_true]
      exact ⟨_, rfl, hC.update _ _ _ (addi_lt _ _ _ _ hC.regs_lt), rfl, rfl, rfl⟩
    · by_cases h2 : instr >>> 13 = 2
      · simp only [h2, if_true]
        by_cases hp : instr &&& 8191 = m.pc
        · simp only [hp, if_true]
          exact ⟨_, rfl, hC.update _ _ _ hC.regs_lt, rfl, rfl, rfl⟩
        · simp only [hp, if_false]
          exact ⟨_, rfl, hC.update _ _ _ hC.regs_lt, rfl, rfl, rfl⟩
      · by_cases h3 : instr >>> 13 = 3
        · simp only [h3, if_true]
          exact ⟨_, rfl, hC.update _ _ _ (jal_lt _ _ _ hC.regs_lt), rfl, rfl, rfl⟩
        · by_cases h4 : instr >>> 13 = 4
          · simp only [h4, if_true]
            have hl := lw_coherent ((instr >>> 7) &&& 7) ((instr >>> 10) &&& 7)
              (instr &&& 127) m hC
            exact ⟨_, rfl, ⟨hl.1.l1_geo, hl.1.l1_mirrors, hl.1.l2, hl.1.mem_lt, hl.1.regs_lt⟩,
              congrArg some (lw_step_core _ _ _ m hC).symm, lw_shape _ _ _ m⟩
          · by_cases h5 : instr >>> 13 = 5
            · simp only [h5, if_true]
              have hs := sw_coherent ((instr >>> 7) &&& 7) ((instr >>> 10) &&& 7)
                (instr &&& 127) m hC
              exact ⟨_, rfl, ⟨hs.l1_geo, hs.l1_mirrors, hs.l2, hs.mem_lt, hs.regs_lt⟩,
                congrArg some (sw_step_core _ _ _ m).symm, sw_shape _ _ _ m⟩
            · by_cases h6 : instr >>> 13 = 6
              · simp only [h6, if_true]
                exact ⟨_, rfl, hC.update _ _ _ hC.regs_lt, rfl, rfl, rfl⟩
              · have h7 : instr >>> 13 = 7 := by omega
                simp only [h7, if_true]
                exact ⟨_, rfl, hC.update _ _ _ (slti_lt _ _ _ _ hC.regs_lt), rfl, rfl, rfl⟩

/-- Any sequence of 16-bit instruction words: from a coherent machine `executeAll`
returns a coherent machine whose cache-less part is what the reference machine
computes; the number of L1 rows and the presence of L2 do not change. -/
theorem executeAll_coherent (instrs : List Nat) :
    ∀ m : Machine, m.Coherent → (∀ i ∈ instrs, i < 65536) →
      ∃ m', executeAll instrs m = some m' ∧ m'.Coherent ∧
        executeAllDirect instrs m.core = some m'.core ∧
        m'.L1Cache.numRows = m.L1Cache.numRows ∧
        m'.L2CachePtr.isSome = m.L2CachePtr.isSome := by
  induction instrs with
  | nil => intro m hC _; exact ⟨m, rfl, hC, rfl, rfl, rfl⟩
  | cons i rest ih =>
    intro m hC hlt
    obtain ⟨m1, h1, hC1, hd1, hr1, hs1⟩ :=
      execute_instruction_coherent i m hC (hlt i (List.mem_cons_self _ _))
    obtain ⟨m2, h2, hC2, hd2, hr2, hs2⟩ :=
      ih m1 hC1 (fun x hx => hlt x (List.mem_cons_of_mem _ hx))
    refine ⟨m2, ?_, hC2, ?_, hr2.trans hr1, hs2.trans hs1⟩
    · show (execute_instruction i m).bind (executeAll rest) = some m2
      rw [h1]; exact h2
    · show (executeDirect i m.core).bind (executeAllDirect rest) = some m2.core
      rw [hd1]; exact hd2

/-- In a coherent machine every valid slot stores the memory word of the address
it stands for. -/
theorem Cache.slot_mirrors (c : Cache) (hg : c.Geo) (mem : Nat → Nat) (hm : c.Mirrors mem)
    (r k : Nat) (hv : (c.block r k).valid = true) :
    ∃ a, a < MEM_SIZE ∧ c.index a = r ∧ c.tag a = (c.block r k).tag ∧
      (c.block r k).data = (mem a : Int) := by
  obtain ⟨a, ha, hi, ht⟩ := hg.stands r k hv
  refine ⟨a, ha, hi, ht, ?_⟩
  have := hm a k (by rw [hi]; exact ⟨hv, ht.symm⟩)
  rw [hi] at this
  exact this

/-- C20: cache transparency at blocksize 1.  Start from empty caches (L1 alone or
L1 with L2) of blocksize 1 with a power-of-two number of rows, any memory image
and registers of 16-bit words, and execute any sequence of 16-bit instruction
words.  Then `execute_instruction` returns a state every time; `pc`, registers,
memory and `running` are exactly those of the reference machine that reads memory
directly; every valid slot of L1 and of L2 stores the current memory word of the
address it stands for; and a following `lw` writes `memory[effectiveAddress]`
into its destination register. -/
theorem C20_transparency (m0 : Machine) (instrs : List Nat) (size1 assoc1 q1 : Nat)
    (ha1 : 0 < assoc1) (hq1 : (Cache.new size1 assoc1 1).numRows = 2 ^ q1)
    (hL1 : m0.L1Cache = Cache.new size1 assoc1 1)
    (hL2 : m0.L2CachePtr = none ∨
      ∃ size2 assoc2 q2, 0 < assoc2 ∧ (Cache.new size2 assoc2 1).numRows = 2 ^ q2 ∧
        m0.L2CachePtr = some (Cache.new size2 assoc2 1))
    (hmem : ∀ a, m0.memory a < 65536) (hregs : ∀ r, m0.regs r < 65536)
    (hinstr : ∀ i ∈ instrs, i < 65536) :
    ∃ m, executeAll instrs m0 = some m ∧
      executeAllDirect instrs m0.core = some m.core ∧
      (∀ r k, (m.L1Cache.block r k).valid = true →
        ∃ a, a < MEM_SIZE ∧ m.L1Cache.index a = r ∧ m.L1Cache.tag a = (m.L1Cache.block r k).tag ∧
          (m.L1Cache.block r k).data = (m.memory a : Int)) ∧
      (∀ l2, m.L2CachePtr = some l2 → ∀ r k, (l2.block r k).valid = true →
        ∃ a, a < MEM_SIZE ∧ l2.index a = r ∧ l2.tag a = (l2.block r k).tag ∧
          (l2.block r k).data = (m.memory a : Int)) ∧
      (∀ regDst regAddr imm, (lw regDst regAddr imm m).regs regDst
        = m.memory (effectiveAddress m.regs regAddr imm)) := by
  have hC0 : m0.Coherent := by
    have g1 := Cache.new_Geo size1 assoc1 q1 ha1 hq1
    refine ⟨hL1 ▸ g1.1, hL1 ▸ g1.2 m0.memory, ?_, hmem, hregs⟩
    intro l2 hl2
    rcases hL2 with hnone | ⟨size2, assoc2, q2, ha2, hq2, hsome⟩
    · rw [hnone] at hl2; cases hl2
    · rw [hsome] at hl2
      cases hl2
      have g2 := Cache.new_Geo size2 assoc2 q2 ha2 hq2
      exact ⟨g2.1, g2.2 m0.memory⟩
  obtain ⟨m, hex, hC, hd, _, _⟩ := executeAll_coherent instrs m0 hC0 hinstr
  refine ⟨m, hex, hd, Cache.slot_mirrors _ hC.l1_geo _ hC.l1_mirrors, ?_, ?_⟩
  · intro l2 hl2
    exact Cache.slot_mirrors _ (hC.l2 l2 hl2).1 _ (hC.l2 l2 hl2).2
  · intro regDst regAddr imm
    rw [(lw_coherent regDst regAddr imm m hC).2.1, assign_same]

/-- Witness for C20: `sw $1, 0($0)` then `lw $1, 0($0)` with empty two-level
caches (L1 size 2, L2 size 4, direct-mapped, blocksize 1). -/
theorem C20_transparency_witness :
    ∃ m, executeAll [41088, 32896] machineStore = some m ∧
      executeAllDirect [41088, 32896] machineStore.core = some m.core :=
  have key := C20_transparency machineStore [41088, 32896] 2 1 1 (by decide) (by decide) rfl
    (Or.inr ⟨4, 1, 2, by decide, by decide, rfl⟩)
    (fun _ => (by decide : (5 : Nat) < 65536))
    (fun r => by
      show (if r = 1 then 42 else 0) < 65536
      split <;> decide)
    (by decide)
  key.elim fun m hm => ⟨m, hm.1, hm.2.1⟩

/-- C14 (counterexample): with no `--cache` argument the program
`addi $1,$0,42; sw $1,0($0); lw $1,0($0); j 3` halts with register 1 equal to 42,
and the default cache `L1Cache(1, 1, 1)` has logged two lines, `L1 SW` for the
store and `L1 HIT` for the load: the event sequence is not empty. -/
theorem C14_default_cache_logs :
    ((mainInit programStoreLoad []).bind (mainLoop 10)).map
        (fun m => (m.running, m.regs 1, m.log))
      = some (false, 42, [⟨.L1, .SW, 1, 0, 0⟩, ⟨.L1, .HIT, 2, 0, 0⟩]) ∧
    ((mainInit programStoreLoad []).bind (mainLoop 10)).map (fun m => m.log) ≠ some [] := by
  decide

theorem sw_log_none (regSrc regAddr imm : Nat) (m : Machine) (hl2 : m.L2CachePtr = none) :
    (sw regSrc regAddr imm m).log = m.log ++
      [⟨.L1, .SW, m.pc, effectiveAddress m.regs regAddr imm,
        m.L1Cache.index (effectiveAddress m.regs regAddr imm)⟩] := by
  unfold sw
  simp only [hl2, Cache.writeThrough_row]

theorem lw_log_none (regDst regAddr imm : Nat) (m : Machine) (hl2 : m.L2CachePtr = none) :
    (lw regDst regAddr imm m).log = m.log ++
      [⟨.L1, if (m.L1Cache.accessCache (effectiveAddress m.regs regAddr imm) 0 false).hit
              then .HIT else .MISS,
        m.pc, effectiveAddress m.regs regAddr imm,
        m.L1Cache.index (effectiveAddress m.regs regAddr imm)⟩] := by
  by_cases h1 : (m.L1Cache.accessCache (effectiveAddress m.regs regAddr imm) 0 false).hit = true
  · rw [lw_of_hit _ _ _ _ h1, h1, if_pos rfl, Cache.accessCache_index]
  · have h1f := bool_eq_false_of_not_true h1
    rw [lw_of_miss_none _ _ _ _ h1f hl2, h1f, if_neg (by decide)]

/-- C14 (amended): with no `--cache` argument the default one-slot cache
`L1Cache(1, 1, 1)` is in place and there is no L2.  After any sequence of 16-bit
instruction words, on a memory image of 16-bit words: `lw` writes
`memory[effectiveAddress]` into its destination register, leaves memory as it is
and logs exactly one line, `L1 HIT` or `L1 MISS` at row 0; `sw` writes the source
register to `memory[effectiveAddress]` and logs exactly one line, `L1 SW` at
row 0. -/
theorem C14_default_cache (memory : Nat → Nat) (hmem : ∀ a, memory a < 65536)
    (instrs : List Nat) (hinstr : ∀ i ∈ instrs, i < 65536) :
    ∃ m0 m, mainInit memory [] = some m0 ∧ m0.L1Cache = Cache.new 1 1 1 ∧
      m0.L2CachePtr = none ∧ executeAll instrs m0 = some m ∧ m.L2CachePtr = none ∧
      ∀ r regAddr imm,
        (lw r regAddr imm m).regs r = m.memory (effectiveAddress m.regs regAddr imm) ∧
        (lw r regAddr imm m).memory = m.memory ∧
        (lw r regAddr imm m).log = m.log ++
          [⟨.L1, if (m.L1Cache.accessCache (effectiveAddress m.regs regAddr imm) 0 false).hit
                  then .HIT else .MISS,
            m.pc, effectiveAddress m.regs regAddr imm, 0⟩] ∧
        (sw r regAddr imm m).memory
          = assign m.memory (effectiveAddress m.regs regAddr imm) (m.regs r) ∧
        (sw r regAddr imm m).log = m.log ++
          [⟨.L1, .SW, m.pc, effectiveAddress m.regs regAddr imm, 0⟩] := by
  have g1 := Cache.new_Geo 1 1 0 (by decide) (by decide)
  have hC0 : Machine.Coherent
      { pc := 0, regs := fun _ => 0, memory := memory, running := true,
        L1Cache := Cache.new 1 1 1, L2CachePtr := none, log := [] } :=
    ⟨g1.1, g1.2 memory, fun l2 hl2 => (by cases hl2), hmem, fun _ => (by decide : (0 : Nat) < 65536)⟩
  obtain ⟨m, hex, hC, _, hrows, hsome⟩ := executeAll_coherent instrs _ hC0 hinstr
  have hl2 : m.L2CachePtr = none := by
    cases h : m.L2CachePtr with
    | none => rfl
    | some l2 => rw [h] at hsome; cases hsome
  have hrow0 : ∀ a, m.L1Cache.index a = 0 := by
    intro a
    have := m.L1Cache.index_lt hC.l1_geo.inv.wf.rows_pos a
    have h1 : m.L1Cache.numRows = 1 := hrows
    omega
  refine ⟨_, m, rfl, rfl, rfl, hex, hl2, ?_⟩
  intro r regAddr imm
  have hl := lw_coherent r regAddr imm m hC
  refine ⟨?_, hl.2.2.1, ?_, sw_memory _ _ _ _, ?_⟩
  · rw [hl.2.1, assign_same]
  · rw [lw_log_none _ _ _ _ hl2, hrow0]
  · rw [sw_log_none _ _ _ _ hl2, hrow0]

/-- Witness for C14: the first two instructions of the store/load program, with
no `--cache` argument. -/
theorem C14_default_cache_witness :
    ∃ m0 m, mainInit programStoreLoad [] = some m0 ∧
      executeAll [8362, 41088] m0 = some m ∧ m.L2CachePtr = none ∧
      (lw 1 0 0 m).regs 1 = m.memory (effectiveAddress m.regs 0 0) :=
  have hmem : ∀ a, programStoreLoad a < 65536 := fun a => by
    unfold programStoreLoad
    split_ifs <;> decide
  have key := C14_default_cache programStoreLoad hmem [8362, 41088] (by decide)
  key.elim fun m0 h0 => h0.elim fun m hm =>
    ⟨m0, m, hm.1, hm.2.2.2.1, hm.2.2.2.2.1, (hm.2.2.2.2.2 1 0 0).1⟩

/-! ## Claim C21 -/

/-- Two addresses that agree above the offset bits have the same row and tag. -/
theorem Cache.same_block (c : Cache) (a a' : Nat)
    (h : a >>> c.offsetBits = a' >>> c.offsetBits) :
    c.index a = c.index a' ∧ c.tag a = c.tag a' := by
  unfold Cache.index Cache.tag
  rw [Nat.shiftRight_add, Nat.shiftRight_add, h]
  exact ⟨rfl, rfl⟩

/-- `accessCache` uses the address only through its row and tag. -/
theorem Cache.accessCache_congr (c : Cache) (a a' : Nat) (d : Int) (w : Bool)
    (hi : c.index a = c.index a') (ht : c.tag a = c.tag a') :
    c.accessCache a d w = c.accessCache a' d w := by
  simp only [Cache.accessCache, hi, ht]

/-- A read of `a'` right after a write of `v` to an address `a` of the same block
hits, in the row of `a`, and returns `v`. -/
theorem Cache.read_same_block (c : Cache) (h : c.WF) (a a' : Nat) (v d : Int)
    (hb : a' >>> c.offsetBits = a >>> c.offsetBits) :
    ((c.accessCache a v true).cache.accessCache a' d false).hit = true ∧
    ((c.accessCache a v true).cache.accessCache a' d false).index = c.index a ∧
    ((c.accessCache a v true).cache.accessCache a' d false).data = v := by
  have hg := c.accessCache_geometry a v true
  have hb1 : a' >>> (c.accessCache a v true).cache.offsetBits
      = a >>> (c.accessCache a v true).cache.offsetBits := by
    unfold Cache.offsetBits
    rw [hg.2.1]
    exact hb
  have hs := Cache.same_block _ a' a hb1
  rw [Cache.accessCache_congr _ a' a d false hs.1 hs.2]
  have hra := c.accessCache_read_after h a v d true
  exact ⟨hra.1, hra.2.1, by rw [hra.2.2, if_pos rfl]⟩

/-- C21: one data value per block.  A `lw` of an address in the block of the
address just stored to by `sw` (the two effective addresses agree above the
offset bits) hits L1, logs `L1 HIT` at that row, leaves memory as it is and writes
the stored value `v = regs[regSrc]` into its destination register, whatever
memory holds at the loaded address.  With L1 of size 2, associativity 1,
blocksize 2, register 1 = 42 and `memory[1] = 9`, the sequence `sw $1, 0($0)`
(word 41088), `lw $2, 1($0)` (word 33025) ends with register 2 equal to 42 while
`memory[1]` is still 9, and the log is `[L1 SW, L1 HIT]`. -/
theorem C21_one_value_per_block :
    (∀ (m : Machine) (regSrc regAddr imm regDst regAddr2 imm2 : Nat),
      m.L1Cache.WF → m.regs regSrc < 65536 →
      effectiveAddress m.regs regAddr2 imm2 >>> m.L1Cache.offsetBits
        = effectiveAddress m.regs regAddr imm >>> m.L1Cache.offsetBits →
      (lw regDst regAddr2 imm2 (sw regSrc regAddr imm m)).regs regDst = m.regs regSrc ∧
      (lw regDst regAddr2 imm2 (sw regSrc regAddr imm m)).memory
        = (sw regSrc regAddr imm m).memory ∧
      (lw regDst regAddr2 imm2 (sw regSrc regAddr imm m)).log =
        (sw regSrc regAddr imm m).log ++
          [⟨.L1, .HIT, m.pc, effectiveAddress m.regs regAddr2 imm2,
            m.L1Cache.index (effectiveAddress m.regs regAddr imm)⟩]) ∧
    2 ≤ machineBlockTwo.L1Cache.blocksize ∧
    machineBlockTwo.regs 1 = 42 ∧ machineBlockTwo.memory 1 = 9 ∧
    (executeAll [41088, 33025] machineBlockTwo).map (fun m => (m.regs 2, m.memory 1, m.log))
      = some (42, 9, [⟨.L1, .SW, 0, 0, 0⟩, ⟨.L1, .HIT, 1, 1, 0⟩]) := by
  refine ⟨?_, by decide, by decide, by decide, by decide⟩
  intro m regSrc regAddr imm regDst regAddr2 imm2 h1 hv hb
  have key := m.L1Cache.read_same_block h1 (effectiveAddress m.regs regAddr imm)
    (effectiveAddress m.regs regAddr2 imm2) (m.regs regSrc : Nat) 0 hb
  have hhit : ((sw regSrc regAddr imm m).L1Cache.accessCache
      (effectiveAddress (sw regSrc regAddr imm m).regs regAddr2 imm2) 0 false).hit = true := by
    rw [sw_regs, sw_L1Cache]; exact key.1
  rw [lw_of_hit _ _ _ _ hhit]
  refine ⟨?_, rfl, ?_⟩
  · show assign _ regDst _ regDst = _
    rw [assign_same, sw_regs, sw_L1Cache, key.2.2]
    exact toU16_natCast _ hv
  · show (sw regSrc regAddr imm m).log ++ _ = _
    rw [sw_regs, sw_L1Cache, key.2.1, sw_pc]

/-- Witness for C21: the general part at the machine with L1 of size 2,
associativity 1, blocksize 2: store register 1 (42) to address 0, load address 1
(where memory holds 9) into register 2. -/
theorem C21_one_value_per_block_witness :
    machineBlockTwo.L1Cache.WF ∧ machineBlockTwo.regs 1 < 65536 ∧
    effectiveAddress machineBlockTwo.regs 0 1 >>> machineBlockTwo.L1Cache.offsetBits
      = effectiveAddress machineBlockTwo.regs 0 0 >>> machineBlockTwo.L1Cache.offsetBits ∧
    (lw 2 0 1 (sw 1 0 0 machineBlockTwo)).regs 2 = machineBlockTwo.regs 1 ∧
    (sw 1 0 0 machineBlockTwo).memory 1 = 9 ∧ machineBlockTwo.regs 1 ≠ 9 :=
  have hw : machineBlockTwo.L1Cache.WF :=
    Cache.new_WF 2 1 2 (by decide) (by decide) (by decide)
  have key := C21_one_value_per_block.1 machineBlockTwo 1 0 0 2 0 1 hw (by decide) (by decide)
  ⟨hw, by decide, by decide, key.1, by decide, by decide⟩

end E20
